import Mathlib

/-!
# GameXepGach: placement, locking and line clearing

A shallow embedding of the core of `GameXepGachFn.cpp` (modules `Config`,
`Math`, `Tetromino`, `Board` and `GameEngine`) together with the properties
proved about it.

Modelling conventions.

* `float` values are exact rationals (`ℚ`): `0.4f`, `0.01f`, `0.1f`, `0.5f`
  stand for `2/5`, `1/100`, `1/10`, `1/2`.
* `int` values are unbounded integers (`ℤ`); signed overflow is undefined in
  C++ and is not modelled.
* `std::vector` is `List`; `push_back` appends at the end.
* `sqrt` is avoided by comparing squares, see `overlaps`.
* `cos` and `sin` enter `matRotate` as its two arguments; the game only ever
  rotates by 90 degrees, for which `rotate90` uses the exact values `0` and
  `1`. The program computes `cos(90 * 3.14159265f / 180)` in binary32, about
  `-4.37e-08`, so after a rotation its coordinates differ slightly from the
  integers of the model; the properties stated with `rotate90` are properties
  of the exact quarter turn.
* `rand()` is an explicit natural-number argument of every function that draws
  a piece.
-/

namespace GameXepGach

/-! ## Config -/

/-- Board width `Config::BOARD_W`. -/
def BOARD_W : ℤ := 10

/-- Board height `Config::BOARD_H`. -/
def BOARD_H : ℤ := 20

/-- Collision radius `Config::COLLISION_EPSILON`. -/
def COLLISION_EPSILON : ℚ := 2 / 5

/-! ## Math -/

/-- Two-dimensional vector `Math::Vec2`. -/
structure Vec2 where
  x : ℚ
  y : ℚ
deriving DecidableEq

/-- Square of `Vec2::distance`: `dx * dx + dy * dy`, the argument of `sqrt`. -/
def Vec2.distSq (a b : Vec2) : ℚ :=
  let dx := a.x - b.x
  let dy := a.y - b.y
  dx * dx + dy * dy

/-- Homogeneous matrix `Math::Mat3`; field `mij` is `m[i][j]`. -/
structure Mat3 where
  m00 : ℚ
  m01 : ℚ
  m02 : ℚ
  m10 : ℚ
  m11 : ℚ
  m12 : ℚ
  m20 : ℚ
  m21 : ℚ
  m22 : ℚ
deriving DecidableEq

/-- Identity matrix `Math::matIdentity`. -/
def matIdentity : Mat3 :=
  { m00 := 1, m01 := 0, m02 := 0,
    m10 := 0, m11 := 1, m12 := 0,
    m20 := 0, m21 := 0, m22 := 1 }

/-- Matrix product `Math::matMul`: every entry starts at `0` and accumulates
`a.m[i][k] * b.m[k][j]` for `k = 0, 1, 2`. -/
def matMul (a b : Mat3) : Mat3 :=
  { m00 := 0 + a.m00 * b.m00 + a.m01 * b.m10 + a.m02 * b.m20,
    m01 := 0 + a.m00 * b.m01 + a.m01 * b.m11 + a.m02 * b.m21,
    m02 := 0 + a.m00 * b.m02 + a.m01 * b.m12 + a.m02 * b.m22,
    m10 := 0 + a.m10 * b.m00 + a.m11 * b.m10 + a.m12 * b.m20,
    m11 := 0 + a.m10 * b.m01 + a.m11 * b.m11 + a.m12 * b.m21,
    m12 := 0 + a.m10 * b.m02 + a.m11 * b.m12 + a.m12 * b.m22,
    m20 := 0 + a.m20 * b.m00 + a.m21 * b.m10 + a.m22 * b.m20,
    m21 := 0 + a.m20 * b.m01 + a.m21 * b.m11 + a.m22 * b.m21,
    m22 := 0 + a.m20 * b.m02 + a.m21 * b.m12 + a.m22 * b.m22 }

/-- Translation matrix `Math::matTranslate`: identity with `m[2][0] = tx`,
`m[2][1] = ty`. -/
def matTranslate (tx ty : ℚ) : Mat3 :=
  { matIdentity with m20 := tx, m21 := ty }

/-- Rotation matrix `Math::matRotate`, given `c = cos(rad)` and `s = sin(rad)`:
identity with `m[0][0] = c`, `m[0][1] = -s`, `m[1][0] = s`, `m[1][1] = c`. -/
def matRotate (c s : ℚ) : Mat3 :=
  { matIdentity with m00 := c, m01 := -s, m10 := s, m11 := c }

/-- Point transform `Math::applyMat3` (row-vector convention, homogeneous
coordinate `1`). -/
def applyMat3 (m : Mat3) (v : Vec2) : Vec2 :=
  { x := v.x * m.m00 + v.y * m.m10 + 1 * m.m20,
    y := v.x * m.m01 + v.y * m.m11 + 1 * m.m21 }

/-! ## Tetromino -/

/-- One cell of a piece, `Tetromino::Block`. -/
structure Block where
  localPos : Vec2
  color : ℤ
deriving DecidableEq

/-- World position of a block, `Block::getWorldPos`. -/
def Block.getWorldPos (b : Block) (transform : Mat3) : Vec2 :=
  applyMat3 transform b.localPos

/-- Active piece, `Tetromino::Piece`. -/
structure Piece where
  blocks : List Block
  colorIndex : ℤ
  transform : Mat3
deriving DecidableEq

/-- World positions in pattern order, `Piece::getWorldPositions`. -/
def Piece.getWorldPositions (p : Piece) : List Vec2 :=
  p.blocks.map (fun block => block.getWorldPos p.transform)

/-- `Piece::translate`: post-multiplies the transform by a translation. -/
def Piece.translate (p : Piece) (dx dy : ℚ) : Piece :=
  let T := matTranslate dx dy
  { p with transform := matMul p.transform T }

/-- `Piece::rotate`, for an angle with cosine `c` and sine `s`: rotation about
the world position of the local origin. -/
def Piece.rotate (p : Piece) (c s : ℚ) : Piece :=
  let center := applyMat3 p.transform { x := 0, y := 0 }
  let T1 := matTranslate (-center.x) (-center.y)
  let R := matRotate c s
  let T2 := matTranslate center.x center.y
  let combined := matMul (matMul T1 R) T2
  { p with transform := matMul p.transform combined }

/-- The call `rotate(90.0f)` in exact arithmetic: `cos = 0`, `sin = 1`. The
program's own binary32 cosine of 90 degrees is about `-4.37e-08`; that
difference is outside this model. -/
def Piece.rotate90 (p : Piece) : Piece := p.rotate 0 1

/-! ## Board -/

/-- Settled cell, `Board::LockedBlock`. -/
structure LockedBlock where
  position : Vec2
  color : ℤ
deriving DecidableEq

/-- Board state, `Board::GameBoard`. -/
structure GameBoard where
  lockedBlocks : List LockedBlock
  score : ℤ
  highScore : ℤ
  linesClearedTotal : ℤ
  gameOver : Bool
deriving DecidableEq

/-- `GameBoard::overlaps`: `pos1.distance(pos2) < COLLISION_EPSILON`. Both sides
of the comparison are non-negative, so it is decided on the squares
(`overlaps_iff_sqrt` relates it to the square root). -/
def overlaps (pos1 pos2 : Vec2) : Bool :=
  decide (pos1.distSq pos2 < COLLISION_EPSILON * COLLISION_EPSILON)

/-- The constructor `GameBoard()`. -/
def GameBoard.new : GameBoard :=
  { lockedBlocks := [], score := 0, highScore := 0, linesClearedTotal := 0, gameOver := false }

/-- `GameBoard::reset`. -/
def GameBoard.reset (b : GameBoard) : GameBoard :=
  { b with lockedBlocks := [], score := 0, linesClearedTotal := 0, gameOver := false }

/-- Inner loop of `canPlace`: some locked block overlaps `pos`. -/
def hitsLocked (locked : List LockedBlock) (pos : Vec2) : Bool :=
  match locked with
  | [] => false
  | l :: rest => if overlaps pos l.position then true else hitsLocked rest pos

/-- Outer loop of `canPlace` over the world positions, with its early returns. -/
def canPlaceLoop (locked : List LockedBlock) : List Vec2 → Bool
  | [] => true
  | pos :: rest =>
    if pos.x < -(1 / 100) ∨ pos.x ≥ (BOARD_W : ℚ) then false
    else if pos.y ≥ (BOARD_H : ℚ) then false
    else if pos.y ≥ 0 ∧ hitsLocked locked pos = true then false
    else canPlaceLoop locked rest

/-- `GameBoard::canPlace`. -/
def GameBoard.canPlace (b : GameBoard) (piece : Piece) : Bool :=
  canPlaceLoop b.lockedBlocks piece.getWorldPositions

/-- `GameBoard::lockPiece`. -/
def GameBoard.lockPiece (b : GameBoard) (piece : Piece) : GameBoard :=
  let positions := piece.getWorldPositions
  { b with
    lockedBlocks := positions.foldl
      (fun acc pos =>
        if pos.y ≥ 0 ∧ pos.y < (BOARD_H : ℚ) ∧ pos.x ≥ -(1 / 100) ∧ pos.x < (BOARD_W : ℚ) then
          acc ++ [{ position := pos, color := piece.colorIndex }]
        else acc)
      b.lockedBlocks }

/-- The C function `round`: nearest integer, halves away from zero. -/
def roundf (y : ℚ) : ℚ :=
  if 0 ≤ y then ((⌊y + 1 / 2⌋ : ℤ) : ℚ) else ((⌈y - 1 / 2⌉ : ℤ) : ℚ)

/-- First loop of `clearLines`: the rounded row coordinates, first occurrences
only (a value is skipped when one within `0.1` is already listed). -/
def collectYPositions (locked : List LockedBlock) : List ℚ :=
  locked.foldl
    (fun yPositions block =>
      let y := roundf block.position.y
      if yPositions.any (fun yPos => decide (|yPos - y| < 1 / 10)) then yPositions
      else yPositions ++ [y])
    []

/-- The counter of the second loop: locked blocks with `|block.y - y| < 0.5`. -/
def countRow (locked : List LockedBlock) (y : ℚ) : ℤ :=
  locked.foldl (fun count block => if |block.position.y - y| < 1 / 2 then count + 1 else count) 0

/-- Second loop of `clearLines`: the listed rows whose counter reaches `BOARD_W`. -/
def fullLinesOf (locked : List LockedBlock) : List ℚ :=
  (collectYPositions locked).foldl
    (fun fullLines y => if countRow locked y ≥ BOARD_W then fullLines ++ [y] else fullLines)
    []

/-- The flag `inFullLine` of the third loop. -/
def inFullLine (fullLines : List ℚ) (block : LockedBlock) : Bool :=
  match fullLines with
  | [] => false
  | y :: rest => if |block.position.y - y| < 1 / 2 then true else inFullLine rest block

/-- The accumulator `shift` of the third loop: one per full line with
`y > block.position.y`. -/
def shiftOf (fullLines : List ℚ) (block : LockedBlock) : ℚ :=
  fullLines.foldl (fun shift y => if y > block.position.y then shift + 1 else shift) 0

/-- Third loop of `clearLines`: the surviving blocks, shifted. -/
def shiftedSurvivors (fullLines : List ℚ) (locked : List LockedBlock) : List LockedBlock :=
  locked.foldl
    (fun newBlocks block =>
      if inFullLine fullLines block = false then
        newBlocks ++
          [{ block with
              position := { block.position with y := block.position.y + shiftOf fullLines block } }]
      else newBlocks)
    []

/-- The score table of `clearLines`. -/
def pointsFor (lines : ℤ) : ℤ :=
  if lines = 1 then 100 else if lines = 2 then 300 else if lines = 3 then 500 else 800

/-- `GameBoard::clearLines`: the returned count and the board afterwards. -/
def GameBoard.clearLines (b : GameBoard) : ℤ × GameBoard :=
  let fullLines := fullLinesOf b.lockedBlocks
  if fullLines.isEmpty = false then
    let newBlocks := shiftedSurvivors fullLines b.lockedBlocks
    let lines : ℤ := (fullLines.length : ℤ)
    let points := pointsFor lines
    let score := b.score + points
    let highScore := if score > b.highScore then score else b.highScore
    (lines,
      { lockedBlocks := newBlocks,
        score := score,
        highScore := highScore,
        linesClearedTotal := b.linesClearedTotal + lines,
        gameOver := b.gameOver })
  else (0, b)

/-- `GameBoard::setGameOver`. -/
def GameBoard.setGameOver (b : GameBoard) (value : Bool) : GameBoard :=
  { b with gameOver := value }

/-! ## Piece catalog -/

/-- Colour constants of `Color::ColorType`. -/
def CYAN : ℤ := 1

/-- See `CYAN`. -/
def YELLOW : ℤ := 2

/-- See `CYAN`. -/
def PURPLE : ℤ := 3

/-- See `CYAN`. -/
def GREEN : ℤ := 4

/-- See `CYAN`. -/
def RED : ℤ := 5

/-- See `CYAN`. -/
def BLUE : ℤ := 6

/-- See `CYAN`. -/
def ORANGE : ℤ := 7

/-- A catalog entry: four local offsets, one colour, identity transform (the
default constructor `Piece()` sets the transform to `matIdentity()`). -/
def mkTemplate (color : ℤ) (a b c d : ℚ × ℚ) : Piece :=
  { blocks :=
      [ { localPos := { x := a.1, y := a.2 }, color := color },
        { localPos := { x := b.1, y := b.2 }, color := color },
        { localPos := { x := c.1, y := c.2 }, color := color },
        { localPos := { x := d.1, y := d.2 }, color := color } ],
    colorIndex := color,
    transform := matIdentity }

/-- The seven shapes pushed by `PieceFactory::initTemplates`, in order
I, O, T, S, Z, J, L. -/
def templates : List Piece :=
  [ mkTemplate CYAN (-2, 0) (-1, 0) (0, 0) (1, 0),
    mkTemplate YELLOW (0, 0) (1, 0) (0, 1) (1, 1),
    mkTemplate PURPLE (-1, 0) (0, 0) (1, 0) (0, 1),
    mkTemplate GREEN (0, 0) (1, 0) (-1, 1) (0, 1),
    mkTemplate RED (-1, 0) (0, 0) (0, 1) (1, 1),
    mkTemplate BLUE (-1, 0) (0, 0) (1, 0) (1, 1),
    mkTemplate ORANGE (-1, 0) (0, 0) (1, 0) (-1, 1) ]

/-- `PieceFactory::createRandomPiece`, with `r` the value returned by `rand()`. -/
def createRandomPiece (r : ℕ) : Piece :=
  templates.get ⟨r % templates.length, Nat.mod_lt r (by decide)⟩

/-! ## Game engine -/

/-- The mutable part of `GameEngine::Game`. -/
structure Game where
  board : GameBoard
  currentPiece : Piece
  nextPiece : Piece
deriving DecidableEq

/-- `Game::spawnPiece`; `r1` is the draw used when the next piece has no
blocks, `r2` the draw for the new next piece. -/
def Game.spawnPiece (g : Game) (r1 r2 : ℕ) : Game :=
  let chosen := if g.nextPiece.blocks.isEmpty then createRandomPiece r1 else g.nextPiece
  let current := ({ chosen with transform := matIdentity } : Piece).translate ((BOARD_W : ℚ) / 2) 1
  let next : Piece := { createRandomPiece r2 with transform := matIdentity }
  let board := if g.board.canPlace current = false then { g.board with gameOver := true } else g.board
  { board := board, currentPiece := current, nextPiece := next }

/-- The constructor `Game()`: default-constructed members, one draw for the
next piece, then `spawnPiece`. -/
def Game.new (r0 r1 r2 : ℕ) : Game :=
  let start : Game :=
    { board := GameBoard.new,
      currentPiece := { blocks := [], colorIndex := 0, transform := matIdentity },
      nextPiece := createRandomPiece r0 }
  start.spawnPiece r1 r2

/-- `Game::tryMove`: the returned flag and the game afterwards. -/
def Game.tryMove (g : Game) (dx dy : ℚ) : Bool × Game :=
  let testPiece := g.currentPiece.translate dx dy
  if g.board.canPlace testPiece then (true, { g with currentPiece := testPiece })
  else (false, g)

/-- The wall-kick loop of `tryRotate` over the remaining offsets. -/
def kickLoop (board : GameBoard) (testPiece : Piece) : List ℚ → Option Piece
  | [] => none
  | k :: rest =>
    let kickPiece := testPiece.translate k 0
    if board.canPlace kickPiece then some kickPiece else kickLoop board testPiece rest

/-- `Game::tryRotate`: the returned flag and the game afterwards. -/
def Game.tryRotate (g : Game) : Bool × Game :=
  let testPiece := g.currentPiece.rotate90
  if g.board.canPlace testPiece then (true, { g with currentPiece := testPiece })
  else
    match kickLoop g.board testPiece [-1, 1, -2, 2] with
    | some kickPiece => (true, { g with currentPiece := kickPiece })
    | none => (false, g)

/-- The lock branch shared by `softDrop` and `hardDrop`: `lockPiece`,
`clearLines`, `spawnPiece`. -/
def Game.lockAndSpawn (g : Game) (r1 r2 : ℕ) : Game :=
  let locked := g.board.lockPiece g.currentPiece
  let cleared := locked.clearLines.2
  ({ g with board := cleared } : Game).spawnPiece r1 r2

/-- `Game::softDrop`. -/
def Game.softDrop (g : Game) (r1 r2 : ℕ) : Game :=
  if g.board.gameOver then g
  else
    let testPiece := g.currentPiece.translate 0 1
    if g.board.canPlace testPiece then { g with currentPiece := testPiece }
    else g.lockAndSpawn r1 r2

/-- The `while (true)` loop of `hardDrop`, run for at most `fuel` tests:
`none` when the fuel runs out before the loop breaks. -/
def dropLoop (board : GameBoard) : ℕ → Piece → Option Piece
  | 0, _ => none
  | fuel + 1, current =>
    let testPiece := current.translate 0 1
    if board.canPlace testPiece = false then some current
    else dropLoop board fuel testPiece

/-- `Game::hardDrop` with a bound on the loop: `none` when the loop has not
ended within `fuel` tests. -/
def Game.hardDrop (g : Game) (fuel r1 r2 : ℕ) : Option Game :=
  if g.board.gameOver then some g
  else
    match dropLoop g.board fuel g.currentPiece with
    | none => none
    | some landed => some (({ g with currentPiece := landed } : Game).lockAndSpawn r1 r2)

/-- `Game::handleKeyLeft`. -/
def Game.handleKeyLeft (g : Game) : Game := (g.tryMove (-1) 0).2

/-- `Game::handleKeyRight`. -/
def Game.handleKeyRight (g : Game) : Game := (g.tryMove 1 0).2

/-- `Game::handleKeyUp`. -/
def Game.handleKeyUp (g : Game) : Game := g.tryRotate.2

/-- `Game::handleKeyDown`. -/
def Game.handleKeyDown (g : Game) (r1 r2 : ℕ) : Game := g.softDrop r1 r2

/-- `Game::handleKeySpace`. -/
def Game.handleKeySpace (g : Game) (fuel r1 r2 : ℕ) : Option Game := g.hardDrop fuel r1 r2

/-- `Game::update`, the gravity tick. -/
def Game.update (g : Game) (r1 r2 : ℕ) : Game := g.softDrop r1 r2

/-- `Game::handleKeyR`: board reset, a fresh next piece, `spawnPiece`. -/
def Game.handleKeyR (g : Game) (r0 r1 r2 : ℕ) : Game :=
  ({ g with board := g.board.reset, nextPiece := createRandomPiece r0 } : Game).spawnPiece r1 r2

/-- The commands of the external interface, each with the draws it may use. -/
inductive Command where
  | moveLeft
  | moveRight
  | rotate
  | softDrop (r1 r2 : ℕ)
  | tick (r1 r2 : ℕ)
  | hardDrop (r1 r2 : ℕ)
  | reset (r0 r1 r2 : ℕ)

/-- One command, with `fuel` bounding the loop of `hardDrop`. -/
def Game.run (g : Game) (fuel : ℕ) : Command → Option Game
  | .moveLeft => some g.handleKeyLeft
  | .moveRight => some g.handleKeyRight
  | .rotate => some g.handleKeyUp
  | .softDrop r1 r2 => some (g.softDrop r1 r2)
  | .tick r1 r2 => some (g.softDrop r1 r2)
  | .hardDrop r1 r2 => g.hardDrop fuel r1 r2
  | .reset r0 r1 r2 => some (g.handleKeyR r0 r1 r2)

/-- States reachable from a new game by a sequence of commands. -/
inductive Reachable : Game → Prop where
  | init (r0 r1 r2 : ℕ) : Reachable (Game.new r0 r1 r2)
  | step (g g2 : Game) (fuel : ℕ) (c : Command) :
      Reachable g → g.run fuel c = some g2 → Reachable g2

/-! ## Auxiliary definitions used in the statements -/

/-- Membership test of a block in the band of row `y`: `|block.y - y| < 0.5`. -/
def inRow (y : ℚ) (block : LockedBlock) : Bool := decide (|block.position.y - y| < 1 / 2)

/-- A surviving block after the shift of the third loop of `clearLines`. -/
def shiftBlock (fullLines : List ℚ) (block : LockedBlock) : LockedBlock :=
  { block with
    position := { block.position with y := block.position.y + shiftOf fullLines block } }

/-- Row `r` is one that `clearLines` removes: some locked block rounds to `r`
and at least `BOARD_W` locked blocks lie within `0.5` of it. -/
def IsClearedRow (locked : List LockedBlock) (r : ℚ) : Prop :=
  (∃ block ∈ locked, roundf block.position.y = r) ∧ BOARD_W ≤ (locked.countP (inRow r) : ℤ)

/-- A locked block at `(x, y)`. -/
def lockedAt (x y : ℚ) (color : ℤ) : LockedBlock :=
  { position := { x := x, y := y }, color := color }

/-- A run of `n` locked blocks at height `y` in columns `0, 1, ..., n - 1`. -/
def rowOf (y : ℚ) (n : ℕ) (color : ℤ) : List LockedBlock :=
  (List.range n).map (fun (i : ℕ) => lockedAt (i : ℚ) y color)

/-- A board with the given locked blocks and all counters at zero. -/
def boardOf (locked : List LockedBlock) : GameBoard :=
  { lockedBlocks := locked, score := 0, highScore := 0, linesClearedTotal := 0, gameOver := false }

/-- A piece with one block at local `(x, y)` and the identity transform. -/
def singleBlockPiece (x y : ℚ) : Piece :=
  { blocks := [{ localPos := { x := x, y := y }, color := 1 }], colorIndex := 1,
    transform := matIdentity }

/-- The I-piece at its spawn position. -/
def spawnedI : Piece := (mkTemplate CYAN (-2, 0) (-1, 0) (0, 0) (1, 0)).translate 5 1

/-- A rational that is an integer. -/
def IsInt (q : ℚ) : Prop := ∃ n : ℤ, q = (n : ℚ)

/-- A vector with integer coordinates (the corner of a cell). -/
def IsIntVec (v : Vec2) : Prop := IsInt v.x ∧ IsInt v.y

/-- An affine transform with integer entries and determinant one: third column
`(0, 0, 1)`, as produced from `matIdentity`, integer translations and
quarter-turn rotations. -/
def IsIntAffine (m : Mat3) : Prop :=
  m.m02 = 0 ∧ m.m12 = 0 ∧ m.m22 = 1 ∧
    IsInt m.m00 ∧ IsInt m.m01 ∧ IsInt m.m10 ∧ IsInt m.m11 ∧ IsInt m.m20 ∧ IsInt m.m21 ∧
    m.m00 * m.m11 - m.m01 * m.m10 = 1

/-- A block pattern with integer, pairwise distinct local offsets. -/
def BlocksOK (blocks : List Block) : Prop :=
  (∀ block ∈ blocks, IsIntVec block.localPos) ∧ (blocks.map (fun block => block.localPos)).Nodup

/-- A piece with a lattice pattern and a lattice transform. -/
def PieceOK (p : Piece) : Prop := BlocksOK p.blocks ∧ IsIntAffine p.transform

/-- No two locked blocks are closer than `COLLISION_EPSILON`. -/
def Separated (locked : List LockedBlock) : Prop :=
  locked.Pairwise (fun a b => overlaps a.position b.position = false)

/-- Every locked block sits on an integer cell and no cell holds two of them. -/
def OnePerCell (locked : List LockedBlock) : Prop :=
  (∀ block ∈ locked, IsIntVec block.position) ∧
    locked.Pairwise (fun a b => a.position ≠ b.position)

/-- The invariant of the game loop: lattice board, lattice pieces, and a legal
current piece unless the game is over. -/
def GameInv (g : Game) : Prop :=
  OnePerCell g.board.lockedBlocks ∧ PieceOK g.currentPiece ∧ BlocksOK g.nextPiece.blocks ∧
    (g.board.gameOver = false → g.board.canPlace g.currentPiece = true)

/-- The bounds test of `lockPiece` on one world position. -/
def lockable (pos : Vec2) : Bool :=
  decide (pos.y ≥ 0 ∧ pos.y < (BOARD_H : ℚ) ∧ pos.x ≥ -(1 / 100) ∧ pos.x < (BOARD_W : ℚ))

/-- The command is the restart key. -/
def Command.isReset : Command → Bool
  | .reset _ _ _ => true
  | _ => false

/-- A run of gravity steps, one pair of draws per step. -/
def softDrops (draws : List (ℕ × ℕ)) (g : Game) : Game :=
  draws.foldl (fun state d => state.softDrop d.1 d.2) g

/-- Third column `(0, 0, 1)`: the transform maps the homogeneous coordinate
`1` to `1`. -/
def IsAffine (m : Mat3) : Prop := m.m02 = 0 ∧ m.m12 = 0 ∧ m.m22 = 1

/-- A game state together with the largest score seen since the program
started: the new game starts the record, every command updates it. -/
inductive Session : Game → ℤ → Prop where
  | init (r0 r1 r2 : ℕ) : Session (Game.new r0 r1 r2) (Game.new r0 r1 r2).board.score
  | step (g g2 : Game) (best : ℤ) (fuel : ℕ) (c : Command) :
      Session g best → g.run fuel c = some g2 → Session g2 (max best g2.board.score)

/-- A game on the empty board with the I-piece at its spawn position and the
O-piece next, and the game-over flag as given. -/
def sampleGame (over : Bool) : Game :=
  { board := { GameBoard.new with gameOver := over },
    currentPiece := spawnedI,
    nextPiece := mkTemplate YELLOW (0, 0) (1, 0) (0, 1) (1, 1) }

/-- The placement made by `spawnPiece`: identity transform, then
`translate(BOARD_W / 2.0f, 1.0f)`. -/
def spawnPlacement (p : Piece) : Piece :=
  ({ p with transform := matIdentity } : Piece).translate ((BOARD_W : ℚ) / 2) 1

/-- The I-piece pattern under the translation by `(5, y)`. -/
def pieceIAt (y : ℚ) : Piece :=
  { mkTemplate CYAN (-2, 0) (-1, 0) (0, 0) (1, 0) with transform := matTranslate 5 y }

/-- The empty board with the I-piece at height `y` and the given next piece. -/
def fallingI (y : ℚ) (next : Piece) : Game :=
  { board := GameBoard.new, currentPiece := pieceIAt y, nextPiece := next }

/-- The O-piece of the catalog. -/
def pieceO : Piece := mkTemplate YELLOW (0, 0) (1, 0) (0, 1) (1, 1)

/-- The piece after `n` down-steps `translate(0, 1)`, as one translation by
`n` rows. -/
def Piece.down (p : Piece) (n : ℕ) : Piece := p.translate 0 (n : ℚ)

/-- The drop loop of `hardDrop` takes exactly `k` down-steps from piece `p`:
the translations by `1, ..., k` rows are legal and the one by `k + 1` rows is
not. -/
def DropsExactly (board : GameBoard) (p : Piece) (k : ℕ) : Prop :=
  (∀ i : ℕ, 1 ≤ i → i ≤ k → board.canPlace (p.down i) = true) ∧
    board.canPlace (p.down (k + 1)) = false

/-- What every reachable state inherits from the catalog: the current pattern
is a catalog pattern, the next piece is a catalog piece, and no block of the
current piece is at or below the floor line. -/
def ShapeInv (g : Game) : Prop :=
  (∃ t ∈ templates, g.currentPiece.blocks = t.blocks) ∧ g.nextPiece ∈ templates ∧
    ∀ pos ∈ g.currentPiece.getWorldPositions, pos.y < (BOARD_H : ℚ)

/-- A board with a full row at height `19` under one block at height `18`. -/
def sampleRows : GameBoard := boardOf (rowOf 19 10 1 ++ [lockedAt 3 18 2])

/-- The boards a caller can hold: `GameBoard` keeps its fields private, so
every board comes from the constructor by `reset`, `lockPiece`, `clearLines`
and `setGameOver`. -/
inductive Receivable : GameBoard → Prop where
  | new : Receivable GameBoard.new
  | reset (b : GameBoard) : Receivable b → Receivable b.reset
  | lockPiece (b : GameBoard) (piece : Piece) : Receivable b → Receivable (b.lockPiece piece)
  | clearLines (b : GameBoard) : Receivable b → Receivable b.clearLines.2
  | setGameOver (b : GameBoard) (value : Bool) : Receivable b → Receivable (b.setGameOver value)

/-- Locked blocks off the integer lattice: a row of ten at height `18`, and in
column `0` one block half a cell above the row's band edge (`y = 17.5`) and one
half a cell below it (`y = 18.5`). -/
def offLatticeBlocks : List LockedBlock :=
  [lockedAt 0 (35 / 2) 1, lockedAt 0 (37 / 2) 2] ++ rowOf 18 10 3

/-- A piece of eleven blocks at height `19`, half a cell apart from `x = 0` to
`x = 5`: further apart than `COLLISION_EPSILON`, and all inside the board. -/
def overfullPiece : Piece :=
  { blocks := (List.range 11).map
      (fun (i : ℕ) => ({ localPos := { x := (i : ℚ) / 2, y := 19 }, color := 1 } : Block)),
    colorIndex := 1,
    transform := matIdentity }

/-! # Properties -/

/-! ## Collision test -/

/-- The comparison on squares used by `overlaps` is the comparison
`sqrt(dx * dx + dy * dy) < COLLISION_EPSILON` of the source. -/
theorem overlaps_iff_sqrt (p q : Vec2) :
    overlaps p q = true ↔ Real.sqrt ((p.distSq q : ℚ) : ℝ) < ((COLLISION_EPSILON : ℚ) : ℝ) := by
  have hpos : (0 : ℝ) < ((COLLISION_EPSILON : ℚ) : ℝ) := by
    norm_num [COLLISION_EPSILON]
  rw [Real.sqrt_lt' hpos]
  unfold overlaps
  rw [decide_eq_true_iff]
  constructor
  · intro h
    have h2 : ((p.distSq q : ℚ) : ℝ) < ((COLLISION_EPSILON * COLLISION_EPSILON : ℚ) : ℝ) := by
      exact_mod_cast h
    simpa [pow_two] using h2
  · intro h
    have h2 : ((p.distSq q : ℚ) : ℝ) < ((COLLISION_EPSILON * COLLISION_EPSILON : ℚ) : ℝ) := by
      simpa [pow_two] using h
    exact_mod_cast h2

theorem hitsLocked_iff (locked : List LockedBlock) (pos : Vec2) :
    hitsLocked locked pos = true ↔ ∃ l ∈ locked, overlaps pos l.position = true := by
  induction locked with
  | nil => simp [hitsLocked]
  | cons l rest ih =>
    unfold hitsLocked
    by_cases h : overlaps pos l.position = true
    · simp [h]
    · simp [h, ih]

theorem hitsLocked_eq_false_iff (locked : List LockedBlock) (pos : Vec2) :
    hitsLocked locked pos = false ↔ ∀ l ∈ locked, overlaps pos l.position = false := by
  rw [← Bool.not_eq_true, hitsLocked_iff]
  simp

theorem canPlaceLoop_iff (locked : List LockedBlock) (ps : List Vec2) :
    canPlaceLoop locked ps = true ↔
      ∀ pos ∈ ps, -(1 / 100) ≤ pos.x ∧ pos.x < 10 ∧ pos.y < 20 ∧
        (0 ≤ pos.y → ∀ l ∈ locked, overlaps pos l.position = false) := by
  induction ps with
  | nil => simp [canPlaceLoop]
  | cons pos rest ih =>
    unfold canPlaceLoop
    simp only [List.mem_cons, forall_eq_or_imp, BOARD_W, BOARD_H, Int.cast_ofNat]
    by_cases h1 : pos.x < -(1 / 100) ∨ pos.x ≥ 10
    · rw [if_pos h1]
      constructor
      · intro h; cases h
      · rintro ⟨⟨ha, hb, _⟩, _⟩
        rcases h1 with h1 | h1
        · exact absurd ha (not_le.mpr h1)
        · exact absurd hb (not_lt.mpr h1)
    · rw [if_neg h1]
      push_neg at h1
      by_cases h2 : pos.y ≥ 20
      · rw [if_pos h2]
        constructor
        · intro h; cases h
        · rintro ⟨⟨_, _, hc, _⟩, _⟩
          exact absurd hc (not_lt.mpr h2)
      · rw [if_neg h2]
        push_neg at h2
        by_cases h3 : pos.y ≥ 0 ∧ hitsLocked locked pos = true
        · rw [if_pos h3]
          constructor
          · intro h; cases h
          · rintro ⟨⟨_, _, _, hd⟩, _⟩
            have := (hitsLocked_eq_false_iff locked pos).mpr (hd h3.1)
            rw [h3.2] at this
            cases this
        · rw [if_neg h3, ih]
          constructor
          · intro h
            refine ⟨⟨h1.1, h1.2, h2, ?_⟩, h⟩
            intro hy
            apply (hitsLocked_eq_false_iff locked pos).mp
            by_contra hc
            exact h3 ⟨hy, by simpa using hc⟩
          · rintro ⟨_, h⟩
            exact h

theorem canPlace_iff_overlaps (b : GameBoard) (piece : Piece) :
    b.canPlace piece = true ↔
      ∀ pos ∈ piece.getWorldPositions, -(1 / 100) ≤ pos.x ∧ pos.x < 10 ∧ pos.y < 20 ∧
        (0 ≤ pos.y → ∀ l ∈ b.lockedBlocks, overlaps pos l.position = false) :=
  canPlaceLoop_iff b.lockedBlocks piece.getWorldPositions

theorem getWorldPositions_single (x y : ℚ) :
    (singleBlockPiece x y).getWorldPositions = [{ x := x, y := y }] := by
  simp [singleBlockPiece, Piece.getWorldPositions, Block.getWorldPos, applyMat3, matIdentity]

/-- C1. `canPlace` returns true exactly when every world position has
`x >= -0.01`, `x < 10`, `y < 20` and, when `y >= 0`, no locked block at Euclidean
distance below `0.4`; heights are unbounded below (on every board and below
every bound some placeable piece has a block), and a piece without blocks is
placeable. -/
theorem canPlace_spec (b : GameBoard) (piece : Piece) :
    (b.canPlace piece = true ↔
      ∀ pos ∈ piece.getWorldPositions,
        pos.x ≥ -(1 / 100) ∧ pos.x < 10 ∧ pos.y < 20 ∧
          (pos.y ≥ 0 → ∀ l ∈ b.lockedBlocks,
            ¬ Real.sqrt ((pos.distSq l.position : ℚ) : ℝ) < ((2 / 5 : ℚ) : ℝ))) ∧
    (∀ bound : ℚ, ∃ p : Piece,
      (∃ pos ∈ p.getWorldPositions, pos.y < bound) ∧ b.canPlace p = true) ∧
    (piece.blocks = [] → b.canPlace piece = true) := by
  refine ⟨?_, ?_, ?_⟩
  · rw [canPlace_iff_overlaps]
    constructor
    · intro h pos hpos
      obtain ⟨h1, h2, h3, h4⟩ := h pos hpos
      refine ⟨h1, h2, h3, ?_⟩
      intro hy l hl hs
      have := (overlaps_iff_sqrt pos l.position).mpr (by simpa [COLLISION_EPSILON] using hs)
      rw [h4 hy l hl] at this
      cases this
    · intro h pos hpos
      obtain ⟨h1, h2, h3, h4⟩ := h pos hpos
      refine ⟨h1, h2, h3, ?_⟩
      intro hy l hl
      by_contra hc
      have hov : overlaps pos l.position = true := by simpa using hc
      exact h4 hy l hl (by simpa [COLLISION_EPSILON] using (overlaps_iff_sqrt pos l.position).mp hov)
  · intro bound
    refine ⟨singleBlockPiece 0 (min bound 0 - 1), ?_, ?_⟩
    · rw [getWorldPositions_single]
      refine ⟨_, List.mem_singleton.mpr rfl, ?_⟩
      show min bound 0 - 1 < bound
      have := min_le_left bound 0
      linarith
    · rw [canPlace_iff_overlaps, getWorldPositions_single]
      intro pos hpos
      rw [List.mem_singleton] at hpos
      subst hpos
      have h0 := min_le_right bound 0
      refine ⟨by norm_num, by norm_num, ?_, ?_⟩
      · show min bound 0 - 1 < 20
        linarith
      · intro hy
        have hy2 : (0 : ℚ) ≤ min bound 0 - 1 := hy
        linarith
  · intro h
    simp [GameBoard.canPlace, Piece.getWorldPositions, h, canPlaceLoop]

/-! ## Loops that push onto a vector -/

theorem foldl_push_if {α β : Type} (p : α → Bool) (f : α → β) (l : List α) (acc : List β) :
    l.foldl (fun acc a => if p a = true then acc ++ [f a] else acc) acc =
      acc ++ (l.filter p).map f := by
  induction l generalizing acc with
  | nil => simp
  | cons a rest ih =>
    simp only [List.foldl_cons]
    rw [ih]
    by_cases h : p a = true
    · simp [h, List.filter_cons]
    · simp [h, List.filter_cons]

theorem foldl_count_if {α : Type} (p : α → Bool) (l : List α) (n : ℤ) :
    l.foldl (fun count a => if p a = true then count + 1 else count) n =
      n + (l.countP p : ℤ) := by
  induction l generalizing n with
  | nil => simp
  | cons a rest ih =>
    simp only [List.foldl_cons]
    rw [ih]
    by_cases h : p a = true
    · simp [h, List.countP_cons]; ring
    · simp [h, List.countP_cons]

theorem countRow_eq_countP (locked : List LockedBlock) (y : ℚ) :
    countRow locked y = (locked.countP (inRow y) : ℤ) := by
  have h := foldl_count_if (inRow y) locked 0
  simp only [inRow, decide_eq_true_eq, zero_add] at h
  exact h

theorem fullLinesOf_eq_filter (locked : List LockedBlock) :
    fullLinesOf locked =
      (collectYPositions locked).filter (fun y => decide (countRow locked y ≥ BOARD_W)) := by
  have h := foldl_push_if (fun y => decide (countRow locked y ≥ BOARD_W)) (fun y => y)
    (collectYPositions locked) []
  simp only [decide_eq_true_eq, List.nil_append, List.map_id_fun', id_eq] at h
  exact h

theorem inFullLine_iff (fullLines : List ℚ) (block : LockedBlock) :
    inFullLine fullLines block = true ↔ ∃ y ∈ fullLines, |block.position.y - y| < 1 / 2 := by
  induction fullLines with
  | nil => simp [inFullLine]
  | cons y rest ih =>
    unfold inFullLine
    by_cases h : |block.position.y - y| < 1 / 2
    · rw [if_pos h]
      exact ⟨fun _ => ⟨y, List.mem_cons_self _ _, h⟩, fun _ => rfl⟩
    · rw [if_neg h, ih]
      constructor
      · rintro ⟨z, hz, hlt⟩
        exact ⟨z, List.mem_cons_of_mem _ hz, hlt⟩
      · rintro ⟨z, hz, hlt⟩
        rcases List.mem_cons.mp hz with rfl | hz
        · exact absurd hlt h
        · exact ⟨z, hz, hlt⟩

theorem inFullLine_eq_false_iff (fullLines : List ℚ) (block : LockedBlock) :
    inFullLine fullLines block = false ↔ ∀ y ∈ fullLines, ¬ |block.position.y - y| < 1 / 2 := by
  rw [← Bool.not_eq_true, inFullLine_iff]
  simp

theorem shiftOf_eq_countP (fullLines : List ℚ) (block : LockedBlock) :
    shiftOf fullLines block =
      ((fullLines.countP (fun y => decide (y > block.position.y)) : ℕ) : ℚ) := by
  unfold shiftOf
  suffices h : ∀ (l : List ℚ) (s : ℚ),
      l.foldl (fun shift y => if y > block.position.y then shift + 1 else shift) s =
        s + ((l.countP (fun y => decide (y > block.position.y)) : ℕ) : ℚ) by
    rw [h]; simp
  intro l
  induction l with
  | nil => intro s; simp
  | cons a rest ih =>
    intro s
    simp only [List.foldl_cons]
    rw [ih]
    by_cases h : a > block.position.y
    · simp [h, List.countP_cons]; ring
    · simp [h, List.countP_cons]

theorem shiftedSurvivors_eq (fullLines : List ℚ) (locked : List LockedBlock) :
    shiftedSurvivors fullLines locked =
      (locked.filter (fun block => !inFullLine fullLines block)).map (shiftBlock fullLines) := by
  have h := foldl_push_if (fun block => !inFullLine fullLines block) (shiftBlock fullLines)
    locked []
  simp only [Bool.not_eq_true', List.nil_append] at h
  exact h

/-! ## Row enumeration -/

theorem roundf_isInt (y : ℚ) : ∃ n : ℤ, roundf y = (n : ℚ) := by
  unfold roundf
  split_ifs
  · exact ⟨_, rfl⟩
  · exact ⟨_, rfl⟩

theorem abs_intCast_sub_lt_tenth (a b : ℤ) : |(a : ℚ) - (b : ℚ)| < 1 / 10 ↔ a = b := by
  constructor
  · intro h
    have h1 : |((a - b : ℤ) : ℚ)| < 1 := by
      push_cast
      linarith
    have h2 : |a - b| < 1 := by exact_mod_cast h1
    have h3 := Int.abs_lt_one_iff.mp h2
    omega
  · rintro rfl
    simp

theorem any_near_iff_mem (acc : List ℚ) (y : ℚ) (hacc : ∀ z ∈ acc, ∃ n : ℤ, z = (n : ℚ))
    (hy : ∃ n : ℤ, y = (n : ℚ)) :
    acc.any (fun yPos => decide (|yPos - y| < 1 / 10)) = true ↔ y ∈ acc := by
  obtain ⟨m, rfl⟩ := hy
  rw [List.any_eq_true]
  constructor
  · rintro ⟨z, hz, hlt⟩
    obtain ⟨n, rfl⟩ := hacc z hz
    rw [decide_eq_true_iff, abs_intCast_sub_lt_tenth] at hlt
    subst hlt
    exact hz
  · intro hm
    refine ⟨_, hm, ?_⟩
    rw [decide_eq_true_iff, abs_intCast_sub_lt_tenth]

theorem collect_foldl_spec (l : List LockedBlock) :
    ∀ acc : List ℚ, (∀ z ∈ acc, ∃ n : ℤ, z = (n : ℚ)) → acc.Nodup →
      (∀ z ∈ l.foldl
          (fun yPositions block =>
            if yPositions.any (fun yPos => decide (|yPos - roundf block.position.y| < 1 / 10))
            then yPositions else yPositions ++ [roundf block.position.y]) acc,
          ∃ n : ℤ, z = (n : ℚ)) ∧
      (l.foldl
          (fun yPositions block =>
            if yPositions.any (fun yPos => decide (|yPos - roundf block.position.y| < 1 / 10))
            then yPositions else yPositions ++ [roundf block.position.y]) acc).Nodup ∧
      (∀ y, y ∈ l.foldl
          (fun yPositions block =>
            if yPositions.any (fun yPos => decide (|yPos - roundf block.position.y| < 1 / 10))
            then yPositions else yPositions ++ [roundf block.position.y]) acc ↔
          y ∈ acc ∨ ∃ block ∈ l, roundf block.position.y = y) := by
  induction l with
  | nil =>
    intro acc hint hnd
    simp only [List.foldl_nil, List.not_mem_nil, false_and, exists_false, or_false, implies_true,
      and_true]
    exact ⟨hint, hnd⟩
  | cons b rest ih =>
    intro acc hint hnd
    simp only [List.foldl_cons]
    have hy := roundf_isInt b.position.y
    have hany := any_near_iff_mem acc (roundf b.position.y) hint hy
    by_cases hmem : roundf b.position.y ∈ acc
    · rw [if_pos (hany.mpr hmem)]
      obtain ⟨h1, h2, h3⟩ := ih acc hint hnd
      refine ⟨h1, h2, ?_⟩
      intro y
      rw [h3 y]
      constructor
      · rintro (h | ⟨k, hk, hky⟩)
        · exact Or.inl h
        · exact Or.inr ⟨k, List.mem_cons_of_mem _ hk, hky⟩
      · rintro (h | ⟨k, hk, hky⟩)
        · exact Or.inl h
        · rcases List.mem_cons.mp hk with rfl | hk
          · exact Or.inl (hky ▸ hmem)
          · exact Or.inr ⟨k, hk, hky⟩
    · have hnot : ¬ (acc.any (fun yPos => decide (|yPos - roundf b.position.y| < 1 / 10)) = true) :=
        fun h => hmem (hany.mp h)
      rw [if_neg hnot]
      have hint2 : ∀ z ∈ acc ++ [roundf b.position.y], ∃ n : ℤ, z = (n : ℚ) := by
        intro z hz
        rcases List.mem_append.mp hz with hz | hz
        · exact hint z hz
        · rw [List.mem_singleton] at hz
          subst hz
          exact hy
      have hnd2 : (acc ++ [roundf b.position.y]).Nodup := by
        rw [List.nodup_append]
        refine ⟨hnd, List.nodup_singleton _, ?_⟩
        intro z hz hz2
        rw [List.mem_singleton] at hz2
        subst hz2
        exact hmem hz
      obtain ⟨h1, h2, h3⟩ := ih _ hint2 hnd2
      refine ⟨h1, h2, ?_⟩
      intro y
      rw [h3 y]
      constructor
      · rintro (h | ⟨k, hk, hky⟩)
        · rcases List.mem_append.mp h with h | h
          · exact Or.inl h
          · rw [List.mem_singleton] at h
            exact Or.inr ⟨b, List.mem_cons_self _ _, h.symm⟩
        · exact Or.inr ⟨k, List.mem_cons_of_mem _ hk, hky⟩
      · rintro (h | ⟨k, hk, hky⟩)
        · exact Or.inl (List.mem_append_left _ h)
        · rcases List.mem_cons.mp hk with rfl | hk
          · exact Or.inl (List.mem_append_right _ (List.mem_singleton.mpr hky.symm))
          · exact Or.inr ⟨k, hk, hky⟩

theorem collectYPositions_isInt (locked : List LockedBlock) :
    ∀ z ∈ collectYPositions locked, ∃ n : ℤ, z = (n : ℚ) :=
  (collect_foldl_spec locked [] (by simp) List.nodup_nil).1

theorem collectYPositions_nodup (locked : List LockedBlock) :
    (collectYPositions locked).Nodup :=
  (collect_foldl_spec locked [] (by simp) List.nodup_nil).2.1

theorem mem_collectYPositions (locked : List LockedBlock) (y : ℚ) :
    y ∈ collectYPositions locked ↔ ∃ block ∈ locked, roundf block.position.y = y := by
  have h := (collect_foldl_spec locked [] (by simp) List.nodup_nil).2.2 y
  rw [List.mem_nil_iff, false_or] at h
  exact h

theorem mem_fullLinesOf (locked : List LockedBlock) (y : ℚ) :
    y ∈ fullLinesOf locked ↔
      (∃ block ∈ locked, roundf block.position.y = y) ∧
        BOARD_W ≤ (locked.countP (inRow y) : ℤ) := by
  rw [fullLinesOf_eq_filter, List.mem_filter, mem_collectYPositions, decide_eq_true_iff,
    countRow_eq_countP]

theorem fullLinesOf_nodup (locked : List LockedBlock) : (fullLinesOf locked).Nodup := by
  rw [fullLinesOf_eq_filter]
  exact (collectYPositions_nodup locked).filter _

theorem fullLinesOf_isInt (locked : List LockedBlock) :
    ∀ z ∈ fullLinesOf locked, ∃ n : ℤ, z = (n : ℚ) := by
  intro z hz
  rw [fullLinesOf_eq_filter] at hz
  exact collectYPositions_isInt locked z (List.mem_of_mem_filter hz)

/-! ## Line clearing -/

theorem mem_fullLinesOf_iff (locked : List LockedBlock) (y : ℚ) :
    y ∈ fullLinesOf locked ↔ IsClearedRow locked y :=
  mem_fullLinesOf locked y

theorem clearLines_of_nil (b : GameBoard) (h : fullLinesOf b.lockedBlocks = []) :
    b.clearLines = (0, b) := by
  simp [GameBoard.clearLines, h]

theorem clearLines_of_ne_nil (b : GameBoard) (h : fullLinesOf b.lockedBlocks ≠ []) :
    b.clearLines =
      (((fullLinesOf b.lockedBlocks).length : ℤ),
        { lockedBlocks := shiftedSurvivors (fullLinesOf b.lockedBlocks) b.lockedBlocks,
          score := b.score + pointsFor ((fullLinesOf b.lockedBlocks).length : ℤ),
          highScore :=
            if b.score + pointsFor ((fullLinesOf b.lockedBlocks).length : ℤ) > b.highScore then
              b.score + pointsFor ((fullLinesOf b.lockedBlocks).length : ℤ)
            else b.highScore,
          linesClearedTotal := b.linesClearedTotal + ((fullLinesOf b.lockedBlocks).length : ℤ),
          gameOver := b.gameOver }) := by
  have h2 : (fullLinesOf b.lockedBlocks).isEmpty = false := by
    cases hfl : fullLinesOf b.lockedBlocks with
    | nil => exact absurd hfl h
    | cons a l => rfl
  simp [GameBoard.clearLines, h2]

theorem clearLines_fst (b : GameBoard) :
    b.clearLines.1 = ((fullLinesOf b.lockedBlocks).length : ℤ) := by
  by_cases h : fullLinesOf b.lockedBlocks = []
  · rw [clearLines_of_nil b h, h]
    rfl
  · rw [clearLines_of_ne_nil b h]

theorem fullLinesOf_eq_nil_iff (locked : List LockedBlock) :
    fullLinesOf locked = [] ↔ ∀ r, ¬ IsClearedRow locked r := by
  rw [List.eq_nil_iff_forall_not_mem]
  exact forall_congr' (fun r => not_congr (mem_fullLinesOf_iff locked r))

theorem eq_singleton_of_nodup_of_mem_iff {α : Type} (l : List α) (a : α) (hnd : l.Nodup)
    (h : ∀ y, y ∈ l ↔ y = a) : l = [a] := by
  match l, hnd, h with
  | [], _, h => exact absurd ((h a).mpr rfl) (List.not_mem_nil a)
  | [x], _, h =>
    have := (h x).mp (List.mem_singleton.mpr rfl)
    rw [this]
  | x :: y :: rest, hnd, h =>
    have hx := (h x).mp (List.mem_cons_self _ _)
    have hy := (h y).mp (List.mem_cons_of_mem _ (List.mem_cons_self _ _))
    rw [List.nodup_cons] at hnd
    exact absurd (hx.trans hy.symm ▸ List.mem_cons_self _ _) hnd.1

/-! ## Rounding and sample rows -/

theorem roundf_intCast (n : ℤ) : roundf (n : ℚ) = (n : ℚ) := by
  unfold roundf
  split_ifs with h
  · have : ⌊(n : ℚ) + 1 / 2⌋ = n := by
      rw [Int.floor_eq_iff]
      constructor <;> linarith
    rw [this]
  · have : ⌈(n : ℚ) - 1 / 2⌉ = n := by
      rw [Int.ceil_eq_iff]
      constructor <;> linarith
    rw [this]

theorem roundf_natCast (n : ℕ) : roundf (n : ℚ) = (n : ℚ) := by
  have h := roundf_intCast (n : ℤ)
  simpa using h

theorem roundf_zero : roundf 0 = 0 := by
  have h := roundf_intCast 0
  simpa using h

theorem roundf_ofNat (n : ℕ) [n.AtLeastTwo] :
    roundf (OfNat.ofNat n : ℚ) = (OfNat.ofNat n : ℚ) := by
  have h := roundf_natCast n
  simpa using h

theorem mem_rowOf (y : ℚ) (n : ℕ) (c : ℤ) (block : LockedBlock) :
    block ∈ rowOf y n c ↔ ∃ i < n, block = lockedAt (i : ℚ) y c := by
  simp only [rowOf, List.mem_map, List.mem_range]
  constructor
  · rintro ⟨i, hi, rfl⟩
    exact ⟨i, hi, rfl⟩
  · rintro ⟨i, hi, rfl⟩
    exact ⟨i, hi, rfl⟩

theorem countP_inRow_rowOf (y r : ℚ) (n : ℕ) (c : ℤ) :
    (rowOf y n c).countP (inRow r) = if |y - r| < 1 / 2 then n else 0 := by
  induction n with
  | zero => simp [rowOf]
  | succ k ih =>
    have hsplit : rowOf y (k + 1) c = rowOf y k c ++ [lockedAt (k : ℚ) y c] := by
      simp [rowOf, List.range_succ]
    rw [hsplit, List.countP_append, ih]
    by_cases h : |y - r| < 1 / 2
    · have : inRow r (lockedAt (k : ℚ) y c) = true := by
        simpa [inRow, lockedAt] using h
      rw [if_pos h, if_pos h]
      simp [List.countP_cons, this]
    · have : inRow r (lockedAt (k : ℚ) y c) = false := by
        simpa [inRow, lockedAt] using h
      rw [if_neg h, if_neg h]
      simp [List.countP_cons, this]

theorem length_rowOf (y : ℚ) (n : ℕ) (c : ℤ) : (rowOf y n c).length = n := by
  simp [rowOf]

theorem countP_le_length_cast (locked : List LockedBlock) (r : ℚ) :
    (locked.countP (inRow r) : ℤ) ≤ (locked.length : ℤ) := by
  exact_mod_cast List.countP_le_length (inRow r)

theorem isClearedRow_elevenInRow (r : ℚ) : IsClearedRow (rowOf 0 11 1) r ↔ r = 0 := by
  unfold IsClearedRow
  rw [countP_inRow_rowOf]
  constructor
  · rintro ⟨⟨block, hb, hr⟩, _⟩
    obtain ⟨i, _, rfl⟩ := (mem_rowOf 0 11 1 block).mp hb
    rw [← hr]
    simp [lockedAt, roundf_zero]
  · rintro rfl
    refine ⟨⟨lockedAt 0 0 1, (mem_rowOf 0 11 1 _).mpr ⟨0, by norm_num, by simp⟩, ?_⟩, ?_⟩
    · simp [lockedAt, roundf_zero]
    · norm_num [BOARD_W]

theorem fullLinesOf_elevenInRow : fullLinesOf (rowOf 0 11 1) = [0] :=
  eq_singleton_of_nodup_of_mem_iff _ _ (fullLinesOf_nodup _)
    (fun y => (mem_fullLinesOf_iff _ y).trans (isClearedRow_elevenInRow y))

theorem clearLines_elevenInRow :
    (boardOf (rowOf 0 11 1)).clearLines =
      (1, { lockedBlocks := [], score := 100, highScore := 100, linesClearedTotal := 1,
            gameOver := false }) := by
  have hne : fullLinesOf (boardOf (rowOf 0 11 1)).lockedBlocks ≠ [] := by
    show fullLinesOf (rowOf 0 11 1) ≠ []
    rw [fullLinesOf_elevenInRow]
    exact List.cons_ne_nil _ _
  have hs : shiftedSurvivors [0] (rowOf 0 11 1) = [] := by
    rw [shiftedSurvivors_eq, List.map_eq_nil_iff, List.filter_eq_nil_iff]
    intro block hb
    obtain ⟨i, _, rfl⟩ := (mem_rowOf 0 11 1 block).mp hb
    simp [inFullLine, lockedAt]
  rw [clearLines_of_ne_nil _ hne]
  simp only [boardOf, fullLinesOf_elevenInRow, hs]
  rfl

/-- C3, as stated, fails: with eleven locked blocks at height `0` no row holds
exactly ten blocks, yet `clearLines` returns `1`, empties the board and adds
`100` to the score. -/
theorem clearLines_clears_overfull_row :
    (∀ r : ℚ, (boardOf (rowOf 0 11 1)).lockedBlocks.countP (inRow r) ≠ 10) ∧
      (boardOf (rowOf 0 11 1)).clearLines.1 = 1 ∧
      (boardOf (rowOf 0 11 1)).lockedBlocks.length = 11 ∧
      (boardOf (rowOf 0 11 1)).clearLines.2.lockedBlocks = [] ∧
      (boardOf (rowOf 0 11 1)).score = 0 ∧
      (boardOf (rowOf 0 11 1)).clearLines.2.score = 100 := by
  refine ⟨?_, ?_, length_rowOf 0 11 1, ?_, rfl, ?_⟩
  · intro r
    show (rowOf 0 11 1).countP (inRow r) ≠ 10
    rw [countP_inRow_rowOf]
    split_ifs <;> norm_num
  · rw [clearLines_elevenInRow]
  · rw [clearLines_elevenInRow]
  · rw [clearLines_elevenInRow]

/-- C3, amended. When no integer row has ten or more locked blocks within
`0.5` of it, `clearLines` returns `0` and leaves the whole board (locked
blocks, score, high score, total lines, game-over flag) unchanged. -/
theorem clearLines_no_full_row (b : GameBoard)
    (h : ∀ r : ℤ, (b.lockedBlocks.countP (inRow (r : ℚ)) : ℤ) < BOARD_W) :
    b.clearLines.1 = 0 ∧ b.clearLines.2 = b := by
  have hnil : fullLinesOf b.lockedBlocks = [] := by
    rw [fullLinesOf_eq_nil_iff]
    rintro r ⟨⟨block, _, hr⟩, hcount⟩
    obtain ⟨n, hn⟩ := roundf_isInt block.position.y
    rw [hn] at hr
    subst hr
    exact absurd hcount (not_le.mpr (h n))
  rw [clearLines_of_nil b hnil]
  exact ⟨rfl, rfl⟩

/-- A board with nine blocks in row `19` and two in row `18`. -/
theorem clearLines_no_full_row_witness :
    (∀ r : ℤ, ((boardOf (rowOf 19 9 1 ++ rowOf 18 2 3)).lockedBlocks.countP
        (inRow (r : ℚ)) : ℤ) < BOARD_W) ∧
      (boardOf (rowOf 19 9 1 ++ rowOf 18 2 3)).clearLines.1 = 0 ∧
      (boardOf (rowOf 19 9 1 ++ rowOf 18 2 3)).clearLines.2 =
        boardOf (rowOf 19 9 1 ++ rowOf 18 2 3) := by
  have h : ∀ r : ℤ, ((boardOf (rowOf 19 9 1 ++ rowOf 18 2 3)).lockedBlocks.countP
      (inRow (r : ℚ)) : ℤ) < BOARD_W := by
    intro r
    show (((rowOf 19 9 1 ++ rowOf 18 2 3).countP (inRow (r : ℚ)) : ℕ) : ℤ) < BOARD_W
    rw [List.countP_append, countP_inRow_rowOf, countP_inRow_rowOf]
    by_cases h19 : |(19 : ℚ) - r| < 1 / 2
    · have h18 : ¬ |(18 : ℚ) - r| < 1 / 2 := by
        intro h18
        rw [abs_lt] at h19 h18
        linarith [h19.1, h18.2]
      rw [if_pos h19, if_neg h18]
      norm_num [BOARD_W]
    · rw [if_neg h19]
      split_ifs <;> norm_num [BOARD_W]
  exact ⟨h, clearLines_no_full_row _ h⟩

theorem shiftOf_singleton (r : ℚ) (block : LockedBlock) :
    shiftOf [r] block = if block.position.y < r then 1 else 0 := by
  simp [shiftOf]

theorem inFullLine_singleton (r : ℚ) (block : LockedBlock) :
    inFullLine [r] block = inRow r block := by
  unfold inFullLine inFullLine inRow
  by_cases h : |block.position.y - r| < 1 / 2
  · rw [if_pos h]
    exact (decide_eq_true h).symm
  · rw [if_neg h]
    exact (decide_eq_false h).symm

theorem length_filter_not_add_countP {α : Type} (p : α → Bool) (l : List α) :
    (l.filter (fun a => !p a)).length + l.countP p = l.length := by
  induction l with
  | nil => simp
  | cons a rest ih =>
    by_cases h : p a = true
    · simp [List.filter_cons, List.countP_cons, h]
      omega
    · simp [List.filter_cons, List.countP_cons, h]
      omega

/-- C4, as stated, fails: with eleven locked blocks at height `0` the call
clears exactly one row and returns `1`, but removes eleven blocks, not ten. -/
theorem clearLines_single_row_removes_more :
    IsClearedRow (boardOf (rowOf 0 11 1)).lockedBlocks 0 ∧
      (∀ r, IsClearedRow (boardOf (rowOf 0 11 1)).lockedBlocks r → r = 0) ∧
      (boardOf (rowOf 0 11 1)).clearLines.1 = 1 ∧
      (boardOf (rowOf 0 11 1)).lockedBlocks.length = 11 ∧
      (boardOf (rowOf 0 11 1)).clearLines.2.lockedBlocks.length = 0 := by
  refine ⟨?_, ?_, ?_, ?_, ?_⟩
  · exact (isClearedRow_elevenInRow 0).mpr rfl
  · intro r hr
    exact (isClearedRow_elevenInRow r).mp hr
  · rw [clearLines_elevenInRow]
  · exact length_rowOf 0 11 1
  · rw [clearLines_elevenInRow]
    rfl

/-- C4, amended. When `r` is the only row that `clearLines` removes, the call
returns `1`; the new locked-block list is the old one without the blocks within
`0.5` of `r`, in the same order, where each block above the row (`y < r`) has
`y + 1` with `x` and colour kept and each block below it is unchanged; the
number of removed blocks is the number of blocks in that row, which is at least
`BOARD_W` (so exactly ten are removed when the row holds exactly ten). -/
theorem clearLines_single_row (b : GameBoard) (r : ℚ)
    (hr : IsClearedRow b.lockedBlocks r)
    (honly : ∀ r2, IsClearedRow b.lockedBlocks r2 → r2 = r) :
    b.clearLines.1 = 1 ∧
      b.clearLines.2.lockedBlocks =
        (b.lockedBlocks.filter (fun k => !inRow r k)).map
          (fun k =>
            if k.position.y < r then
              { position := { x := k.position.x, y := k.position.y + 1 }, color := k.color }
            else k) ∧
      b.clearLines.2.lockedBlocks.length + b.lockedBlocks.countP (inRow r) =
        b.lockedBlocks.length ∧
      BOARD_W ≤ (b.lockedBlocks.countP (inRow r) : ℤ) := by
  have hfl : fullLinesOf b.lockedBlocks = [r] :=
    eq_singleton_of_nodup_of_mem_iff _ _ (fullLinesOf_nodup _)
      (fun y => (mem_fullLinesOf_iff _ y).trans ⟨honly y, fun h => h ▸ hr⟩)
  have hne : fullLinesOf b.lockedBlocks ≠ [] := by
    rw [hfl]
    exact List.cons_ne_nil _ _
  have hlist : b.clearLines.2.lockedBlocks =
      (b.lockedBlocks.filter (fun k => !inRow r k)).map
        (fun k =>
          if k.position.y < r then
            { position := { x := k.position.x, y := k.position.y + 1 }, color := k.color }
          else k) := by
    rw [clearLines_of_ne_nil b hne]
    show shiftedSurvivors (fullLinesOf b.lockedBlocks) b.lockedBlocks = _
    rw [hfl, shiftedSurvivors_eq]
    simp only [inFullLine_singleton]
    apply List.map_congr_left
    intro k _
    unfold shiftBlock
    rw [shiftOf_singleton]
    split_ifs
    · rfl
    · simp
  refine ⟨?_, hlist, ?_, hr.2⟩
  · rw [clearLines_fst, hfl]
    rfl
  · rw [hlist, List.length_map]
    exact length_filter_not_add_countP (inRow r) b.lockedBlocks

theorem isClearedRow_fullRow_append (y : ℤ) (c : ℤ) (extra : List LockedBlock)
    (hlen : extra.length < 10) (r : ℚ) :
    IsClearedRow (rowOf (y : ℚ) 10 c ++ extra) r ↔ r = (y : ℚ) := by
  unfold IsClearedRow
  rw [List.countP_append, countP_inRow_rowOf]
  constructor
  · rintro ⟨⟨block, _, hb⟩, hcount⟩
    obtain ⟨n, hn⟩ := roundf_isInt block.position.y
    rw [hn] at hb
    subst hb
    by_cases hnear : |(y : ℚ) - (n : ℚ)| < 1 / 2
    · have h1 : |((y - n : ℤ) : ℚ)| < 1 := by
        push_cast
        linarith
      have h2 : |y - n| < 1 := by exact_mod_cast h1
      have h3 := Int.abs_lt_one_iff.mp h2
      have : n = y := by omega
      rw [this]
    · rw [if_neg hnear] at hcount
      have hle := List.countP_le_length (inRow (n : ℚ)) (l := extra)
      simp only [BOARD_W] at hcount
      push_cast at hcount
      omega
  · rintro rfl
    refine ⟨⟨lockedAt 0 (y : ℚ) c, ?_, ?_⟩, ?_⟩
    · exact List.mem_append_left _ ((mem_rowOf _ 10 c _).mpr ⟨0, by norm_num, by simp⟩)
    · simp [lockedAt, roundf_intCast]
    · have h0 : |(y : ℚ) - (y : ℚ)| < 1 / 2 := by simp
      rw [if_pos h0]
      simp only [BOARD_W]
      push_cast
      omega

/-- A full row at height `19` below single blocks at heights `18` and `17`. -/
theorem clearLines_single_row_witness :
    (IsClearedRow (boardOf (rowOf 19 10 1 ++ [lockedAt 3 18 2, lockedAt 3 17 2])).lockedBlocks 19 ∧
      ∀ r2, IsClearedRow (boardOf (rowOf 19 10 1 ++ [lockedAt 3 18 2, lockedAt 3 17 2])).lockedBlocks
        r2 → r2 = 19) ∧
    (boardOf (rowOf 19 10 1 ++ [lockedAt 3 18 2, lockedAt 3 17 2])).clearLines.1 = 1 ∧
    (boardOf (rowOf 19 10 1 ++ [lockedAt 3 18 2, lockedAt 3 17 2])).clearLines.2.lockedBlocks =
      ((boardOf (rowOf 19 10 1 ++ [lockedAt 3 18 2, lockedAt 3 17 2])).lockedBlocks.filter
          (fun k => !inRow 19 k)).map
        (fun k =>
          if k.position.y < 19 then
            { position := { x := k.position.x, y := k.position.y + 1 }, color := k.color }
          else k) ∧
    (boardOf (rowOf 19 10 1 ++ [lockedAt 3 18 2, lockedAt 3 17 2])).clearLines.2.lockedBlocks.length +
        (boardOf (rowOf 19 10 1 ++ [lockedAt 3 18 2, lockedAt 3 17 2])).lockedBlocks.countP
          (inRow 19) =
      (boardOf (rowOf 19 10 1 ++ [lockedAt 3 18 2, lockedAt 3 17 2])).lockedBlocks.length ∧
    BOARD_W ≤ ((boardOf (rowOf 19 10 1 ++ [lockedAt 3 18 2, lockedAt 3 17 2])).lockedBlocks.countP
      (inRow 19) : ℤ) := by
  have hiff := isClearedRow_fullRow_append 19 1 [lockedAt 3 18 2, lockedAt 3 17 2] (by simp)
  have h1 : IsClearedRow
      (boardOf (rowOf 19 10 1 ++ [lockedAt 3 18 2, lockedAt 3 17 2])).lockedBlocks 19 := by
    have := (hiff 19).mpr (by norm_num)
    simpa [boardOf] using this
  have h2 : ∀ r2, IsClearedRow
      (boardOf (rowOf 19 10 1 ++ [lockedAt 3 18 2, lockedAt 3 17 2])).lockedBlocks r2 →
        r2 = 19 := by
    intro r2 hr2
    have := (hiff r2).mp (by simpa [boardOf] using hr2)
    simpa using this
  exact ⟨⟨h1, h2⟩, clearLines_single_row _ 19 h1 h2⟩

theorem not_inFullLine_eq_all (fullLines : List ℚ) (block : LockedBlock) :
    (!inFullLine fullLines block) = fullLines.all (fun r => !inRow r block) := by
  induction fullLines with
  | nil => simp [inFullLine]
  | cons y rest ih =>
    unfold inFullLine
    rw [List.all_cons, ← ih]
    by_cases h : |block.position.y - y| < 1 / 2
    · rw [if_pos h]
      have : inRow y block = true := decide_eq_true h
      simp [this]
    · rw [if_neg h]
      have : inRow y block = false := decide_eq_false h
      simp [this]

/-- C5. On a board with at least one row to clear, the rows removed by
`clearLines` form a duplicate-free list `fullLinesOf` (a row is listed exactly
when some block rounds to it and at least `BOARD_W` blocks lie within `0.5` of
it), and the new locked-block list is the old one restricted to the blocks
within `0.5` of no listed row, in the original order, each with the same `x`
and colour and with `y` increased by the number of listed rows strictly greater
than its `y`. -/
theorem clearLines_survivors (b : GameBoard) (h : ∃ r, IsClearedRow b.lockedBlocks r) :
    (fullLinesOf b.lockedBlocks).Nodup ∧
      (∀ r, r ∈ fullLinesOf b.lockedBlocks ↔ IsClearedRow b.lockedBlocks r) ∧
      b.clearLines.2.lockedBlocks =
        (b.lockedBlocks.filter
            (fun k => (fullLinesOf b.lockedBlocks).all (fun r => !inRow r k))).map
          (fun k =>
            { position :=
                { x := k.position.x,
                  y := k.position.y +
                    (((fullLinesOf b.lockedBlocks).countP
                      (fun r => decide (k.position.y < r)) : ℕ) : ℚ) },
              color := k.color }) := by
  refine ⟨fullLinesOf_nodup _, mem_fullLinesOf_iff _, ?_⟩
  obtain ⟨r, hr⟩ := h
  have hne : fullLinesOf b.lockedBlocks ≠ [] :=
    List.ne_nil_of_mem ((mem_fullLinesOf_iff _ r).mpr hr)
  rw [clearLines_of_ne_nil b hne]
  show shiftedSurvivors (fullLinesOf b.lockedBlocks) b.lockedBlocks = _
  rw [shiftedSurvivors_eq]
  simp only [not_inFullLine_eq_all]
  apply List.map_congr_left
  intro k _
  unfold shiftBlock
  rw [shiftOf_eq_countP]

/-- A full row at height `19` below blocks at heights `18` and `20`. -/
theorem clearLines_survivors_witness :
    (∃ r, IsClearedRow
      (boardOf (rowOf 19 10 1 ++ [lockedAt 2 18 4, lockedAt 7 20 5])).lockedBlocks r) ∧
    ((fullLinesOf (boardOf (rowOf 19 10 1 ++ [lockedAt 2 18 4, lockedAt 7 20 5])).lockedBlocks).Nodup ∧
      (∀ r, r ∈ fullLinesOf
          (boardOf (rowOf 19 10 1 ++ [lockedAt 2 18 4, lockedAt 7 20 5])).lockedBlocks ↔
        IsClearedRow (boardOf (rowOf 19 10 1 ++ [lockedAt 2 18 4, lockedAt 7 20 5])).lockedBlocks
          r) ∧
      (boardOf (rowOf 19 10 1 ++ [lockedAt 2 18 4, lockedAt 7 20 5])).clearLines.2.lockedBlocks =
        ((boardOf (rowOf 19 10 1 ++ [lockedAt 2 18 4, lockedAt 7 20 5])).lockedBlocks.filter
            (fun k =>
              (fullLinesOf
                (boardOf (rowOf 19 10 1 ++ [lockedAt 2 18 4, lockedAt 7 20 5])).lockedBlocks).all
                (fun r => !inRow r k))).map
          (fun k =>
            { position :=
                { x := k.position.x,
                  y := k.position.y +
                    (((fullLinesOf
                        (boardOf
                          (rowOf 19 10 1 ++ [lockedAt 2 18 4, lockedAt 7 20 5])).lockedBlocks).countP
                      (fun r => decide (k.position.y < r)) : ℕ) : ℚ) },
              color := k.color })) := by
  have h : ∃ r, IsClearedRow
      (boardOf (rowOf 19 10 1 ++ [lockedAt 2 18 4, lockedAt 7 20 5])).lockedBlocks r := by
    refine ⟨19, ?_⟩
    have := (isClearedRow_fullRow_append 19 1 [lockedAt 2 18 4, lockedAt 7 20 5] (by simp) 19).mpr
      (by norm_num)
    simpa [boardOf] using this
  exact ⟨h, clearLines_survivors _ h⟩

/-- C6. When one `clearLines` call clears `n >= 1` rows, the score grows by
`100` for `n = 1`, `300` for `n = 2`, `500` for `n = 3` and `800` for every
`n >= 4`. -/
theorem clearLines_score (b : GameBoard) (h : 1 ≤ b.clearLines.1) :
    (b.clearLines.1 = 1 → b.clearLines.2.score = b.score + 100) ∧
      (b.clearLines.1 = 2 → b.clearLines.2.score = b.score + 300) ∧
      (b.clearLines.1 = 3 → b.clearLines.2.score = b.score + 500) ∧
      (4 ≤ b.clearLines.1 → b.clearLines.2.score = b.score + 800) := by
  have hne : fullLinesOf b.lockedBlocks ≠ [] := by
    intro hnil
    rw [clearLines_of_nil b hnil] at h
    exact absurd h (by norm_num)
  rw [clearLines_of_ne_nil b hne]
  simp only [pointsFor]
  refine ⟨?_, ?_, ?_, ?_⟩
  · intro h1
    rw [if_pos h1]
  · intro h2
    rw [if_neg (by omega), if_pos h2]
  · intro h3
    rw [if_neg (by omega), if_neg (by omega), if_pos h3]
  · intro h4
    rw [if_neg (by omega), if_neg (by omega), if_neg (by omega)]

/-- One full row at height `19` under a single block: one row is cleared. -/
theorem clearLines_score_witness :
    1 ≤ (boardOf (rowOf 19 10 1 ++ [lockedAt 0 18 6])).clearLines.1 ∧
      ((boardOf (rowOf 19 10 1 ++ [lockedAt 0 18 6])).clearLines.1 = 1 →
        (boardOf (rowOf 19 10 1 ++ [lockedAt 0 18 6])).clearLines.2.score =
          (boardOf (rowOf 19 10 1 ++ [lockedAt 0 18 6])).score + 100) ∧
      ((boardOf (rowOf 19 10 1 ++ [lockedAt 0 18 6])).clearLines.1 = 2 →
        (boardOf (rowOf 19 10 1 ++ [lockedAt 0 18 6])).clearLines.2.score =
          (boardOf (rowOf 19 10 1 ++ [lockedAt 0 18 6])).score + 300) ∧
      ((boardOf (rowOf 19 10 1 ++ [lockedAt 0 18 6])).clearLines.1 = 3 →
        (boardOf (rowOf 19 10 1 ++ [lockedAt 0 18 6])).clearLines.2.score =
          (boardOf (rowOf 19 10 1 ++ [lockedAt 0 18 6])).score + 500) ∧
      (4 ≤ (boardOf (rowOf 19 10 1 ++ [lockedAt 0 18 6])).clearLines.1 →
        (boardOf (rowOf 19 10 1 ++ [lockedAt 0 18 6])).clearLines.2.score =
          (boardOf (rowOf 19 10 1 ++ [lockedAt 0 18 6])).score + 800) := by
  have hfl : fullLinesOf (rowOf 19 10 1 ++ [lockedAt 0 18 6]) = [19] :=
    eq_singleton_of_nodup_of_mem_iff _ _ (fullLinesOf_nodup _)
      (fun y => (mem_fullLinesOf_iff _ y).trans
        (by simpa using isClearedRow_fullRow_append 19 1 [lockedAt 0 18 6] (by simp) y))
  have h : 1 ≤ (boardOf (rowOf 19 10 1 ++ [lockedAt 0 18 6])).clearLines.1 := by
    rw [clearLines_fst]
    show (1 : ℤ) ≤ ((fullLinesOf (rowOf 19 10 1 ++ [lockedAt 0 18 6])).length : ℤ)
    rw [hfl]
    rfl
  exact ⟨h, clearLines_score _ h⟩

/-! ## Reset -/

/-- C8. `reset` empties the locked-block list, sets the score and the total of
cleared lines to `0`, clears the game-over flag and keeps the high score. -/
theorem reset_spec (b : GameBoard) :
    b.reset.lockedBlocks = [] ∧ b.reset.score = 0 ∧ b.reset.linesClearedTotal = 0 ∧
      b.reset.gameOver = false ∧ b.reset.highScore = b.highScore :=
  ⟨rfl, rfl, rfl, rfl, rfl⟩

/-! ## Rotation with wall kicks -/

theorem matMul_translate_zero (m : Mat3) : matMul m (matTranslate 0 0) = m := by
  cases m
  simp [matMul, matTranslate, matIdentity]

theorem translate_zero (p : Piece) : p.translate 0 0 = p := by
  cases p
  simp [Piece.translate, matMul_translate_zero]

theorem kickLoop_eq_find (board : GameBoard) (testPiece : Piece) (kicks : List ℚ) :
    kickLoop board testPiece kicks =
      (kicks.map (fun k => testPiece.translate k 0)).find? (fun c => board.canPlace c) := by
  induction kicks with
  | nil => rfl
  | cons k rest ih =>
    unfold kickLoop
    rw [List.map_cons, List.find?_cons]
    by_cases h : board.canPlace (testPiece.translate k 0) = true
    · simp [h]
    · simp [h, ih]

/-- C10. `tryRotate` examines the rotated current piece translated
horizontally by `0`, `-1`, `+1`, `-2`, `+2`, in this order; it commits the first
candidate that passes `canPlace` and returns true, and when none passes it
returns false with the game unchanged. The board and the next piece are never
changed. -/
theorem tryRotate_spec (g : Game) :
    g.tryRotate =
        (match (([0, -1, 1, -2, 2] : List ℚ).map
            (fun k => g.currentPiece.rotate90.translate k 0)).find?
            (fun c => g.board.canPlace c) with
          | some c => (true, { g with currentPiece := c })
          | none => (false, g)) ∧
      g.tryRotate.2.board = g.board ∧ g.tryRotate.2.nextPiece = g.nextPiece := by
  have hmain : g.tryRotate =
      (match (([0, -1, 1, -2, 2] : List ℚ).map
          (fun k => g.currentPiece.rotate90.translate k 0)).find?
          (fun c => g.board.canPlace c) with
        | some c => (true, { g with currentPiece := c })
        | none => (false, g)) := by
    unfold Game.tryRotate
    rw [List.map_cons, List.find?_cons, translate_zero]
    simp only [kickLoop_eq_find]
    by_cases h : g.board.canPlace g.currentPiece.rotate90 = true
    · simp only [h, if_true]
    · rw [Bool.not_eq_true] at h
      simp only [h, Bool.false_eq_true, if_false]
  refine ⟨hmain, ?_, ?_⟩
  · rw [hmain]
    split <;> rfl
  · rw [hmain]
    split <;> rfl

/-! ## Lattice arithmetic -/

theorem IsInt.intCast (n : ℤ) : IsInt (n : ℚ) := ⟨n, rfl⟩

theorem IsInt.zero : IsInt 0 := ⟨0, by norm_num⟩

theorem IsInt.one : IsInt 1 := ⟨1, by norm_num⟩

theorem IsInt.add {a b : ℚ} (ha : IsInt a) (hb : IsInt b) : IsInt (a + b) := by
  obtain ⟨m, rfl⟩ := ha
  obtain ⟨n, rfl⟩ := hb
  exact ⟨m + n, by push_cast; ring⟩

theorem IsInt.mul {a b : ℚ} (ha : IsInt a) (hb : IsInt b) : IsInt (a * b) := by
  obtain ⟨m, rfl⟩ := ha
  obtain ⟨n, rfl⟩ := hb
  exact ⟨m * n, by push_cast; ring⟩

theorem IsInt.neg {a : ℚ} (ha : IsInt a) : IsInt (-a) := by
  obtain ⟨m, rfl⟩ := ha
  exact ⟨-m, by push_cast; ring⟩

theorem IsInt.natCast (n : ℕ) : IsInt (n : ℚ) := ⟨(n : ℤ), by push_cast; rfl⟩

/-- Two different integers are at least one apart. -/
theorem IsInt.one_le_sq_sub {a b : ℚ} (ha : IsInt a) (hb : IsInt b) (hne : a ≠ b) :
    1 ≤ (a - b) * (a - b) := by
  obtain ⟨m, rfl⟩ := ha
  obtain ⟨n, rfl⟩ := hb
  have hmn : m ≠ n := fun h => hne (by rw [h])
  have h1 : (1 : ℤ) ≤ (m - n) * (m - n) := by
    rcases lt_or_gt_of_ne hmn with h | h
    · nlinarith
    · nlinarith
  have h2 : ((1 : ℤ) : ℚ) ≤ (((m - n) * (m - n) : ℤ) : ℚ) := by exact_mod_cast h1
  push_cast at h2
  exact h2

theorem overlaps_self (v : Vec2) : overlaps v v = true := by
  simp [overlaps, Vec2.distSq, COLLISION_EPSILON]

theorem ne_of_overlaps_eq_false {v w : Vec2} (h : overlaps v w = false) : v ≠ w := by
  rintro rfl
  rw [overlaps_self] at h
  cases h

theorem overlaps_eq_false_of_ne {v w : Vec2} (hv : IsIntVec v) (hw : IsIntVec w) (hne : v ≠ w) :
    overlaps v w = false := by
  unfold overlaps
  rw [decide_eq_false_iff_not, not_lt]
  unfold Vec2.distSq COLLISION_EPSILON
  have hx := mul_self_nonneg (v.x - w.x)
  have hy := mul_self_nonneg (v.y - w.y)
  by_cases hxe : v.x = w.x
  · have hye : v.y ≠ w.y := by
      intro hye
      apply hne
      cases v
      cases w
      simp only [Vec2.mk.injEq]
      exact ⟨hxe, hye⟩
    have := IsInt.one_le_sq_sub hv.2 hw.2 hye
    show 2 / 5 * (2 / 5) ≤ (v.x - w.x) * (v.x - w.x) + (v.y - w.y) * (v.y - w.y)
    linarith
  · have := IsInt.one_le_sq_sub hv.1 hw.1 hxe
    show 2 / 5 * (2 / 5) ≤ (v.x - w.x) * (v.x - w.x) + (v.y - w.y) * (v.y - w.y)
    linarith

theorem separated_of_onePerCell {locked : List LockedBlock} (h : OnePerCell locked) :
    Separated locked := by
  have h2 := (List.Pairwise.and_mem.mp h.2)
  exact h2.imp (fun {a b} hab =>
    overlaps_eq_false_of_ne (h.1 a hab.1) (h.1 b hab.2.1) hab.2.2)

/-! ## Lattice transforms -/

theorem isIntAffine_identity : IsIntAffine matIdentity := by
  refine ⟨rfl, rfl, rfl, IsInt.one, IsInt.zero, IsInt.zero, IsInt.one, IsInt.zero, IsInt.zero, ?_⟩
  norm_num [matIdentity]

theorem isIntAffine_translate {tx ty : ℚ} (hx : IsInt tx) (hy : IsInt ty) :
    IsIntAffine (matTranslate tx ty) := by
  refine ⟨rfl, rfl, rfl, IsInt.one, IsInt.zero, IsInt.zero, IsInt.one, hx, hy, ?_⟩
  norm_num [matTranslate, matIdentity]

theorem isIntAffine_rotate90 : IsIntAffine (matRotate 0 1) := by
  refine ⟨rfl, rfl, rfl, IsInt.zero, IsInt.one.neg, IsInt.one, IsInt.zero, IsInt.zero,
    IsInt.zero, ?_⟩
  norm_num [matRotate, matIdentity]

theorem isIntAffine_matMul {a b : Mat3} (ha : IsIntAffine a) (hb : IsIntAffine b) :
    IsIntAffine (matMul a b) := by
  obtain ⟨a02, a12, a22, a00, a01, a10, a11, a20, a21, adet⟩ := ha
  obtain ⟨b02, b12, b22, b00, b01, b10, b11, b20, b21, bdet⟩ := hb
  have z := IsInt.zero
  have o := IsInt.one
  refine ⟨?_, ?_, ?_, ?_, ?_, ?_, ?_, ?_, ?_, ?_⟩
  · simp [matMul, a02, b02, b12, b22]
  · simp [matMul, a12, b02, b12, b22]
  · simp [matMul, a22, b02, b12, b22]
  · simp only [matMul, a02, zero_mul, b20]
    exact ((z.add (a00.mul b00)).add (a01.mul b10)).add z
  · simp only [matMul, a02, zero_mul]
    exact ((z.add (a00.mul b01)).add (a01.mul b11)).add z
  · simp only [matMul, a12, zero_mul]
    exact ((z.add (a10.mul b00)).add (a11.mul b10)).add z
  · simp only [matMul, a12, zero_mul]
    exact ((z.add (a10.mul b01)).add (a11.mul b11)).add z
  · simp only [matMul]
    rw [a22]
    exact ((z.add (a20.mul b00)).add (a21.mul b10)).add (o.mul b20)
  · simp only [matMul]
    rw [a22]
    exact ((z.add (a20.mul b01)).add (a21.mul b11)).add (o.mul b21)
  · simp only [matMul, a02, a12]
    linear_combination (b.m00 * b.m11 - b.m01 * b.m10) * adet + bdet

theorem applyMat3_isIntVec {m : Mat3} {v : Vec2} (hm : IsIntAffine m) (hv : IsIntVec v) :
    IsIntVec (applyMat3 m v) := by
  obtain ⟨_, _, _, a00, a01, a10, a11, a20, a21, _⟩ := hm
  exact ⟨((hv.1.mul a00).add (hv.2.mul a10)).add (IsInt.one.mul a20),
    ((hv.1.mul a01).add (hv.2.mul a11)).add (IsInt.one.mul a21)⟩

theorem applyMat3_injective {m : Mat3} (hm : IsIntAffine m) {v w : Vec2}
    (h : applyMat3 m v = applyMat3 m w) : v = w := by
  obtain ⟨_, _, _, _, _, _, _, _, _, hdet⟩ := hm
  cases v with
  | mk vx vy =>
  cases w with
  | mk wx wy =>
  simp only [applyMat3, Vec2.mk.injEq] at h
  obtain ⟨hx, hy⟩ := h
  simp only [Vec2.mk.injEq]
  constructor
  · linear_combination m.m11 * hx - m.m10 * hy - (vx - wx) * hdet
  · linear_combination m.m00 * hy - m.m01 * hx - (vy - wy) * hdet

/-! ## Lattice pieces -/

theorem pieceOK_translate {p : Piece} (hp : PieceOK p) {dx dy : ℚ} (hx : IsInt dx)
    (hy : IsInt dy) : PieceOK (p.translate dx dy) :=
  ⟨hp.1, isIntAffine_matMul hp.2 (isIntAffine_translate hx hy)⟩

theorem pieceOK_rotate90 {p : Piece} (hp : PieceOK p) : PieceOK p.rotate90 := by
  refine ⟨hp.1, ?_⟩
  have hc : IsIntVec (applyMat3 p.transform { x := 0, y := 0 }) :=
    applyMat3_isIntVec hp.2 ⟨IsInt.zero, IsInt.zero⟩
  exact isIntAffine_matMul hp.2
    (isIntAffine_matMul
      (isIntAffine_matMul (isIntAffine_translate hc.1.neg hc.2.neg) isIntAffine_rotate90)
      (isIntAffine_translate hc.1 hc.2))

theorem worldPositions_isIntVec {p : Piece} (hp : PieceOK p) :
    ∀ pos ∈ p.getWorldPositions, IsIntVec pos := by
  intro pos hpos
  simp only [Piece.getWorldPositions, List.mem_map] at hpos
  obtain ⟨block, hb, rfl⟩ := hpos
  exact applyMat3_isIntVec hp.2 (hp.1.1 block hb)

theorem worldPositions_nodup {p : Piece} (hp : PieceOK p) : p.getWorldPositions.Nodup := by
  have h : p.getWorldPositions =
      (p.blocks.map (fun block => block.localPos)).map (applyMat3 p.transform) := by
    simp [Piece.getWorldPositions, Block.getWorldPos, List.map_map, Function.comp_def]
  rw [h]
  exact hp.1.2.map (fun v w hvw => applyMat3_injective hp.2 hvw)

theorem blocksOK_mkTemplate (color : ℤ) (a b c d : ℤ × ℤ)
    (hnd : [a, b, c, d].Nodup) :
    BlocksOK (mkTemplate color ((a.1 : ℚ), (a.2 : ℚ)) ((b.1 : ℚ), (b.2 : ℚ))
      ((c.1 : ℚ), (c.2 : ℚ)) ((d.1 : ℚ), (d.2 : ℚ))).blocks := by
  constructor
  · intro block hb
    simp only [mkTemplate, List.mem_cons, List.mem_singleton, List.not_mem_nil, or_false] at hb
    rcases hb with rfl | rfl | rfl | rfl <;> exact ⟨IsInt.intCast _, IsInt.intCast _⟩
  · have hinj : Function.Injective (fun q : ℤ × ℤ => ({ x := (q.1 : ℚ), y := (q.2 : ℚ) } : Vec2)) := by
      intro q1 q2 h
      simp only [Vec2.mk.injEq, Int.cast_inj] at h
      exact Prod.ext h.1 h.2
    have := hnd.map hinj
    simpa [mkTemplate] using this

theorem blocksOK_of_mem_templates {p : Piece} (hp : p ∈ templates) : BlocksOK p.blocks := by
  simp only [templates, List.mem_cons, List.mem_singleton, List.not_mem_nil, or_false] at hp
  rcases hp with rfl | rfl | rfl | rfl | rfl | rfl | rfl
  · simpa using blocksOK_mkTemplate CYAN (-2, 0) (-1, 0) (0, 0) (1, 0) (by decide)
  · simpa using blocksOK_mkTemplate YELLOW (0, 0) (1, 0) (0, 1) (1, 1) (by decide)
  · simpa using blocksOK_mkTemplate PURPLE (-1, 0) (0, 0) (1, 0) (0, 1) (by decide)
  · simpa using blocksOK_mkTemplate GREEN (0, 0) (1, 0) (-1, 1) (0, 1) (by decide)
  · simpa using blocksOK_mkTemplate RED (-1, 0) (0, 0) (0, 1) (1, 1) (by decide)
  · simpa using blocksOK_mkTemplate BLUE (-1, 0) (0, 0) (1, 0) (1, 1) (by decide)
  · simpa using blocksOK_mkTemplate ORANGE (-1, 0) (0, 0) (1, 0) (-1, 1) (by decide)

theorem createRandomPiece_mem (r : ℕ) : createRandomPiece r ∈ templates :=
  List.get_mem _ _ _

theorem blocksOK_createRandomPiece (r : ℕ) : BlocksOK (createRandomPiece r).blocks :=
  blocksOK_of_mem_templates (createRandomPiece_mem r)

/-! ## Locking keeps the lattice -/

theorem lockPiece_lockedBlocks (b : GameBoard) (piece : Piece) :
    (b.lockPiece piece).lockedBlocks =
      b.lockedBlocks ++
        (piece.getWorldPositions.filter lockable).map
          (fun pos => { position := pos, color := piece.colorIndex }) := by
  have h := foldl_push_if lockable
    (fun pos => ({ position := pos, color := piece.colorIndex } : LockedBlock))
    piece.getWorldPositions b.lockedBlocks
  simp only [lockable, decide_eq_true_eq] at h
  exact h

theorem lockPiece_onePerCell {b : GameBoard} {piece : Piece}
    (hb : OnePerCell b.lockedBlocks) (hp : PieceOK piece) (hcan : b.canPlace piece = true) :
    OnePerCell (b.lockPiece piece).lockedBlocks := by
  rw [lockPiece_lockedBlocks]
  have hcan2 := (canPlace_iff_overlaps b piece).mp hcan
  constructor
  · intro block hblock
    rcases List.mem_append.mp hblock with h | h
    · exact hb.1 block h
    · rw [List.mem_map] at h
      obtain ⟨pos, hpos, rfl⟩ := h
      exact worldPositions_isIntVec hp pos (List.mem_of_mem_filter hpos)
  · rw [List.pairwise_append]
    refine ⟨hb.2, ?_, ?_⟩
    · have hnd : (piece.getWorldPositions.filter lockable).Nodup :=
        (worldPositions_nodup hp).filter _
      exact List.Pairwise.map _ (fun v w hvw => hvw) hnd
    · intro a ha c hc
      rw [List.mem_map] at hc
      obtain ⟨pos, hpos, rfl⟩ := hc
      rw [List.mem_filter] at hpos
      have hy : 0 ≤ pos.y := by
        have := hpos.2
        simp only [lockable, decide_eq_true_eq] at this
        exact this.1
      have hov := (hcan2 pos hpos.1).2.2.2 hy a ha
      exact fun heq => ne_of_overlaps_eq_false hov heq.symm

/-! ## Clearing keeps the lattice -/

theorem countP_gt_split (fl : List ℚ) (u v : ℚ) (huv : u < v) (hv : v ∉ fl) :
    fl.countP (fun r => decide (r > u)) =
      fl.countP (fun r => decide (u < r ∧ r < v)) + fl.countP (fun r => decide (r > v)) := by
  induction fl with
  | nil => simp
  | cons a rest ih =>
    have hne : v ≠ a := fun h => hv (h ▸ List.mem_cons_self _ _)
    have hrest : v ∉ rest := fun h => hv (List.mem_cons_of_mem _ h)
    rw [List.countP_cons, List.countP_cons, List.countP_cons, ih hrest]
    simp only [decide_eq_true_eq]
    rcases lt_trichotomy a v with h | h | h
    · have h2 : ¬ a > v := not_lt.mpr (le_of_lt h)
      by_cases hu : a > u
      · have h1 : (u < a ∧ a < v) := ⟨hu, h⟩
        rw [if_pos hu, if_pos h1, if_neg h2]
        omega
      · have h1 : ¬ (u < a ∧ a < v) := fun hh => hu hh.1
        rw [if_neg hu, if_neg h1, if_neg h2]
        omega
    · exact absurd h.symm hne
    · have hu : a > u := lt_trans huv h
      have h1 : ¬ (u < a ∧ a < v) := fun hh => absurd hh.2 (not_lt.mpr (le_of_lt h))
      rw [if_pos hu, if_neg h1, if_pos h]
      omega

theorem countP_between_le (fl : List ℚ) (hnd : fl.Nodup) (hint : ∀ r ∈ fl, IsInt r)
    (m n : ℤ) :
    ((fl.countP (fun r => decide ((m : ℚ) < r ∧ r < (n : ℚ))) : ℕ) : ℤ) ≤ max (n - m - 1) 0 := by
  rw [List.countP_eq_length_filter]
  have hnd2 : (fl.filter (fun r => decide ((m : ℚ) < r ∧ r < (n : ℚ)))).Nodup := hnd.filter _
  rw [← List.toFinset_card_of_nodup hnd2]
  have hsub : (fl.filter (fun r => decide ((m : ℚ) < r ∧ r < (n : ℚ)))).toFinset ⊆
      (Finset.Ioo m n).image (fun k : ℤ => (k : ℚ)) := by
    intro r hr
    rw [List.mem_toFinset, List.mem_filter, decide_eq_true_iff] at hr
    obtain ⟨k, rfl⟩ := hint r hr.1
    rw [Finset.mem_image]
    refine ⟨k, ?_, rfl⟩
    rw [Finset.mem_Ioo]
    exact ⟨by exact_mod_cast hr.2.1, by exact_mod_cast hr.2.2⟩
  have hcard := (Finset.card_le_card hsub).trans Finset.card_image_le
  rw [Int.card_Ioo] at hcard
  have : ((n - m - 1).toNat : ℤ) = max (n - m - 1) 0 := Int.toNat_eq_max _
  omega

theorem shiftOf_lt_of_lt (fl : List ℚ) (hnd : fl.Nodup) (hint : ∀ r ∈ fl, IsInt r)
    (a c : LockedBlock) (ha : IsInt a.position.y) (hc : IsInt c.position.y)
    (hcfree : inFullLine fl c = false) (hlt : a.position.y < c.position.y) :
    a.position.y + shiftOf fl a < c.position.y + shiftOf fl c := by
  obtain ⟨m, hm⟩ := ha
  obtain ⟨n, hn⟩ := hc
  have hcmem : c.position.y ∉ fl := by
    intro hmem
    have := (inFullLine_eq_false_iff fl c).mp hcfree _ hmem
    simp at this
  rw [shiftOf_eq_countP, shiftOf_eq_countP, countP_gt_split fl _ _ hlt hcmem]
  have hbetween := countP_between_le fl hnd hint m n
  rw [← hm, ← hn] at hbetween
  have hmn : m < n := by
    rw [hm, hn] at hlt
    exact_mod_cast hlt
  have hmax : max (n - m - 1) 0 = n - m - 1 := max_eq_left (by omega)
  rw [hmax] at hbetween
  have hq : (((fl.countP (fun r => decide (a.position.y < r ∧ r < c.position.y)) : ℕ) : ℤ) : ℚ) ≤
      ((n - m - 1 : ℤ) : ℚ) := by exact_mod_cast hbetween
  push_cast at hq ⊢
  rw [hm, hn] at hq ⊢
  linarith

theorem shiftBlock_position_ne (fl : List ℚ) (hnd : fl.Nodup) (hint : ∀ r ∈ fl, IsInt r)
    (a c : LockedBlock) (ha : IsIntVec a.position) (hc : IsIntVec c.position)
    (hafree : inFullLine fl a = false) (hcfree : inFullLine fl c = false)
    (hne : a.position ≠ c.position) :
    (shiftBlock fl a).position ≠ (shiftBlock fl c).position := by
  intro heq
  simp only [shiftBlock, Vec2.mk.injEq] at heq
  obtain ⟨hx, hy⟩ := heq
  rcases lt_trichotomy a.position.y c.position.y with h | h | h
  · have := shiftOf_lt_of_lt fl hnd hint a c ha.2 hc.2 hcfree h
    linarith
  · apply hne
    cases hap : a.position
    cases hcp : c.position
    rw [hap] at hx h
    rw [hcp] at hx h
    simp only [Vec2.mk.injEq]
    exact ⟨hx, h⟩
  · have := shiftOf_lt_of_lt fl hnd hint c a hc.2 ha.2 hafree h
    linarith

theorem shiftedSurvivors_onePerCell (locked : List LockedBlock) (h : OnePerCell locked) :
    OnePerCell (shiftedSurvivors (fullLinesOf locked) locked) := by
  rw [shiftedSurvivors_eq]
  have hnd := fullLinesOf_nodup locked
  have hint : ∀ r ∈ fullLinesOf locked, IsInt r := fullLinesOf_isInt locked
  constructor
  · intro block hblock
    rw [List.mem_map] at hblock
    obtain ⟨k, hk, rfl⟩ := hblock
    have hkint := h.1 k (List.mem_of_mem_filter hk)
    refine ⟨hkint.1, ?_⟩
    show IsInt (k.position.y + shiftOf (fullLinesOf locked) k)
    rw [shiftOf_eq_countP]
    exact hkint.2.add (IsInt.natCast _)
  · have hfilt : (locked.filter (fun block => !inFullLine (fullLinesOf locked) block)).Pairwise
        (fun a b => a.position ≠ b.position) := h.2.filter _
    have hfilt2 := List.Pairwise.and_mem.mp hfilt
    refine List.Pairwise.map _ ?_ hfilt2
    intro a c hac
    obtain ⟨hamem, hcmem, hne⟩ := hac
    rw [List.mem_filter] at hamem hcmem
    exact shiftBlock_position_ne _ hnd hint a c (h.1 a hamem.1) (h.1 c hcmem.1)
      (by simpa using hamem.2) (by simpa using hcmem.2) hne

theorem clearLines_onePerCell (b : GameBoard) (h : OnePerCell b.lockedBlocks) :
    OnePerCell b.clearLines.2.lockedBlocks := by
  by_cases hnil : fullLinesOf b.lockedBlocks = []
  · rw [clearLines_of_nil b hnil]
    exact h
  · rw [clearLines_of_ne_nil b hnil]
    exact shiftedSurvivors_onePerCell b.lockedBlocks h

/-! ## The invariant of the game loop -/

theorem isInt_half_width : IsInt ((BOARD_W : ℚ) / 2) := ⟨5, by norm_num [BOARD_W]⟩

theorem canPlace_congr {b1 b2 : GameBoard} (h : b1.lockedBlocks = b2.lockedBlocks)
    (p : Piece) : b1.canPlace p = b2.canPlace p := by
  unfold GameBoard.canPlace
  rw [h]

theorem spawnPiece_lockedBlocks (g : Game) (r1 r2 : ℕ) :
    (g.spawnPiece r1 r2).board.lockedBlocks = g.board.lockedBlocks := by
  unfold Game.spawnPiece
  simp only
  split_ifs <;> rfl

theorem spawnPiece_blocks (g : Game) (r1 r2 : ℕ) :
    (g.spawnPiece r1 r2).currentPiece.blocks =
      (if g.nextPiece.blocks.isEmpty then createRandomPiece r1 else g.nextPiece).blocks :=
  rfl

theorem spawnPiece_transform (g : Game) (r1 r2 : ℕ) :
    (g.spawnPiece r1 r2).currentPiece.transform =
      matMul matIdentity (matTranslate ((BOARD_W : ℚ) / 2) 1) :=
  rfl

theorem spawnPiece_legal (g : Game) (r1 r2 : ℕ)
    (h : (g.spawnPiece r1 r2).board.gameOver = false) :
    (g.spawnPiece r1 r2).board.canPlace (g.spawnPiece r1 r2).currentPiece = true := by
  rw [canPlace_congr (spawnPiece_lockedBlocks g r1 r2)]
  by_contra hcan
  rw [Bool.not_eq_true] at hcan
  have hover : (g.spawnPiece r1 r2).board.gameOver = true := by
    have hcur : (g.spawnPiece r1 r2).currentPiece =
        ({ (if g.nextPiece.blocks.isEmpty then createRandomPiece r1 else g.nextPiece) with
            transform := matIdentity } : Piece).translate ((BOARD_W : ℚ) / 2) 1 := rfl
    rw [hcur] at hcan
    unfold Game.spawnPiece
    simp only
    rw [if_pos hcan]
  rw [hover] at h
  cases h

theorem spawnPiece_inv (g : Game) (r1 r2 : ℕ) (hb : OnePerCell g.board.lockedBlocks)
    (hn : BlocksOK g.nextPiece.blocks) : GameInv (g.spawnPiece r1 r2) := by
  refine ⟨?_, ⟨?_, ?_⟩, blocksOK_createRandomPiece r2, spawnPiece_legal g r1 r2⟩
  · rw [spawnPiece_lockedBlocks]
    exact hb
  · rw [spawnPiece_blocks]
    split_ifs
    · exact blocksOK_createRandomPiece r1
    · exact hn
  · rw [spawnPiece_transform]
    exact isIntAffine_matMul isIntAffine_identity (isIntAffine_translate isInt_half_width IsInt.one)

theorem tryMove_of_legal (g : Game) (dx dy : ℚ)
    (h : g.board.canPlace (g.currentPiece.translate dx dy) = true) :
    g.tryMove dx dy = (true, { g with currentPiece := g.currentPiece.translate dx dy }) := by
  simp only [Game.tryMove, h, if_true]

theorem tryMove_of_illegal (g : Game) (dx dy : ℚ)
    (h : g.board.canPlace (g.currentPiece.translate dx dy) = false) :
    g.tryMove dx dy = (false, g) := by
  simp only [Game.tryMove, h, Bool.false_eq_true, if_false]

theorem softDrop_of_gameOver (g : Game) (r1 r2 : ℕ) (h : g.board.gameOver = true) :
    g.softDrop r1 r2 = g := by
  simp only [Game.softDrop, h, if_true]

theorem softDrop_of_legal (g : Game) (r1 r2 : ℕ) (h : g.board.gameOver = false)
    (hcan : g.board.canPlace (g.currentPiece.translate 0 1) = true) :
    g.softDrop r1 r2 = { g with currentPiece := g.currentPiece.translate 0 1 } := by
  simp only [Game.softDrop, h, hcan, Bool.false_eq_true, if_false, if_true]

theorem softDrop_of_blocked (g : Game) (r1 r2 : ℕ) (h : g.board.gameOver = false)
    (hcan : g.board.canPlace (g.currentPiece.translate 0 1) = false) :
    g.softDrop r1 r2 = g.lockAndSpawn r1 r2 := by
  simp only [Game.softDrop, h, hcan, Bool.false_eq_true, if_false]

theorem hardDrop_of_gameOver (g : Game) (fuel r1 r2 : ℕ) (h : g.board.gameOver = true) :
    g.hardDrop fuel r1 r2 = some g := by
  simp only [Game.hardDrop, h, if_true]

theorem hardDrop_of_running (g : Game) (fuel r1 r2 : ℕ) (h : g.board.gameOver = false) :
    g.hardDrop fuel r1 r2 =
      (dropLoop g.board fuel g.currentPiece).map
        (fun landed => ({ g with currentPiece := landed } : Game).lockAndSpawn r1 r2) := by
  simp only [Game.hardDrop, h, Bool.false_eq_true, if_false]
  cases dropLoop g.board fuel g.currentPiece <;> rfl

theorem tryMove_inv (g : Game) {dx dy : ℚ} (hx : IsInt dx) (hy : IsInt dy) (h : GameInv g) :
    GameInv (g.tryMove dx dy).2 := by
  cases hcan : g.board.canPlace (g.currentPiece.translate dx dy) with
  | true =>
    rw [tryMove_of_legal g dx dy hcan]
    exact ⟨h.1, pieceOK_translate h.2.1 hx hy, h.2.2.1, fun _ => hcan⟩
  | false =>
    rw [tryMove_of_illegal g dx dy hcan]
    exact h

theorem kickLoop_some (board : GameBoard) (testPiece : Piece) (kicks : List ℚ)
    (hk : ∀ k ∈ kicks, IsInt k) (ht : PieceOK testPiece) (p : Piece)
    (h : kickLoop board testPiece kicks = some p) : PieceOK p ∧ board.canPlace p = true := by
  induction kicks with
  | nil => cases h
  | cons k rest ih =>
    unfold kickLoop at h
    by_cases hcan : board.canPlace (testPiece.translate k 0) = true
    · simp only [hcan, if_true, Option.some.injEq] at h
      subst h
      exact ⟨pieceOK_translate ht (hk k (List.mem_cons_self _ _)) IsInt.zero, hcan⟩
    · simp only [hcan, if_false] at h
      exact ih (fun k2 hk2 => hk k2 (List.mem_cons_of_mem _ hk2)) h

theorem tryRotate_inv (g : Game) (h : GameInv g) : GameInv g.tryRotate.2 := by
  unfold Game.tryRotate
  by_cases hcan : g.board.canPlace g.currentPiece.rotate90 = true
  · simp only [hcan, if_true]
    exact ⟨h.1, pieceOK_rotate90 h.2.1, h.2.2.1, fun _ => hcan⟩
  · simp only [hcan, if_false]
    cases hkick : kickLoop g.board g.currentPiece.rotate90 [-1, 1, -2, 2] with
    | none => exact h
    | some p =>
      have hk : ∀ k ∈ ([-1, 1, -2, 2] : List ℚ), IsInt k := by
        intro k hk
        simp only [List.mem_cons, List.mem_singleton, List.not_mem_nil, or_false] at hk
        rcases hk with rfl | rfl | rfl | rfl
        · exact ⟨-1, by norm_num⟩
        · exact ⟨1, by norm_num⟩
        · exact ⟨-2, by norm_num⟩
        · exact ⟨2, by norm_num⟩
      obtain ⟨hp, hcp⟩ := kickLoop_some _ _ _ hk (pieceOK_rotate90 h.2.1) p hkick
      exact ⟨h.1, hp, h.2.2.1, fun _ => hcp⟩

theorem lockAndSpawn_inv (g : Game) (r1 r2 : ℕ) (h : GameInv g)
    (hcan : g.board.canPlace g.currentPiece = true) : GameInv (g.lockAndSpawn r1 r2) := by
  unfold Game.lockAndSpawn
  exact spawnPiece_inv _ r1 r2
    (clearLines_onePerCell _ (lockPiece_onePerCell h.1 h.2.1 hcan)) h.2.2.1

theorem softDrop_inv (g : Game) (r1 r2 : ℕ) (h : GameInv g) : GameInv (g.softDrop r1 r2) := by
  cases hover : g.board.gameOver with
  | true =>
    rw [softDrop_of_gameOver g r1 r2 hover]
    exact h
  | false =>
    cases hcan : g.board.canPlace (g.currentPiece.translate 0 1) with
    | true =>
      rw [softDrop_of_legal g r1 r2 hover hcan]
      exact ⟨h.1, pieceOK_translate h.2.1 IsInt.zero IsInt.one, h.2.2.1, fun _ => hcan⟩
    | false =>
      rw [softDrop_of_blocked g r1 r2 hover hcan]
      exact lockAndSpawn_inv g r1 r2 h (h.2.2.2 hover)

theorem dropLoop_some (board : GameBoard) (fuel : ℕ) :
    ∀ (current landed : Piece), PieceOK current → board.canPlace current = true →
      dropLoop board fuel current = some landed →
        PieceOK landed ∧ board.canPlace landed = true := by
  induction fuel with
  | zero =>
    intro current landed _ _ h
    cases h
  | succ n ih =>
    intro current landed hp hcan h
    unfold dropLoop at h
    by_cases hnext : board.canPlace (current.translate 0 1) = false
    · simp only [hnext, if_true, Option.some.injEq] at h
      subst h
      exact ⟨hp, hcan⟩
    · simp only [hnext, if_false] at h
      exact ih _ landed (pieceOK_translate hp IsInt.zero IsInt.one) (by simpa using hnext) h

theorem hardDrop_inv (g g2 : Game) (fuel r1 r2 : ℕ) (h : GameInv g)
    (hrun : g.hardDrop fuel r1 r2 = some g2) : GameInv g2 := by
  cases hover : g.board.gameOver with
  | true =>
    rw [hardDrop_of_gameOver g fuel r1 r2 hover, Option.some.injEq] at hrun
    subst hrun
    exact h
  | false =>
    rw [hardDrop_of_running g fuel r1 r2 hover, Option.map_eq_some'] at hrun
    obtain ⟨landed, hdrop, rfl⟩ := hrun
    obtain ⟨hp, hcan⟩ := dropLoop_some g.board fuel g.currentPiece landed h.2.1
      (h.2.2.2 hover) hdrop
    exact lockAndSpawn_inv _ r1 r2 ⟨h.1, hp, h.2.2.1, fun _ => hcan⟩ hcan

theorem onePerCell_nil : OnePerCell [] :=
  ⟨fun _ h => absurd h (List.not_mem_nil _), List.Pairwise.nil⟩

theorem handleKeyR_inv (g : Game) (r0 r1 r2 : ℕ) : GameInv (g.handleKeyR r0 r1 r2) := by
  unfold Game.handleKeyR
  exact spawnPiece_inv _ r1 r2 onePerCell_nil (blocksOK_createRandomPiece r0)

theorem new_inv (r0 r1 r2 : ℕ) : GameInv (Game.new r0 r1 r2) := by
  unfold Game.new
  exact spawnPiece_inv _ r1 r2 onePerCell_nil (blocksOK_createRandomPiece r0)

theorem run_inv (g g2 : Game) (fuel : ℕ) (c : Command) (h : GameInv g)
    (hrun : g.run fuel c = some g2) : GameInv g2 := by
  cases c with
  | moveLeft =>
    simp only [Game.run, Option.some.injEq] at hrun
    subst hrun
    exact tryMove_inv g ⟨-1, by norm_num⟩ IsInt.zero h
  | moveRight =>
    simp only [Game.run, Option.some.injEq] at hrun
    subst hrun
    exact tryMove_inv g IsInt.one IsInt.zero h
  | rotate =>
    simp only [Game.run, Option.some.injEq] at hrun
    subst hrun
    exact tryRotate_inv g h
  | softDrop r1 r2 =>
    simp only [Game.run, Option.some.injEq] at hrun
    subst hrun
    exact softDrop_inv g r1 r2 h
  | tick r1 r2 =>
    simp only [Game.run, Option.some.injEq] at hrun
    subst hrun
    exact softDrop_inv g r1 r2 h
  | hardDrop r1 r2 =>
    exact hardDrop_inv g g2 fuel r1 r2 h hrun
  | reset r0 r1 r2 =>
    simp only [Game.run, Option.some.injEq] at hrun
    subst hrun
    exact handleKeyR_inv g r0 r1 r2

theorem reachable_inv (g : Game) (h : Reachable g) : GameInv g := by
  induction h with
  | init r0 r1 r2 => exact new_inv r0 r1 r2
  | step g g2 fuel c _ hrun ih => exact run_inv g g2 fuel c ih hrun

/-- With exact quarter turns (`rotate90`, cosine `0` and sine `1`), every state
reachable from a new game keeps its locked blocks on distinct integer cells,
hence no two of them closer than the collision epsilon; locking the current
piece when it is legally placed, and the row shift of `clearLines` (on the
board itself and after such a lock), keep both properties. The integer cells
are those of the exact model: the program's binary32 rotation leaves them, and
off the lattice the row shift can merge blocks
(`clearLines_merges_off_lattice`). -/
theorem lattice_board_invariant (g : Game) (h : Reachable g) :
    (Separated g.board.lockedBlocks ∧ OnePerCell g.board.lockedBlocks) ∧
      (g.board.canPlace g.currentPiece = true →
        Separated (g.board.lockPiece g.currentPiece).lockedBlocks ∧
          OnePerCell (g.board.lockPiece g.currentPiece).lockedBlocks ∧
          Separated (g.board.lockPiece g.currentPiece).clearLines.2.lockedBlocks ∧
          OnePerCell (g.board.lockPiece g.currentPiece).clearLines.2.lockedBlocks) ∧
      (Separated g.board.clearLines.2.lockedBlocks ∧
        OnePerCell g.board.clearLines.2.lockedBlocks) := by
  have hinv := reachable_inv g h
  refine ⟨⟨separated_of_onePerCell hinv.1, hinv.1⟩, ?_, ?_⟩
  · intro hcan
    have hlock := lockPiece_onePerCell hinv.1 hinv.2.1 hcan
    have hclear := clearLines_onePerCell _ hlock
    exact ⟨separated_of_onePerCell hlock, hlock, separated_of_onePerCell hclear, hclear⟩
  · have hclear := clearLines_onePerCell _ hinv.1
    exact ⟨separated_of_onePerCell hclear, hclear⟩

/-! ## The drop loop ends -/

theorem translate_worldPositions (p : Piece) (dx dy : ℚ) (h02 : p.transform.m02 = 0)
    (h12 : p.transform.m12 = 0) (h22 : p.transform.m22 = 1) :
    (p.translate dx dy).getWorldPositions =
      p.getWorldPositions.map (fun v => { x := v.x + dx, y := v.y + dy }) := by
  simp only [Piece.getWorldPositions, Piece.translate, List.map_map]
  apply List.map_congr_left
  intro block _
  simp only [Function.comp, Block.getWorldPos, applyMat3, matMul, matTranslate, matIdentity, h02,
    h12, h22, Vec2.mk.injEq]
  constructor <;> ring

theorem canPlace_lt_height {b : GameBoard} {p : Piece} (h : b.canPlace p = true) :
    ∀ pos ∈ p.getWorldPositions, pos.y < 20 :=
  fun pos hpos => ((canPlace_iff_overlaps b p).mp h pos hpos).2.2.1

theorem dropLoop_succ_of_blocked (board : GameBoard) (fuel : ℕ) (p : Piece)
    (h : board.canPlace (p.translate 0 1) = false) : dropLoop board (fuel + 1) p = some p := by
  simp only [dropLoop, h, if_true]

theorem dropLoop_succ_of_legal (board : GameBoard) (fuel : ℕ) (p : Piece)
    (h : board.canPlace (p.translate 0 1) = true) :
    dropLoop board (fuel + 1) p = dropLoop board fuel (p.translate 0 1) := by
  simp only [dropLoop, h, Bool.true_eq_false, if_false]

theorem dropLoop_ends (board : GameBoard) (n : ℕ) :
    ∀ p : Piece, IsIntAffine p.transform →
      (∃ pos ∈ p.getWorldPositions, 20 - pos.y ≤ (n : ℚ)) →
        ∃ landed, dropLoop board (n + 1) p = some landed := by
  induction n with
  | zero =>
    intro p hp hex
    obtain ⟨pos, hpos, hy⟩ := hex
    cases hcan : board.canPlace (p.translate 0 1) with
    | false => exact ⟨p, dropLoop_succ_of_blocked board 0 p hcan⟩
    | true =>
      exfalso
      have hlt := canPlace_lt_height hcan { x := pos.x + 0, y := pos.y + 1 } (by
        rw [translate_worldPositions p 0 1 hp.1 hp.2.1 hp.2.2.1]
        exact List.mem_map.mpr ⟨pos, hpos, rfl⟩)
      simp only [Nat.cast_zero] at hy
      have : pos.y + 1 < 20 := hlt
      linarith
  | succ k ih =>
    intro p hp hex
    obtain ⟨pos, hpos, hy⟩ := hex
    cases hcan : board.canPlace (p.translate 0 1) with
    | false => exact ⟨p, dropLoop_succ_of_blocked board (k + 1) p hcan⟩
    | true =>
      have hnext := ih (p.translate 0 1)
        (isIntAffine_matMul hp (isIntAffine_translate IsInt.zero IsInt.one))
        ⟨{ x := pos.x + 0, y := pos.y + 1 }, by
          rw [translate_worldPositions p 0 1 hp.1 hp.2.1 hp.2.2.1]
          exact List.mem_map.mpr ⟨pos, hpos, rfl⟩, by
          push_cast at hy
          show 20 - (pos.y + 1) ≤ (k : ℚ)
          linarith⟩
      obtain ⟨landed, hl⟩ := hnext
      exact ⟨landed, by rw [dropLoop_succ_of_legal board (k + 1) p hcan]; exact hl⟩

theorem dropLoop_terminates (board : GameBoard) (p : Piece) (hp : IsIntAffine p.transform)
    (hne : p.blocks ≠ []) : ∃ fuel landed, dropLoop board fuel p = some landed := by
  obtain ⟨block, hblock⟩ := List.exists_mem_of_ne_nil _ hne
  have hpos : block.getWorldPos p.transform ∈ p.getWorldPositions :=
    List.mem_map.mpr ⟨block, hblock, rfl⟩
  obtain ⟨n, hn⟩ := exists_nat_ge (20 - (block.getWorldPos p.transform).y)
  obtain ⟨landed, hl⟩ := dropLoop_ends board n p hp ⟨_, hpos, hn⟩
  exact ⟨n + 1, landed, hl⟩

theorem createRandomPiece_blocks_ne_nil (r : ℕ) : (createRandomPiece r).blocks ≠ [] := by
  have hmem := createRandomPiece_mem r
  simp only [templates, List.mem_cons, List.mem_singleton, List.not_mem_nil, or_false] at hmem
  rcases hmem with h | h | h | h | h | h | h <;> rw [h] <;> simp [mkTemplate]

theorem spawnPiece_blocks_ne_nil (g : Game) (r1 r2 : ℕ) :
    (g.spawnPiece r1 r2).currentPiece.blocks ≠ [] := by
  rw [spawnPiece_blocks]
  cases hempty : g.nextPiece.blocks.isEmpty with
  | true =>
    simp only [if_true]
    exact createRandomPiece_blocks_ne_nil r1
  | false =>
    simp only [Bool.false_eq_true, if_false]
    intro hnil
    rw [hnil] at hempty
    cases hempty

theorem tryMove_blocks (g : Game) (dx dy : ℚ) :
    (g.tryMove dx dy).2.currentPiece.blocks = g.currentPiece.blocks := by
  cases hcan : g.board.canPlace (g.currentPiece.translate dx dy) with
  | true => rw [tryMove_of_legal g dx dy hcan]; rfl
  | false => rw [tryMove_of_illegal g dx dy hcan]

theorem kickLoop_blocks (board : GameBoard) (testPiece : Piece) (kicks : List ℚ) (p : Piece)
    (h : kickLoop board testPiece kicks = some p) : p.blocks = testPiece.blocks := by
  rw [kickLoop_eq_find] at h
  have hmem := List.mem_of_find?_eq_some h
  rw [List.mem_map] at hmem
  obtain ⟨k, _, rfl⟩ := hmem
  rfl

theorem tryRotate_of_legal (g : Game) (h : g.board.canPlace g.currentPiece.rotate90 = true) :
    g.tryRotate = (true, { g with currentPiece := g.currentPiece.rotate90 }) := by
  simp only [Game.tryRotate, h, if_true]

theorem tryRotate_of_kick (g : Game) (p : Piece)
    (h : g.board.canPlace g.currentPiece.rotate90 = false)
    (hk : kickLoop g.board g.currentPiece.rotate90 [-1, 1, -2, 2] = some p) :
    g.tryRotate = (true, { g with currentPiece := p }) := by
  simp only [Game.tryRotate, h, hk, Bool.false_eq_true, if_false]

theorem tryRotate_of_stuck (g : Game)
    (h : g.board.canPlace g.currentPiece.rotate90 = false)
    (hk : kickLoop g.board g.currentPiece.rotate90 [-1, 1, -2, 2] = none) :
    g.tryRotate = (false, g) := by
  simp only [Game.tryRotate, h, hk, Bool.false_eq_true, if_false]

theorem tryRotate_blocks (g : Game) : g.tryRotate.2.currentPiece.blocks = g.currentPiece.blocks := by
  cases hcan : g.board.canPlace g.currentPiece.rotate90 with
  | true => rw [tryRotate_of_legal g hcan]; rfl
  | false =>
    cases hkick : kickLoop g.board g.currentPiece.rotate90 [-1, 1, -2, 2] with
    | none => rw [tryRotate_of_stuck g hcan hkick]
    | some p =>
      rw [tryRotate_of_kick g p hcan hkick]
      exact kickLoop_blocks g.board g.currentPiece.rotate90 _ p hkick

theorem run_blocks_ne_nil (g g2 : Game) (fuel : ℕ) (c : Command)
    (h : g.currentPiece.blocks ≠ []) (hrun : g.run fuel c = some g2) :
    g2.currentPiece.blocks ≠ [] := by
  have hsoft : ∀ r1 r2, (g.softDrop r1 r2).currentPiece.blocks ≠ [] := by
    intro r1 r2
    cases hover : g.board.gameOver with
    | true => rw [softDrop_of_gameOver g r1 r2 hover]; exact h
    | false =>
      cases hcan : g.board.canPlace (g.currentPiece.translate 0 1) with
      | true => rw [softDrop_of_legal g r1 r2 hover hcan]; exact h
      | false =>
        rw [softDrop_of_blocked g r1 r2 hover hcan]
        exact spawnPiece_blocks_ne_nil _ r1 r2
  cases c with
  | moveLeft =>
    simp only [Game.run, Option.some.injEq] at hrun
    subst hrun
    exact (tryMove_blocks g (-1) 0).symm ▸ h
  | moveRight =>
    simp only [Game.run, Option.some.injEq] at hrun
    subst hrun
    exact (tryMove_blocks g 1 0).symm ▸ h
  | rotate =>
    simp only [Game.run, Option.some.injEq] at hrun
    subst hrun
    exact (tryRotate_blocks g).symm ▸ h
  | softDrop r1 r2 =>
    simp only [Game.run, Option.some.injEq] at hrun
    subst hrun
    exact hsoft r1 r2
  | tick r1 r2 =>
    simp only [Game.run, Option.some.injEq] at hrun
    subst hrun
    exact hsoft r1 r2
  | hardDrop r1 r2 =>
    simp only [Game.run] at hrun
    cases hover : g.board.gameOver with
    | true =>
      rw [hardDrop_of_gameOver g fuel r1 r2 hover, Option.some.injEq] at hrun
      subst hrun
      exact h
    | false =>
      rw [hardDrop_of_running g fuel r1 r2 hover, Option.map_eq_some'] at hrun
      obtain ⟨landed, _, rfl⟩ := hrun
      exact spawnPiece_blocks_ne_nil _ r1 r2
  | reset r0 r1 r2 =>
    simp only [Game.run, Option.some.injEq] at hrun
    subst hrun
    exact spawnPiece_blocks_ne_nil _ r1 r2

theorem reachable_blocks_ne_nil (g : Game) (h : Reachable g) : g.currentPiece.blocks ≠ [] := by
  induction h with
  | init r0 r1 r2 => exact spawnPiece_blocks_ne_nil _ r1 r2
  | step g g2 fuel c _ hrun ih => exact run_blocks_ne_nil g g2 fuel c ih hrun

/-- From a reachable state every command yields a next state, given enough
fuel for the loop of `hardDrop`; so `Reachable` follows every command sequence
of the program. -/
theorem reachable_run_total (g : Game) (h : Reachable g) (c : Command) :
    ∃ fuel g2, g.run fuel c = some g2 ∧ Reachable g2 := by
  cases c with
  | hardDrop r1 r2 =>
    cases hover : g.board.gameOver with
    | true =>
      exact ⟨0, g, hardDrop_of_gameOver g 0 r1 r2 hover, h⟩
    | false =>
      obtain ⟨fuel, landed, hl⟩ := dropLoop_terminates g.board g.currentPiece
        (reachable_inv g h).2.1.2 (reachable_blocks_ne_nil g h)
      have hrun : g.run fuel (Command.hardDrop r1 r2) =
          some (({ g with currentPiece := landed } : Game).lockAndSpawn r1 r2) := by
        simp only [Game.run]
        rw [hardDrop_of_running g fuel r1 r2 hover, hl]
        rfl
      exact ⟨fuel, _, hrun, Reachable.step g _ fuel _ h hrun⟩
  | moveLeft => exact ⟨0, _, rfl, Reachable.step g _ 0 Command.moveLeft h rfl⟩
  | moveRight => exact ⟨0, _, rfl, Reachable.step g _ 0 Command.moveRight h rfl⟩
  | rotate => exact ⟨0, _, rfl, Reachable.step g _ 0 Command.rotate h rfl⟩
  | softDrop r1 r2 => exact ⟨0, _, rfl, Reachable.step g _ 0 (Command.softDrop r1 r2) h rfl⟩
  | tick r1 r2 => exact ⟨0, _, rfl, Reachable.step g _ 0 (Command.tick r1 r2) h rfl⟩
  | reset r0 r1 r2 => exact ⟨0, _, rfl, Reachable.step g _ 0 (Command.reset r0 r1 r2) h rfl⟩

/-! ## What a successful placement guarantees -/

/-- C2, as stated, fails: a block at height `-0.1` directly above the locked
block at `(0, 0)` is not tested against it, so `canPlace` accepts the piece
although the two are `0.1` apart. -/
theorem canPlace_skips_collision_above_board :
    (boardOf [lockedAt 0 0 1]).canPlace (singleBlockPiece 0 (-(1 / 10))) = true ∧
      (singleBlockPiece 0 (-(1 / 10))).getWorldPositions = [{ x := 0, y := -(1 / 10) }] ∧
      (boardOf [lockedAt 0 0 1]).lockedBlocks = [lockedAt 0 0 1] ∧
      overlaps { x := 0, y := -(1 / 10) } (lockedAt 0 0 1).position = true := by
  refine ⟨?_, getWorldPositions_single _ _, rfl, ?_⟩
  · rw [canPlace_iff_overlaps, getWorldPositions_single]
    intro pos hpos
    rw [List.mem_singleton] at hpos
    subst hpos
    refine ⟨by norm_num, by norm_num, by norm_num, ?_⟩
    intro hy
    norm_num at hy
  · norm_num [overlaps, Vec2.distSq, COLLISION_EPSILON, lockedAt]

/-- C2, amended. When `canPlace` returns true, every world position has
`-0.01 <= x < 10` and `y < 20`, and every world position with `y >= 0` overlaps
no locked block (positions with `y < 0` are not tested). If moreover the world
positions and the locked blocks have integer coordinates and no locked block
lies above the top row, then no world position overlaps any locked block. -/
theorem canPlace_sound (b : GameBoard) (piece : Piece) (h : b.canPlace piece = true) :
    (∀ pos ∈ piece.getWorldPositions,
      (-(1 / 100) ≤ pos.x ∧ pos.x < (BOARD_W : ℚ) ∧ pos.y < (BOARD_H : ℚ)) ∧
        (0 ≤ pos.y → ∀ l ∈ b.lockedBlocks, overlaps pos l.position = false)) ∧
      ((∀ pos ∈ piece.getWorldPositions, IsIntVec pos) →
        (∀ l ∈ b.lockedBlocks, IsIntVec l.position ∧ 0 ≤ l.position.y) →
          ∀ pos ∈ piece.getWorldPositions, ∀ l ∈ b.lockedBlocks,
            overlaps pos l.position = false) := by
  have hmain := (canPlace_iff_overlaps b piece).mp h
  constructor
  · intro pos hpos
    obtain ⟨h1, h2, h3, h4⟩ := hmain pos hpos
    exact ⟨⟨h1, by simpa [BOARD_W] using h2, by simpa [BOARD_H] using h3⟩, h4⟩
  · intro hpiece hboard pos hpos l hl
    by_cases hy : 0 ≤ pos.y
    · exact (hmain pos hpos).2.2.2 hy l hl
    · apply overlaps_eq_false_of_ne (hpiece pos hpos) (hboard l hl).1
      intro heq
      apply hy
      rw [heq]
      exact (hboard l hl).2

/-- The I-piece at the spawn position, one row above a locked block at `(5, 2)`. -/
theorem canPlace_sound_witness :
    (boardOf [lockedAt 5 2 1]).canPlace spawnedI = true ∧
      ((∀ pos ∈ spawnedI.getWorldPositions,
        (-(1 / 100) ≤ pos.x ∧ pos.x < (BOARD_W : ℚ) ∧ pos.y < (BOARD_H : ℚ)) ∧
          (0 ≤ pos.y → ∀ l ∈ (boardOf [lockedAt 5 2 1]).lockedBlocks,
            overlaps pos l.position = false)) ∧
        ((∀ pos ∈ spawnedI.getWorldPositions, IsIntVec pos) →
          (∀ l ∈ (boardOf [lockedAt 5 2 1]).lockedBlocks,
            IsIntVec l.position ∧ 0 ≤ l.position.y) →
            ∀ pos ∈ spawnedI.getWorldPositions, ∀ l ∈ (boardOf [lockedAt 5 2 1]).lockedBlocks,
              overlaps pos l.position = false)) := by
  have hp : (boardOf [lockedAt 5 2 1]).canPlace spawnedI = true := by
    norm_num [boardOf, lockedAt, spawnedI, Piece.translate, matMul, GameBoard.canPlace,
      Piece.getWorldPositions, Block.getWorldPos, applyMat3, matTranslate, matIdentity,
      mkTemplate, canPlaceLoop, hitsLocked, overlaps, Vec2.distSq, COLLISION_EPSILON, BOARD_W,
      BOARD_H]
  exact ⟨hp, canPlace_sound _ _ hp⟩

/-! ## Moves, gravity and the game-over flag -/

/-- C11. `tryMove` returns true exactly when the translated current piece
passes `canPlace`; on true the current piece is the translated piece, on false
it is unchanged; the board and the next piece are unchanged in both cases. -/
theorem tryMove_spec (g : Game) (dx dy : ℚ) :
    ((g.tryMove dx dy).1 = true ↔ g.board.canPlace (g.currentPiece.translate dx dy) = true) ∧
      ((g.tryMove dx dy).1 = true →
        (g.tryMove dx dy).2.currentPiece = g.currentPiece.translate dx dy) ∧
      ((g.tryMove dx dy).1 = false → (g.tryMove dx dy).2.currentPiece = g.currentPiece) ∧
      (g.tryMove dx dy).2.board = g.board ∧
      (g.tryMove dx dy).2.nextPiece = g.nextPiece := by
  cases hcan : g.board.canPlace (g.currentPiece.translate dx dy) with
  | true =>
    rw [tryMove_of_legal g dx dy hcan]
    exact ⟨⟨fun _ => rfl, fun _ => rfl⟩, fun _ => rfl, fun h => Bool.noConfusion h, rfl, rfl⟩
  | false =>
    rw [tryMove_of_illegal g dx dy hcan]
    exact ⟨⟨fun h => Bool.noConfusion h, fun h => Bool.noConfusion h⟩,
      fun h => Bool.noConfusion h, fun _ => rfl, rfl, rfl⟩

/-- C12. With the game-over flag clear, `softDrop` commits the current piece
translated by `(0, 1)` when it passes `canPlace`, leaving board and next piece
unchanged; otherwise the result is `spawnPiece` run on the game whose board is
`lockPiece` of the current piece followed by `clearLines`. -/
theorem softDrop_spec (g : Game) (r1 r2 : ℕ) (h : g.board.gameOver = false) :
    (g.board.canPlace (g.currentPiece.translate 0 1) = true →
        (g.softDrop r1 r2).currentPiece = g.currentPiece.translate 0 1 ∧
          (g.softDrop r1 r2).board = g.board ∧ (g.softDrop r1 r2).nextPiece = g.nextPiece) ∧
      (g.board.canPlace (g.currentPiece.translate 0 1) = false →
        g.softDrop r1 r2 =
          ({ board := (g.board.lockPiece g.currentPiece).clearLines.2,
             currentPiece := g.currentPiece,
             nextPiece := g.nextPiece } : Game).spawnPiece r1 r2) := by
  constructor
  · intro hcan
    rw [softDrop_of_legal g r1 r2 h hcan]
    exact ⟨rfl, rfl, rfl⟩
  · intro hcan
    rw [softDrop_of_blocked g r1 r2 h hcan]
    rfl

/-- The sample game with the flag clear. -/
theorem softDrop_spec_witness :
    (sampleGame false).board.gameOver = false ∧
      (((sampleGame false).board.canPlace ((sampleGame false).currentPiece.translate 0 1) = true →
        ((sampleGame false).softDrop 0 1).currentPiece =
            (sampleGame false).currentPiece.translate 0 1 ∧
          ((sampleGame false).softDrop 0 1).board = (sampleGame false).board ∧
          ((sampleGame false).softDrop 0 1).nextPiece = (sampleGame false).nextPiece) ∧
      ((sampleGame false).board.canPlace ((sampleGame false).currentPiece.translate 0 1) = false →
        (sampleGame false).softDrop 0 1 =
          ({ board := ((sampleGame false).board.lockPiece
                (sampleGame false).currentPiece).clearLines.2,
             currentPiece := (sampleGame false).currentPiece,
             nextPiece := (sampleGame false).nextPiece } : Game).spawnPiece 0 1)) :=
  ⟨rfl, softDrop_spec (sampleGame false) 0 1 rfl⟩

theorem tryMove_board (g : Game) (dx dy : ℚ) : (g.tryMove dx dy).2.board = g.board := by
  cases hcan : g.board.canPlace (g.currentPiece.translate dx dy) with
  | true => rw [tryMove_of_legal g dx dy hcan]
  | false => rw [tryMove_of_illegal g dx dy hcan]

theorem tryRotate_board (g : Game) : g.tryRotate.2.board = g.board := by
  cases hcan : g.board.canPlace g.currentPiece.rotate90 with
  | true => rw [tryRotate_of_legal g hcan]
  | false =>
    cases hkick : kickLoop g.board g.currentPiece.rotate90 [-1, 1, -2, 2] with
    | none => rw [tryRotate_of_stuck g hcan hkick]
    | some p => rw [tryRotate_of_kick g p hcan hkick]

/-- C13. With the game-over flag set, `softDrop`, `hardDrop` (whatever the
bound on its loop) and the gravity tick `update` return the game unchanged;
`handleKeyLeft`, `handleKeyRight` and `handleKeyUp` leave the board unchanged;
so after every command other than the restart key the flag is still set. -/
theorem gameOver_absorbing (g : Game) (h : g.board.gameOver = true) :
    (∀ r1 r2, g.softDrop r1 r2 = g) ∧
      (∀ fuel r1 r2, g.hardDrop fuel r1 r2 = some g) ∧
      (∀ r1 r2, g.update r1 r2 = g) ∧
      g.handleKeyLeft.board = g.board ∧
      g.handleKeyRight.board = g.board ∧
      g.handleKeyUp.board = g.board ∧
      (∀ (c : Command) (fuel : ℕ) (g2 : Game), c.isReset = false → g.run fuel c = some g2 →
        g2.board.gameOver = true) := by
  refine ⟨fun r1 r2 => softDrop_of_gameOver g r1 r2 h,
    fun fuel r1 r2 => hardDrop_of_gameOver g fuel r1 r2 h,
    fun r1 r2 => softDrop_of_gameOver g r1 r2 h,
    tryMove_board g (-1) 0, tryMove_board g 1 0, tryRotate_board g, ?_⟩
  intro c fuel g2 hc hrun
  cases c with
  | moveLeft =>
    simp only [Game.run, Option.some.injEq] at hrun
    rw [← hrun]
    show (g.tryMove (-1) 0).2.board.gameOver = true
    rw [tryMove_board, h]
  | moveRight =>
    simp only [Game.run, Option.some.injEq] at hrun
    rw [← hrun]
    show (g.tryMove 1 0).2.board.gameOver = true
    rw [tryMove_board, h]
  | rotate =>
    simp only [Game.run, Option.some.injEq] at hrun
    rw [← hrun]
    show g.tryRotate.2.board.gameOver = true
    rw [tryRotate_board, h]
  | softDrop r1 r2 =>
    simp only [Game.run, Option.some.injEq] at hrun
    rw [← hrun, softDrop_of_gameOver g r1 r2 h, h]
  | tick r1 r2 =>
    simp only [Game.run, Option.some.injEq] at hrun
    rw [← hrun, softDrop_of_gameOver g r1 r2 h, h]
  | hardDrop r1 r2 =>
    simp only [Game.run] at hrun
    rw [hardDrop_of_gameOver g fuel r1 r2 h, Option.some.injEq] at hrun
    rw [← hrun, h]
  | reset r0 r1 r2 => cases hc

/-- The sample game with the flag set. -/
theorem gameOver_absorbing_witness :
    (sampleGame true).board.gameOver = true ∧
      ((∀ r1 r2, (sampleGame true).softDrop r1 r2 = sampleGame true) ∧
      (∀ fuel r1 r2, (sampleGame true).hardDrop fuel r1 r2 = some (sampleGame true)) ∧
      (∀ r1 r2, (sampleGame true).update r1 r2 = sampleGame true) ∧
      (sampleGame true).handleKeyLeft.board = (sampleGame true).board ∧
      (sampleGame true).handleKeyRight.board = (sampleGame true).board ∧
      (sampleGame true).handleKeyUp.board = (sampleGame true).board ∧
      (∀ (c : Command) (fuel : ℕ) (g2 : Game), c.isReset = false →
        (sampleGame true).run fuel c = some g2 → g2.board.gameOver = true)) :=
  ⟨rfl, gameOver_absorbing (sampleGame true) rfl⟩

/-! ## Locking -/

/-- C16. `lockPiece` appends to the locked-block list, in pattern order, one
block with the piece's `colorIndex` for each world position with
`0 <= y < BOARD_H` and `-0.01 <= x < BOARD_W`, drops the other positions, keeps
the earlier blocks as a prefix, and leaves score, high score, total lines and
the game-over flag unchanged. -/
theorem lockPiece_spec (b : GameBoard) (piece : Piece) :
    (b.lockPiece piece).lockedBlocks =
        b.lockedBlocks ++
          (piece.getWorldPositions.filter
            (fun pos => decide (0 ≤ pos.y ∧ pos.y < (BOARD_H : ℚ) ∧ -(1 / 100) ≤ pos.x ∧
              pos.x < (BOARD_W : ℚ)))).map
            (fun pos => { position := pos, color := piece.colorIndex }) ∧
      (b.lockPiece piece).score = b.score ∧
      (b.lockPiece piece).highScore = b.highScore ∧
      (b.lockPiece piece).linesClearedTotal = b.linesClearedTotal ∧
      (b.lockPiece piece).gameOver = b.gameOver := by
  refine ⟨?_, rfl, rfl, rfl, rfl⟩
  rw [lockPiece_lockedBlocks]
  rfl

/-! ## Spawning -/

theorem matMul_identity_translate (tx ty : ℚ) :
    matMul matIdentity (matTranslate tx ty) = matTranslate tx ty := by
  simp [matMul, matTranslate, matIdentity]

theorem spawnPlacement_transform (p : Piece) : (spawnPlacement p).transform = matTranslate 5 1 := by
  show matMul matIdentity (matTranslate ((BOARD_W : ℚ) / 2) 1) = matTranslate 5 1
  rw [matMul_identity_translate]
  norm_num [BOARD_W]

theorem applyMat3_translate (tx ty : ℚ) (v : Vec2) :
    applyMat3 (matTranslate tx ty) v = { x := v.x + tx, y := v.y + ty } := by
  simp [applyMat3, matTranslate, matIdentity]

theorem spawnPlacement_worldPositions (p : Piece) :
    (spawnPlacement p).getWorldPositions =
      p.blocks.map (fun block => { x := block.localPos.x + 5, y := block.localPos.y + 1 }) := by
  unfold Piece.getWorldPositions Block.getWorldPos
  rw [spawnPlacement_transform]
  simp only [applyMat3_translate]
  rfl

theorem spawnPiece_currentPiece (g : Game) (r1 r2 : ℕ) :
    (g.spawnPiece r1 r2).currentPiece =
      spawnPlacement (if g.nextPiece.blocks.isEmpty then createRandomPiece r1 else g.nextPiece) :=
  rfl

theorem spawnPiece_currentPiece_of_ne_nil (g : Game) (r1 r2 : ℕ) (h : g.nextPiece.blocks ≠ []) :
    (g.spawnPiece r1 r2).currentPiece = spawnPlacement g.nextPiece := by
  rw [spawnPiece_currentPiece]
  have hempty : g.nextPiece.blocks.isEmpty = false := by
    cases hb : g.nextPiece.blocks with
    | nil => exact absurd hb h
    | cons a l => rfl
  rw [hempty]
  rfl

theorem transform_of_mem_templates {p : Piece} (hp : p ∈ templates) : p.transform = matIdentity := by
  simp only [templates, List.mem_cons, List.mem_singleton, List.not_mem_nil, or_false] at hp
  rcases hp with rfl | rfl | rfl | rfl | rfl | rfl | rfl <;> rfl

theorem spawnPiece_nextPiece (g : Game) (r1 r2 : ℕ) :
    (g.spawnPiece r1 r2).nextPiece = createRandomPiece r2 := by
  show ({ createRandomPiece r2 with transform := matIdentity } : Piece) = createRandomPiece r2
  have h := transform_of_mem_templates (createRandomPiece_mem r2)
  cases hp : createRandomPiece r2 with
  | mk blocks colorIndex transform =>
    rw [hp] at h
    simp only at h
    rw [h]

theorem spawnPiece_board_of_legal (g : Game) (r1 r2 : ℕ)
    (h : g.board.canPlace (g.spawnPiece r1 r2).currentPiece = true) :
    (g.spawnPiece r1 r2).board = g.board := by
  rw [spawnPiece_currentPiece] at h
  unfold spawnPlacement at h
  unfold Game.spawnPiece
  simp only [h, Bool.true_eq_false, if_false]

theorem spawnPiece_board_of_illegal (g : Game) (r1 r2 : ℕ)
    (h : g.board.canPlace (g.spawnPiece r1 r2).currentPiece = false) :
    (g.spawnPiece r1 r2).board = { g.board with gameOver := true } := by
  rw [spawnPiece_currentPiece] at h
  unfold spawnPlacement at h
  unfold Game.spawnPiece
  simp only [h, if_true]

/-- C14. When the next piece has blocks, `spawnPiece` makes the current piece
the former next piece's pattern and colour under the translation by `(5, 1)`,
so its world positions are the local offsets plus `(5, 1)`; the new next piece
is a catalog template with the identity transform; the board becomes the old
board with the game-over flag set when the new current piece fails `canPlace`
on it, and is the old board otherwise. -/
theorem spawnPiece_spec (g : Game) (r1 r2 : ℕ) (h : g.nextPiece.blocks ≠ []) :
    (g.spawnPiece r1 r2).currentPiece.blocks = g.nextPiece.blocks ∧
      (g.spawnPiece r1 r2).currentPiece.colorIndex = g.nextPiece.colorIndex ∧
      (g.spawnPiece r1 r2).currentPiece.transform = matTranslate ((BOARD_W : ℚ) / 2) 1 ∧
      (g.spawnPiece r1 r2).currentPiece.transform = matTranslate 5 1 ∧
      (g.spawnPiece r1 r2).currentPiece.getWorldPositions =
        g.nextPiece.blocks.map
          (fun block => { x := block.localPos.x + 5, y := block.localPos.y + 1 }) ∧
      (g.spawnPiece r1 r2).nextPiece ∈ templates ∧
      (g.spawnPiece r1 r2).nextPiece.transform = matIdentity ∧
      (g.board.canPlace (g.spawnPiece r1 r2).currentPiece = false →
        (g.spawnPiece r1 r2).board = { g.board with gameOver := true }) ∧
      (g.board.canPlace (g.spawnPiece r1 r2).currentPiece = true →
        (g.spawnPiece r1 r2).board = g.board) := by
  have hcur := spawnPiece_currentPiece_of_ne_nil g r1 r2 h
  refine ⟨?_, ?_, ?_, ?_, ?_, ?_, ?_, spawnPiece_board_of_illegal g r1 r2,
    spawnPiece_board_of_legal g r1 r2⟩
  · rw [hcur]
    rfl
  · rw [hcur]
    rfl
  · rw [hcur, spawnPlacement_transform]
    norm_num [BOARD_W]
  · rw [hcur, spawnPlacement_transform]
  · rw [hcur, spawnPlacement_worldPositions]
  · rw [spawnPiece_nextPiece]
    exact createRandomPiece_mem r2
  · rw [spawnPiece_nextPiece]
    exact transform_of_mem_templates (createRandomPiece_mem r2)

/-- The sample game: the O-piece is next. -/
theorem spawnPiece_spec_witness :
    (sampleGame false).nextPiece.blocks ≠ [] ∧
      (((sampleGame false).spawnPiece 0 1).currentPiece.blocks = (sampleGame false).nextPiece.blocks ∧
      ((sampleGame false).spawnPiece 0 1).currentPiece.colorIndex =
        (sampleGame false).nextPiece.colorIndex ∧
      ((sampleGame false).spawnPiece 0 1).currentPiece.transform =
        matTranslate ((BOARD_W : ℚ) / 2) 1 ∧
      ((sampleGame false).spawnPiece 0 1).currentPiece.transform = matTranslate 5 1 ∧
      ((sampleGame false).spawnPiece 0 1).currentPiece.getWorldPositions =
        (sampleGame false).nextPiece.blocks.map
          (fun block => { x := block.localPos.x + 5, y := block.localPos.y + 1 }) ∧
      ((sampleGame false).spawnPiece 0 1).nextPiece ∈ templates ∧
      ((sampleGame false).spawnPiece 0 1).nextPiece.transform = matIdentity ∧
      ((sampleGame false).board.canPlace ((sampleGame false).spawnPiece 0 1).currentPiece = false →
        ((sampleGame false).spawnPiece 0 1).board =
          { (sampleGame false).board with gameOver := true }) ∧
      ((sampleGame false).board.canPlace ((sampleGame false).spawnPiece 0 1).currentPiece = true →
        ((sampleGame false).spawnPiece 0 1).board = (sampleGame false).board)) :=
  ⟨by simp [sampleGame, mkTemplate], spawnPiece_spec (sampleGame false) 0 1
    (by simp [sampleGame, mkTemplate])⟩

/-! ## The catalog fits at the spawn position -/

theorem template_block_bounds {p : Piece} (hp : p ∈ templates) {block : Block}
    (hb : block ∈ p.blocks) :
    -2 ≤ block.localPos.x ∧ block.localPos.x ≤ 1 ∧ 0 ≤ block.localPos.y ∧
      block.localPos.y ≤ 1 := by
  simp only [templates, List.mem_cons, List.mem_singleton, List.not_mem_nil, or_false] at hp
  rcases hp with rfl | rfl | rfl | rfl | rfl | rfl | rfl <;>
    simp only [mkTemplate, List.mem_cons, List.mem_singleton, List.not_mem_nil, or_false] at hb <;>
    rcases hb with rfl | rfl | rfl | rfl <;> norm_num

theorem spawnPlacement_bounds {p : Piece} (hp : p ∈ templates) :
    ∀ pos ∈ (spawnPlacement p).getWorldPositions,
      3 ≤ pos.x ∧ pos.x ≤ 6 ∧ 1 ≤ pos.y ∧ pos.y ≤ 2 := by
  intro pos hpos
  rw [spawnPlacement_worldPositions, List.mem_map] at hpos
  obtain ⟨block, hb, rfl⟩ := hpos
  obtain ⟨h1, h2, h3, h4⟩ := template_block_bounds hp hb
  refine ⟨?_, ?_, ?_, ?_⟩
  · show (3 : ℚ) ≤ block.localPos.x + 5
    linarith
  · show block.localPos.x + 5 ≤ 6
    linarith
  · show (1 : ℚ) ≤ block.localPos.y + 1
    linarith
  · show block.localPos.y + 1 ≤ 2
    linarith

theorem overlaps_eq_false_of_rows_apart {v w : Vec2} (h : v.y + 1 ≤ w.y) :
    overlaps v w = false := by
  unfold overlaps
  rw [decide_eq_false_iff_not, not_lt]
  unfold Vec2.distSq COLLISION_EPSILON
  have hx := mul_self_nonneg (v.x - w.x)
  have hy : 1 ≤ (v.y - w.y) * (v.y - w.y) := by nlinarith
  show 2 / 5 * (2 / 5) ≤ (v.x - w.x) * (v.x - w.x) + (v.y - w.y) * (v.y - w.y)
  linarith

/-- A catalog piece at the spawn position is legal on every board whose locked
blocks all lie at height `3` or below it. -/
theorem canPlace_spawnPlacement (b : GameBoard) {p : Piece} (hp : p ∈ templates)
    (hb : ∀ l ∈ b.lockedBlocks, 3 ≤ l.position.y) : b.canPlace (spawnPlacement p) = true := by
  rw [canPlace_iff_overlaps]
  intro pos hpos
  obtain ⟨h1, h2, h3, h4⟩ := spawnPlacement_bounds hp pos hpos
  refine ⟨by linarith, by linarith, by linarith, ?_⟩
  intro _ l hl
  apply overlaps_eq_false_of_rows_apart
  have := hb l hl
  linarith

theorem spawnPiece_board_of_template (g : Game) (r1 r2 : ℕ) (hn : g.nextPiece ∈ templates)
    (hb : ∀ l ∈ g.board.lockedBlocks, 3 ≤ l.position.y) :
    (g.spawnPiece r1 r2).board = g.board ∧
      (g.spawnPiece r1 r2).currentPiece = spawnPlacement g.nextPiece := by
  have hne : g.nextPiece.blocks ≠ [] := by
    simp only [templates, List.mem_cons, List.mem_singleton, List.not_mem_nil, or_false] at hn
    rcases hn with h | h | h | h | h | h | h <;> rw [h] <;> simp [mkTemplate]
  have hcur := spawnPiece_currentPiece_of_ne_nil g r1 r2 hne
  refine ⟨?_, hcur⟩
  apply spawnPiece_board_of_legal
  rw [hcur]
  exact canPlace_spawnPlacement g.board hn hb

theorem new_eq (r0 r1 r2 : ℕ) :
    Game.new r0 r1 r2 =
      { board := GameBoard.new, currentPiece := spawnPlacement (createRandomPiece r0),
        nextPiece := createRandomPiece r2 } := by
  unfold Game.new
  simp only
  obtain ⟨h1, h2⟩ := spawnPiece_board_of_template
    { board := GameBoard.new,
      currentPiece := { blocks := [], colorIndex := 0, transform := matIdentity },
      nextPiece := createRandomPiece r0 } r1 r2 (createRandomPiece_mem r0)
    (fun l hl => absurd hl (List.not_mem_nil l))
  have h3 := spawnPiece_nextPiece
    { board := GameBoard.new,
      currentPiece := { blocks := [], colorIndex := 0, transform := matIdentity },
      nextPiece := createRandomPiece r0 } r1 r2
  cases hg : Game.spawnPiece
    { board := GameBoard.new,
      currentPiece := { blocks := [], colorIndex := 0, transform := matIdentity },
      nextPiece := createRandomPiece r0 } r1 r2 with
  | mk board cur next =>
    rw [hg] at h1 h2 h3
    simp only at h1 h2 h3
    rw [h1, h2, h3]

/-- C17. From every game state, `handleKeyR` leaves a board with no locked
blocks, score `0`, total lines `0`, the old high score and the game-over flag
clear, whatever pieces are drawn; the current piece is the drawn catalog piece
at the spawn position (translation by `(5, 1)`); and each catalog piece at the
spawn position passes `canPlace` on the empty board. -/
theorem handleKeyR_spec (g : Game) (r0 r1 r2 : ℕ) :
    (g.handleKeyR r0 r1 r2).board.lockedBlocks = [] ∧
      (g.handleKeyR r0 r1 r2).board.score = 0 ∧
      (g.handleKeyR r0 r1 r2).board.linesClearedTotal = 0 ∧
      (g.handleKeyR r0 r1 r2).board.highScore = g.board.highScore ∧
      (g.handleKeyR r0 r1 r2).board.gameOver = false ∧
      (g.handleKeyR r0 r1 r2).currentPiece = spawnPlacement (createRandomPiece r0) ∧
      (g.handleKeyR r0 r1 r2).currentPiece.transform = matTranslate 5 1 ∧
      (g.handleKeyR r0 r1 r2).currentPiece.getWorldPositions =
        (createRandomPiece r0).blocks.map
          (fun block => { x := block.localPos.x + 5, y := block.localPos.y + 1 }) ∧
      (∀ p ∈ templates, GameBoard.new.canPlace (spawnPlacement p) = true) := by
  obtain ⟨h1, h2⟩ := spawnPiece_board_of_template
    { g with board := g.board.reset, nextPiece := createRandomPiece r0 } r1 r2
    (createRandomPiece_mem r0) (fun l hl => absurd hl (List.not_mem_nil l))
  have hb : (g.handleKeyR r0 r1 r2).board = g.board.reset := h1
  have hc : (g.handleKeyR r0 r1 r2).currentPiece = spawnPlacement (createRandomPiece r0) := h2
  refine ⟨?_, ?_, ?_, ?_, ?_, hc, ?_, ?_, ?_⟩
  · rw [hb]; rfl
  · rw [hb]; rfl
  · rw [hb]; rfl
  · rw [hb]; rfl
  · rw [hb]; rfl
  · rw [hc, spawnPlacement_transform]
  · rw [hc, spawnPlacement_worldPositions]
  · intro p hp
    exact canPlace_spawnPlacement GameBoard.new hp (fun l hl => absurd hl (List.not_mem_nil l))

/-! ## Legality of the active piece -/

/-- C19. In every state reachable from a new game, when the game-over flag is
clear the current piece passes `canPlace` on the current board. -/
theorem legality_invariant (g : Game) (h : Reachable g) (hrun : g.board.gameOver = false) :
    g.board.canPlace g.currentPiece = true :=
  (reachable_inv g h).2.2.2 hrun

/-- A new game, after one move to the left. -/
theorem legality_invariant_witness :
    (Reachable (Game.new 0 1 2).handleKeyLeft ∧
      (Game.new 0 1 2).handleKeyLeft.board.gameOver = false) ∧
      (Game.new 0 1 2).handleKeyLeft.board.canPlace (Game.new 0 1 2).handleKeyLeft.currentPiece =
        true := by
  have hr : Reachable (Game.new 0 1 2).handleKeyLeft :=
    Reachable.step _ _ 0 Command.moveLeft (Reachable.init 0 1 2) rfl
  have hover : (Game.new 0 1 2).handleKeyLeft.board.gameOver = false := by
    show ((Game.new 0 1 2).tryMove (-1) 0).2.board.gameOver = false
    rw [tryMove_board, new_eq]
    rfl
  exact ⟨⟨hr, hover⟩, legality_invariant _ hr hover⟩

/-! ## The I-piece falls to the floor -/

theorem createRandomPiece_zero :
    createRandomPiece 0 = mkTemplate CYAN (-2, 0) (-1, 0) (0, 0) (1, 0) :=
  rfl

theorem spawnPlacement_I : spawnPlacement (createRandomPiece 0) = pieceIAt 1 := by
  rw [createRandomPiece_zero]
  show ({ mkTemplate CYAN (-2, 0) (-1, 0) (0, 0) (1, 0) with
    transform := matMul matIdentity (matTranslate ((BOARD_W : ℚ) / 2) 1) } : Piece) = pieceIAt 1
  rw [matMul_identity_translate]
  norm_num [pieceIAt, BOARD_W]

theorem pieceIAt_translate (y : ℚ) : (pieceIAt y).translate 0 1 = pieceIAt (y + 1) := by
  simp [pieceIAt, Piece.translate, matMul, matTranslate, matIdentity]

theorem pieceIAt_worldPositions (y : ℚ) :
    (pieceIAt y).getWorldPositions =
      [{ x := 3, y := y }, { x := 4, y := y }, { x := 5, y := y }, { x := 6, y := y }] := by
  simp only [pieceIAt, mkTemplate, Piece.getWorldPositions, Block.getWorldPos,
    applyMat3_translate, List.map_cons, List.map_nil]
  norm_num

theorem canPlace_pieceIAt (y : ℚ) : GameBoard.new.canPlace (pieceIAt y) = decide (y < 20) := by
  by_cases h : y < 20
  · rw [decide_eq_true h, canPlace_iff_overlaps, pieceIAt_worldPositions]
    intro pos hpos
    simp only [List.mem_cons, List.mem_singleton, List.not_mem_nil, or_false] at hpos
    have hl : ∀ l ∈ GameBoard.new.lockedBlocks, overlaps pos l.position = false :=
      fun l hl => absurd hl (List.not_mem_nil l)
    rcases hpos with rfl | rfl | rfl | rfl
    · exact ⟨by norm_num, by norm_num, h, fun _ => hl⟩
    · exact ⟨by norm_num, by norm_num, h, fun _ => hl⟩
    · exact ⟨by norm_num, by norm_num, h, fun _ => hl⟩
    · exact ⟨by norm_num, by norm_num, h, fun _ => hl⟩
  · rw [decide_eq_false h]
    rw [← Bool.not_eq_true, canPlace_iff_overlaps, pieceIAt_worldPositions]
    intro hall
    exact h (hall { x := 3, y := y } (List.mem_cons_self _ _)).2.2.1

theorem fallingI_softDrop (y : ℚ) (next : Piece) (s1 s2 : ℕ) (h : y + 1 < 20) :
    (fallingI y next).softDrop s1 s2 = fallingI (y + 1) next := by
  have hcan : (fallingI y next).board.canPlace ((fallingI y next).currentPiece.translate 0 1) =
      true := by
    show GameBoard.new.canPlace ((pieceIAt y).translate 0 1) = true
    rw [pieceIAt_translate, canPlace_pieceIAt, decide_eq_true h]
  rw [softDrop_of_legal _ s1 s2 rfl hcan]
  show Game.mk GameBoard.new ((pieceIAt y).translate 0 1) next = fallingI (y + 1) next
  rw [pieceIAt_translate]
  rfl

theorem softDrops_fallingI (next : Piece) (draws : List (ℕ × ℕ)) :
    ∀ y : ℚ, y + (draws.length : ℚ) < 20 →
      softDrops draws (fallingI y next) = fallingI (y + (draws.length : ℚ)) next := by
  induction draws with
  | nil =>
    intro y _
    simp [softDrops]
  | cons d rest ih =>
    intro y hy
    have hlen : ((d :: rest).length : ℚ) = (rest.length : ℚ) + 1 := by
      simp
    rw [hlen] at hy
    have hnonneg : (0 : ℚ) ≤ (rest.length : ℚ) := Nat.cast_nonneg _
    show softDrops rest ((fallingI y next).softDrop d.1 d.2) = _
    rw [fallingI_softDrop y next d.1 d.2 (by linarith), ih (y + 1) (by linarith), hlen]
    congr 1
    ring

/-- The four cells of the I-piece on the floor. -/
theorem lockPiece_pieceIAt_floor :
    (GameBoard.new.lockPiece (pieceIAt 19)).lockedBlocks =
      [lockedAt 3 19 CYAN, lockedAt 4 19 CYAN, lockedAt 5 19 CYAN, lockedAt 6 19 CYAN] := by
  rw [lockPiece_lockedBlocks, pieceIAt_worldPositions]
  have h3 : lockable { x := 3, y := 19 } = true := by norm_num [lockable, BOARD_W, BOARD_H]
  have h4 : lockable { x := 4, y := 19 } = true := by norm_num [lockable, BOARD_W, BOARD_H]
  have h5 : lockable { x := 5, y := 19 } = true := by norm_num [lockable, BOARD_W, BOARD_H]
  have h6 : lockable { x := 6, y := 19 } = true := by norm_num [lockable, BOARD_W, BOARD_H]
  simp only [List.filter_cons, h3, h4, h5, h6, if_true, List.filter_nil, List.map_cons,
    List.map_nil]
  rfl

theorem clearLines_of_short (b : GameBoard) (h : b.lockedBlocks.length < 10) :
    b.clearLines = (0, b) := by
  apply clearLines_of_nil
  rw [fullLinesOf_eq_nil_iff]
  rintro r ⟨_, hcount⟩
  have hle := countP_le_length_cast b.lockedBlocks r
  simp only [BOARD_W] at hcount
  omega

theorem fallingI_floor_softDrop (next : Piece) (hn : next ∈ templates) (s1 s2 : ℕ) :
    (fallingI 19 next).softDrop s1 s2 =
      { board := GameBoard.new.lockPiece (pieceIAt 19),
        currentPiece := spawnPlacement next,
        nextPiece := createRandomPiece s2 } := by
  have hcan : (fallingI 19 next).board.canPlace ((fallingI 19 next).currentPiece.translate 0 1) =
      false := by
    show GameBoard.new.canPlace ((pieceIAt 19).translate 0 1) = false
    rw [pieceIAt_translate, canPlace_pieceIAt]
    norm_num
  rw [softDrop_of_blocked _ s1 s2 rfl hcan]
  have hshort : (GameBoard.new.lockPiece (pieceIAt 19)).lockedBlocks.length < 10 := by
    rw [lockPiece_pieceIAt_floor]
    decide
  have hclear := clearLines_of_short _ hshort
  show (Game.mk (GameBoard.new.lockPiece (pieceIAt 19)).clearLines.2 (pieceIAt 19)
    next).spawnPiece s1 s2 = _
  rw [hclear]
  have hb : ∀ l ∈ (GameBoard.new.lockPiece (pieceIAt 19)).lockedBlocks, 3 ≤ l.position.y := by
    rw [lockPiece_pieceIAt_floor]
    intro l hl
    simp only [List.mem_cons, List.mem_singleton, List.not_mem_nil, or_false] at hl
    rcases hl with rfl | rfl | rfl | rfl <;> norm_num [lockedAt]
  obtain ⟨h1, h2⟩ := spawnPiece_board_of_template
    { board := GameBoard.new.lockPiece (pieceIAt 19), currentPiece := pieceIAt 19,
      nextPiece := next } s1 s2 hn hb
  have h3 := spawnPiece_nextPiece
    { board := GameBoard.new.lockPiece (pieceIAt 19), currentPiece := pieceIAt 19,
      nextPiece := next } s1 s2
  cases hg : Game.spawnPiece
    { board := GameBoard.new.lockPiece (pieceIAt 19), currentPiece := pieceIAt 19,
      nextPiece := next } s1 s2 with
  | mk board cur nxt =>
    rw [hg] at h1 h2 h3
    simp only at h1 h2 h3
    rw [h1, h2, h3]

theorem new_zero_eq (r1 r2 : ℕ) : Game.new 0 r1 r2 = fallingI 1 (createRandomPiece r2) := by
  rw [new_eq, spawnPlacement_I]
  rfl

theorem softDrops_append_one (draws : List (ℕ × ℕ)) (d : ℕ × ℕ) (g : Game) :
    softDrops (draws ++ [d]) g = (softDrops draws g).softDrop d.1 d.2 := by
  simp [softDrops, List.foldl_append]

/-- C15. A new game whose first piece is the I-piece starts on the empty board
with the piece on cells `(3,1)`, `(4,1)`, `(5,1)`, `(6,1)`. After `k <= 18`
`softDrop` calls, whatever the draws, the board is still empty and the piece
is `k` rows lower. The nineteenth call locks the piece: the board then holds
exactly the four cells `(3,19)`, `(4,19)`, `(5,19)`, `(6,19)` in the I colour,
`clearLines` has cleared nothing (it returns `0`; score and total lines stay
`0`), the game-over flag is clear, and the current piece is the former next
piece at the spawn position. -/
theorem floor_lock_end_to_end (r1 r2 : ℕ) :
    ((Game.new 0 r1 r2).board = GameBoard.new ∧
      (Game.new 0 r1 r2).currentPiece.colorIndex = CYAN ∧
      (Game.new 0 r1 r2).currentPiece.getWorldPositions =
        [{ x := 3, y := 1 }, { x := 4, y := 1 }, { x := 5, y := 1 }, { x := 6, y := 1 }]) ∧
    (∀ draws : List (ℕ × ℕ), draws.length ≤ 18 →
      (softDrops draws (Game.new 0 r1 r2)).board = GameBoard.new ∧
        (softDrops draws (Game.new 0 r1 r2)).nextPiece = (Game.new 0 r1 r2).nextPiece ∧
        (softDrops draws (Game.new 0 r1 r2)).currentPiece.getWorldPositions =
          [{ x := 3, y := 1 + (draws.length : ℚ) }, { x := 4, y := 1 + (draws.length : ℚ) },
            { x := 5, y := 1 + (draws.length : ℚ) }, { x := 6, y := 1 + (draws.length : ℚ) }]) ∧
    (∀ draws : List (ℕ × ℕ), draws.length = 18 →
      ((softDrops draws (Game.new 0 r1 r2)).board.lockPiece
        (softDrops draws (Game.new 0 r1 r2)).currentPiece).clearLines.1 = 0) ∧
    (∀ draws : List (ℕ × ℕ), draws.length = 19 →
      (softDrops draws (Game.new 0 r1 r2)).board.lockedBlocks =
          [lockedAt 3 19 CYAN, lockedAt 4 19 CYAN, lockedAt 5 19 CYAN, lockedAt 6 19 CYAN] ∧
        (softDrops draws (Game.new 0 r1 r2)).board.score = 0 ∧
        (softDrops draws (Game.new 0 r1 r2)).board.linesClearedTotal = 0 ∧
        (softDrops draws (Game.new 0 r1 r2)).board.gameOver = false ∧
        (softDrops draws (Game.new 0 r1 r2)).currentPiece =
          spawnPlacement (Game.new 0 r1 r2).nextPiece ∧
        (softDrops draws (Game.new 0 r1 r2)).currentPiece.transform = matTranslate 5 1) := by
  have hstart := new_zero_eq r1 r2
  have hfall : ∀ draws : List (ℕ × ℕ), draws.length ≤ 18 →
      softDrops draws (Game.new 0 r1 r2) =
        fallingI (1 + (draws.length : ℚ)) (createRandomPiece r2) := by
    intro draws hlen
    rw [hstart]
    have hq : ((draws.length : ℕ) : ℚ) ≤ 18 := by exact_mod_cast hlen
    exact softDrops_fallingI _ draws 1 (by linarith)
  refine ⟨?_, ?_, ?_, ?_⟩
  · rw [hstart]
    exact ⟨rfl, rfl, pieceIAt_worldPositions 1⟩
  · intro draws hlen
    rw [hfall draws hlen, hstart]
    exact ⟨rfl, rfl, pieceIAt_worldPositions _⟩
  · intro draws hlen
    rw [hfall draws (by omega), hlen]
    have h19 : (1 : ℚ) + ((18 : ℕ) : ℚ) = 19 := by norm_num
    rw [h19]
    show (GameBoard.new.lockPiece (pieceIAt 19)).clearLines.1 = 0
    rw [clearLines_of_short]
    rw [lockPiece_pieceIAt_floor]
    decide
  · intro draws hlen
    obtain ⟨front, d, rfl⟩ : ∃ front d, draws = front ++ [d] := by
      have hne : draws ≠ [] := by
        intro h
        rw [h] at hlen
        cases hlen
      exact ⟨draws.dropLast, draws.getLast hne, (List.dropLast_append_getLast hne).symm⟩
    have hfront : front.length = 18 := by
      simp only [List.length_append, List.length_singleton] at hlen
      omega
    rw [softDrops_append_one, hfall front (by omega), hfront]
    have h19 : (1 : ℚ) + ((18 : ℕ) : ℚ) = 19 := by norm_num
    rw [h19, fallingI_floor_softDrop _ (createRandomPiece_mem r2), hstart]
    refine ⟨lockPiece_pieceIAt_floor, rfl, rfl, rfl, rfl, ?_⟩
    exact spawnPlacement_transform _

/-! ## Score and high score -/

/-- How one command may change the two scores: neither decreases, and the new
high score is the larger of the old high score and the new score once the old
score did not exceed the old high score. -/
theorem scoreStep_refl (b : GameBoard) :
    b.score ≤ b.score ∧ b.highScore ≤ b.highScore ∧
      (b.score ≤ b.highScore → b.highScore = max b.highScore b.score) :=
  ⟨le_refl _, le_refl _, fun h => (max_eq_left h).symm⟩

theorem pointsFor_pos (n : ℤ) : 0 < pointsFor n := by
  unfold pointsFor
  split_ifs <;> norm_num

theorem clearLines_scoreStep (b : GameBoard) :
    b.score ≤ b.clearLines.2.score ∧ b.highScore ≤ b.clearLines.2.highScore ∧
      (b.score ≤ b.highScore →
        b.clearLines.2.highScore = max b.highScore b.clearLines.2.score) := by
  by_cases hnil : fullLinesOf b.lockedBlocks = []
  · rw [clearLines_of_nil b hnil]
    exact scoreStep_refl b
  · rw [clearLines_of_ne_nil b hnil]
    have hp := pointsFor_pos ((fullLinesOf b.lockedBlocks).length : ℤ)
    refine ⟨?_, ?_, ?_⟩
    · show b.score ≤ b.score + pointsFor _
      linarith
    · show b.highScore ≤ (if _ > b.highScore then _ else b.highScore)
      split_ifs with hgt
      · exact le_of_lt hgt
      · exact le_refl _
    · intro _
      show (if _ > b.highScore then _ else b.highScore) = max b.highScore _
      split_ifs with hgt
      · exact (max_eq_right (le_of_lt hgt)).symm
      · exact (max_eq_left (not_lt.mp hgt)).symm

theorem spawnPiece_scores (g : Game) (r1 r2 : ℕ) :
    (g.spawnPiece r1 r2).board.score = g.board.score ∧
      (g.spawnPiece r1 r2).board.highScore = g.board.highScore := by
  cases hcan : g.board.canPlace (g.spawnPiece r1 r2).currentPiece with
  | true =>
    rw [spawnPiece_board_of_legal g r1 r2 hcan]
    exact ⟨rfl, rfl⟩
  | false =>
    rw [spawnPiece_board_of_illegal g r1 r2 hcan]
    exact ⟨rfl, rfl⟩

theorem lockAndSpawn_scoreStep (g : Game) (r1 r2 : ℕ) :
    g.board.score ≤ (g.lockAndSpawn r1 r2).board.score ∧
      g.board.highScore ≤ (g.lockAndSpawn r1 r2).board.highScore ∧
      (g.board.score ≤ g.board.highScore →
        (g.lockAndSpawn r1 r2).board.highScore =
          max g.board.highScore (g.lockAndSpawn r1 r2).board.score) := by
  unfold Game.lockAndSpawn
  simp only
  obtain ⟨hs, hh⟩ := spawnPiece_scores
    { g with board := (g.board.lockPiece g.currentPiece).clearLines.2 } r1 r2
  rw [hs, hh]
  exact clearLines_scoreStep (g.board.lockPiece g.currentPiece)

theorem softDrop_scoreStep (g : Game) (r1 r2 : ℕ) :
    g.board.score ≤ (g.softDrop r1 r2).board.score ∧
      g.board.highScore ≤ (g.softDrop r1 r2).board.highScore ∧
      (g.board.score ≤ g.board.highScore →
        (g.softDrop r1 r2).board.highScore =
          max g.board.highScore (g.softDrop r1 r2).board.score) := by
  cases hover : g.board.gameOver with
  | true =>
    rw [softDrop_of_gameOver g r1 r2 hover]
    exact scoreStep_refl g.board
  | false =>
    cases hcan : g.board.canPlace (g.currentPiece.translate 0 1) with
    | true =>
      rw [softDrop_of_legal g r1 r2 hover hcan]
      exact scoreStep_refl g.board
    | false =>
      rw [softDrop_of_blocked g r1 r2 hover hcan]
      exact lockAndSpawn_scoreStep g r1 r2

theorem run_scoreStep (g g2 : Game) (fuel : ℕ) (c : Command) (hc : c.isReset = false)
    (hrun : g.run fuel c = some g2) :
    g.board.score ≤ g2.board.score ∧ g.board.highScore ≤ g2.board.highScore ∧
      (g.board.score ≤ g.board.highScore →
        g2.board.highScore = max g.board.highScore g2.board.score) := by
  cases c with
  | moveLeft =>
    simp only [Game.run, Option.some.injEq] at hrun
    rw [← hrun]
    show _ ≤ (g.tryMove (-1) 0).2.board.score ∧ _ ≤ (g.tryMove (-1) 0).2.board.highScore ∧
      (_ → (g.tryMove (-1) 0).2.board.highScore = max _ (g.tryMove (-1) 0).2.board.score)
    rw [tryMove_board]
    exact scoreStep_refl g.board
  | moveRight =>
    simp only [Game.run, Option.some.injEq] at hrun
    rw [← hrun]
    show _ ≤ (g.tryMove 1 0).2.board.score ∧ _ ≤ (g.tryMove 1 0).2.board.highScore ∧
      (_ → (g.tryMove 1 0).2.board.highScore = max _ (g.tryMove 1 0).2.board.score)
    rw [tryMove_board]
    exact scoreStep_refl g.board
  | rotate =>
    simp only [Game.run, Option.some.injEq] at hrun
    rw [← hrun]
    show _ ≤ g.tryRotate.2.board.score ∧ _ ≤ g.tryRotate.2.board.highScore ∧
      (_ → g.tryRotate.2.board.highScore = max _ g.tryRotate.2.board.score)
    rw [tryRotate_board]
    exact scoreStep_refl g.board
  | softDrop r1 r2 =>
    simp only [Game.run, Option.some.injEq] at hrun
    rw [← hrun]
    exact softDrop_scoreStep g r1 r2
  | tick r1 r2 =>
    simp only [Game.run, Option.some.injEq] at hrun
    rw [← hrun]
    exact softDrop_scoreStep g r1 r2
  | hardDrop r1 r2 =>
    simp only [Game.run] at hrun
    cases hover : g.board.gameOver with
    | true =>
      rw [hardDrop_of_gameOver g fuel r1 r2 hover, Option.some.injEq] at hrun
      rw [← hrun]
      exact scoreStep_refl g.board
    | false =>
      rw [hardDrop_of_running g fuel r1 r2 hover, Option.map_eq_some'] at hrun
      obtain ⟨landed, _, rfl⟩ := hrun
      exact lockAndSpawn_scoreStep { g with currentPiece := landed } r1 r2
  | reset r0 r1 r2 => cases hc

theorem handleKeyR_scores (g : Game) (r0 r1 r2 : ℕ) :
    (g.handleKeyR r0 r1 r2).board.score = 0 ∧
      (g.handleKeyR r0 r1 r2).board.highScore = g.board.highScore := by
  unfold Game.handleKeyR
  obtain ⟨hs, hh⟩ := spawnPiece_scores
    { g with board := g.board.reset, nextPiece := createRandomPiece r0 } r1 r2
  rw [hs, hh]
  exact ⟨rfl, rfl⟩

theorem session_inv (g : Game) (best : ℤ) (h : Session g best) :
    g.board.highScore = best ∧ 0 ≤ g.board.score ∧ g.board.score ≤ g.board.highScore := by
  induction h with
  | init r0 r1 r2 =>
    rw [new_eq]
    exact ⟨rfl, le_refl _, le_refl _⟩
  | step g g2 best fuel c _ hrun ih =>
    obtain ⟨hbest, hpos, hle⟩ := ih
    cases hreset : c.isReset with
    | false =>
      obtain ⟨h1, _, h3⟩ := run_scoreStep g g2 fuel c hreset hrun
      have hhigh := h3 hle
      refine ⟨?_, le_trans hpos h1, ?_⟩
      · rw [hhigh, hbest]
      · rw [hhigh]
        exact le_max_right _ _
    | true =>
      cases c with
      | reset r0 r1 r2 =>
        simp only [Game.run, Option.some.injEq] at hrun
        rw [← hrun]
        obtain ⟨hs, hh⟩ := handleKeyR_scores g r0 r1 r2
        rw [hs, hh]
        have h0 : (0 : ℤ) ≤ best := by
          rw [← hbest]
          exact le_trans hpos hle
        exact ⟨by rw [hbest, max_eq_left h0], le_refl _, le_trans hpos hle⟩
      | moveLeft => cases hreset
      | moveRight => cases hreset
      | rotate => cases hreset
      | softDrop r1 r2 => cases hreset
      | tick r1 r2 => cases hreset
      | hardDrop r1 r2 => cases hreset

theorem session_of_reachable (g : Game) (h : Reachable g) : ∃ best, Session g best := by
  induction h with
  | init r0 r1 r2 => exact ⟨_, Session.init r0 r1 r2⟩
  | step g g2 fuel c _ hrun ih =>
    obtain ⟨best, hs⟩ := ih
    exact ⟨_, Session.step g g2 best fuel c hs hrun⟩

/-- C18. Every command other than the restart key leaves the score and the
high score at least as large as before; the restart key does not lower the
high score; in every state reachable from a new game the score is between `0`
and the high score; and the high score of a reachable state is the largest
score seen since the program started. -/
theorem score_monotone (g : Game) :
    (∀ (c : Command) (fuel : ℕ) (g2 : Game), c.isReset = false → g.run fuel c = some g2 →
        g.board.score ≤ g2.board.score ∧ g.board.highScore ≤ g2.board.highScore) ∧
      (∀ r0 r1 r2, g.board.highScore ≤ (g.handleKeyR r0 r1 r2).board.highScore) ∧
      (Reachable g → 0 ≤ g.board.score ∧ g.board.score ≤ g.board.highScore) ∧
      (Reachable g → ∃ best, Session g best) ∧
      (∀ best, Session g best → g.board.highScore = best) := by
  refine ⟨?_, ?_, ?_, session_of_reachable g, ?_⟩
  · intro c fuel g2 hc hrun
    obtain ⟨h1, h2, _⟩ := run_scoreStep g g2 fuel c hc hrun
    exact ⟨h1, h2⟩
  · intro r0 r1 r2
    rw [(handleKeyR_scores g r0 r1 r2).2]
  · intro hr
    obtain ⟨best, hs⟩ := session_of_reachable g hr
    exact (session_inv g best hs).2
  · intro best hs
    exact (session_inv g best hs).1

/-! ## Rotation about the local origin -/

theorem isAffine_identity : IsAffine matIdentity := ⟨rfl, rfl, rfl⟩

theorem isAffine_translate (tx ty : ℚ) : IsAffine (matTranslate tx ty) := ⟨rfl, rfl, rfl⟩

theorem isAffine_rotate (c s : ℚ) : IsAffine (matRotate c s) := ⟨rfl, rfl, rfl⟩

theorem isAffine_matMul {a b : Mat3} (ha : IsAffine a) (hb : IsAffine b) :
    IsAffine (matMul a b) := by
  obtain ⟨a02, a12, a22⟩ := ha
  obtain ⟨b02, b12, b22⟩ := hb
  refine ⟨?_, ?_, ?_⟩ <;> simp [matMul, a02, a12, a22, b02, b12, b22]

theorem applyMat3_matMul {a : Mat3} (ha : IsAffine a) (b : Mat3) (v : Vec2) :
    applyMat3 (matMul a b) v = applyMat3 b (applyMat3 a v) := by
  obtain ⟨a02, a12, a22⟩ := ha
  simp only [applyMat3, matMul, a02, a12, a22, Vec2.mk.injEq]
  constructor <;> ring

theorem applyMat3_rotate (c s : ℚ) (v : Vec2) :
    applyMat3 (matRotate c s) v = { x := v.x * c + v.y * s, y := v.x * (-s) + v.y * c } := by
  simp [applyMat3, matRotate, matIdentity]

theorem rotate_transform (p : Piece) (c s : ℚ) :
    (p.rotate c s).transform =
      matMul p.transform
        (matMul
          (matMul
            (matTranslate (-(applyMat3 p.transform { x := 0, y := 0 }).x)
              (-(applyMat3 p.transform { x := 0, y := 0 }).y))
            (matRotate c s))
          (matTranslate (applyMat3 p.transform { x := 0, y := 0 }).x
            (applyMat3 p.transform { x := 0, y := 0 }).y)) :=
  rfl

theorem rotate_apply (p : Piece) (c s : ℚ) (h : IsAffine p.transform) (v : Vec2) :
    applyMat3 (p.rotate c s).transform v =
      { x := (applyMat3 p.transform { x := 0, y := 0 }).x +
          (applyMat3 (matRotate c s)
            { x := (applyMat3 p.transform v).x - (applyMat3 p.transform { x := 0, y := 0 }).x,
              y := (applyMat3 p.transform v).y -
                (applyMat3 p.transform { x := 0, y := 0 }).y }).x,
        y := (applyMat3 p.transform { x := 0, y := 0 }).y +
          (applyMat3 (matRotate c s)
            { x := (applyMat3 p.transform v).x - (applyMat3 p.transform { x := 0, y := 0 }).x,
              y := (applyMat3 p.transform v).y -
                (applyMat3 p.transform { x := 0, y := 0 }).y }).y } := by
  rw [rotate_transform, applyMat3_matMul h,
    applyMat3_matMul (isAffine_matMul (isAffine_translate _ _) (isAffine_rotate c s)),
    applyMat3_matMul (isAffine_translate _ _), applyMat3_translate, applyMat3_translate,
    applyMat3_rotate, applyMat3_rotate]
  simp only [Vec2.mk.injEq]
  constructor <;> ring

/-- C20. For a piece whose transform has third column `(0, 0, 1)` and for
every angle (cosine `c`, sine `s`), `rotate` keeps the world position of the
local origin, maps each block's world position `q` to
`center + R (q - center)` with `R` the matrix of `matRotate`, and keeps the
third column, the pattern and the colour; for the quarter turn (`c = 0`,
`s = 1`) an offset `(dx, dy)` from the centre becomes `(dy, -dx)`. The identity,
translations, rotations and their products all have third column
`(0, 0, 1)`. -/
theorem rotate_spec (p : Piece) (c s : ℚ) (h : IsAffine p.transform) :
    applyMat3 (p.rotate c s).transform { x := 0, y := 0 } =
        applyMat3 p.transform { x := 0, y := 0 } ∧
      (p.rotate c s).getWorldPositions =
        p.getWorldPositions.map
          (fun q =>
            { x := (applyMat3 p.transform { x := 0, y := 0 }).x +
                (applyMat3 (matRotate c s)
                  { x := q.x - (applyMat3 p.transform { x := 0, y := 0 }).x,
                    y := q.y - (applyMat3 p.transform { x := 0, y := 0 }).y }).x,
              y := (applyMat3 p.transform { x := 0, y := 0 }).y +
                (applyMat3 (matRotate c s)
                  { x := q.x - (applyMat3 p.transform { x := 0, y := 0 }).x,
                    y := q.y - (applyMat3 p.transform { x := 0, y := 0 }).y }).y }) ∧
      (∀ dx dy : ℚ, applyMat3 (matRotate 0 1) { x := dx, y := dy } = { x := dy, y := -dx }) ∧
      p.rotate90.getWorldPositions =
        p.getWorldPositions.map
          (fun q =>
            { x := (applyMat3 p.transform { x := 0, y := 0 }).x +
                (q.y - (applyMat3 p.transform { x := 0, y := 0 }).y),
              y := (applyMat3 p.transform { x := 0, y := 0 }).y -
                (q.x - (applyMat3 p.transform { x := 0, y := 0 }).x) }) ∧
      IsAffine (p.rotate c s).transform ∧
      (p.rotate c s).blocks = p.blocks ∧ (p.rotate c s).colorIndex = p.colorIndex ∧
      (IsAffine matIdentity ∧ (∀ tx ty, IsAffine (matTranslate tx ty)) ∧
        (∀ c2 s2, IsAffine (matRotate c2 s2)) ∧
        ∀ a b, IsAffine a → IsAffine b → IsAffine (matMul a b)) := by
  have hpos : ∀ c2 s2 : ℚ, (p.rotate c2 s2).getWorldPositions =
      p.getWorldPositions.map
        (fun q =>
          { x := (applyMat3 p.transform { x := 0, y := 0 }).x +
              (applyMat3 (matRotate c2 s2)
                { x := q.x - (applyMat3 p.transform { x := 0, y := 0 }).x,
                  y := q.y - (applyMat3 p.transform { x := 0, y := 0 }).y }).x,
            y := (applyMat3 p.transform { x := 0, y := 0 }).y +
              (applyMat3 (matRotate c2 s2)
                { x := q.x - (applyMat3 p.transform { x := 0, y := 0 }).x,
                  y := q.y - (applyMat3 p.transform { x := 0, y := 0 }).y }).y }) := by
    intro c2 s2
    simp only [Piece.getWorldPositions, List.map_map]
    apply List.map_congr_left
    intro block _
    exact rotate_apply p c2 s2 h block.localPos
  refine ⟨?_, hpos c s, ?_, ?_, ?_, rfl, rfl, isAffine_identity, isAffine_translate,
    isAffine_rotate, fun a b ha hb => isAffine_matMul ha hb⟩
  · rw [rotate_apply p c s h, applyMat3_rotate]
    simp
  · intro dx dy
    rw [applyMat3_rotate]
    simp
  · show (p.rotate 0 1).getWorldPositions = _
    rw [hpos 0 1]
    apply List.map_congr_left
    intro q _
    rw [applyMat3_rotate]
    simp only [Vec2.mk.injEq]
    constructor <;> ring
  · rw [rotate_transform]
    exact isAffine_matMul h
      (isAffine_matMul (isAffine_matMul (isAffine_translate _ _) (isAffine_rotate c s))
        (isAffine_translate _ _))

theorem isAffine_spawnedI : IsAffine spawnedI.transform :=
  isAffine_matMul isAffine_identity (isAffine_translate 5 1)

/-- The I-piece at its spawn position, turned by a quarter. -/
theorem rotate_spec_witness :
    IsAffine spawnedI.transform ∧
      (applyMat3 (spawnedI.rotate 0 1).transform { x := 0, y := 0 } =
          applyMat3 spawnedI.transform { x := 0, y := 0 } ∧
        (spawnedI.rotate 0 1).getWorldPositions =
          spawnedI.getWorldPositions.map
            (fun q =>
              { x := (applyMat3 spawnedI.transform { x := 0, y := 0 }).x +
                  (applyMat3 (matRotate 0 1)
                    { x := q.x - (applyMat3 spawnedI.transform { x := 0, y := 0 }).x,
                      y := q.y - (applyMat3 spawnedI.transform { x := 0, y := 0 }).y }).x,
                y := (applyMat3 spawnedI.transform { x := 0, y := 0 }).y +
                  (applyMat3 (matRotate 0 1)
                    { x := q.x - (applyMat3 spawnedI.transform { x := 0, y := 0 }).x,
                      y := q.y - (applyMat3 spawnedI.transform { x := 0, y := 0 }).y }).y }) ∧
        (∀ dx dy : ℚ, applyMat3 (matRotate 0 1) { x := dx, y := dy } = { x := dy, y := -dx }) ∧
        spawnedI.rotate90.getWorldPositions =
          spawnedI.getWorldPositions.map
            (fun q =>
              { x := (applyMat3 spawnedI.transform { x := 0, y := 0 }).x +
                  (q.y - (applyMat3 spawnedI.transform { x := 0, y := 0 }).y),
                y := (applyMat3 spawnedI.transform { x := 0, y := 0 }).y -
                  (q.x - (applyMat3 spawnedI.transform { x := 0, y := 0 }).x) }) ∧
        IsAffine (spawnedI.rotate 0 1).transform ∧
        (spawnedI.rotate 0 1).blocks = spawnedI.blocks ∧
        (spawnedI.rotate 0 1).colorIndex = spawnedI.colorIndex ∧
        (IsAffine matIdentity ∧ (∀ tx ty, IsAffine (matTranslate tx ty)) ∧
          (∀ c2 s2, IsAffine (matRotate c2 s2)) ∧
          ∀ a b, IsAffine a → IsAffine b → IsAffine (matMul a b))) :=
  ⟨isAffine_spawnedI, rotate_spec spawnedI 0 1 isAffine_spawnedI⟩

/-! ## Matrix algebra -/

theorem matMul_identity_left (a : Mat3) : matMul matIdentity a = a := by
  cases a
  simp [matMul, matIdentity]

theorem matMul_identity_right (a : Mat3) : matMul a matIdentity = a := by
  cases a
  simp [matMul, matIdentity]

theorem matMul_assoc (a b c : Mat3) : matMul (matMul a b) c = matMul a (matMul b c) := by
  simp only [matMul, Mat3.mk.injEq]
  refine ⟨?_, ?_, ?_, ?_, ?_, ?_, ?_, ?_, ?_⟩ <;> ring

theorem matMul_translate_rotate_ne :
    matMul (matTranslate 1 0) (matRotate 0 1) ≠ matMul (matRotate 0 1) (matTranslate 1 0) := by
  intro h
  have h20 := congrArg Mat3.m20 h
  norm_num [matMul, matTranslate, matRotate, matIdentity] at h20

/-- C24. In exact arithmetic `matIdentity` is a left and right unit of
`matMul`, `matMul` is associative, and it is not commutative: the translation
by `(1, 0)` and the quarter-turn rotation give different products in the two
orders. -/
theorem matMul_laws :
    (∀ a : Mat3, matMul matIdentity a = a ∧ matMul a matIdentity = a) ∧
      (∀ a b c : Mat3, matMul (matMul a b) c = matMul a (matMul b c)) ∧
      (∃ tx ty : ℚ, matMul (matTranslate tx ty) (matRotate 0 1) ≠
        matMul (matRotate 0 1) (matTranslate tx ty)) ∧
      ¬ (∀ a b : Mat3, matMul a b = matMul b a) :=
  ⟨fun a => ⟨matMul_identity_left a, matMul_identity_right a⟩, matMul_assoc,
    ⟨1, 0, matMul_translate_rotate_ne⟩, fun h => matMul_translate_rotate_ne (h _ _)⟩

/-! ## Translation of a piece -/

/-- C21. `translate(dx, dy)` post-multiplies the transform by
`matTranslate(dx, dy)` and keeps pattern and colour; when the transform has
third column `(0, 0, 1)`, the world positions are as many as before, in the
same order, each moved by `(dx, dy)`, and the third column is kept. -/
theorem translate_spec (p : Piece) (dx dy : ℚ) (h : IsAffine p.transform) :
    (p.translate dx dy).transform = matMul p.transform (matTranslate dx dy) ∧
      (p.translate dx dy).blocks = p.blocks ∧
      (p.translate dx dy).colorIndex = p.colorIndex ∧
      (p.translate dx dy).getWorldPositions.length = p.getWorldPositions.length ∧
      (p.translate dx dy).getWorldPositions =
        p.getWorldPositions.map (fun v => { x := v.x + dx, y := v.y + dy }) ∧
      IsAffine (p.translate dx dy).transform := by
  have hpos := translate_worldPositions p dx dy h.1 h.2.1 h.2.2
  refine ⟨rfl, rfl, rfl, ?_, hpos, isAffine_matMul h (isAffine_translate dx dy)⟩
  rw [hpos, List.length_map]

/-- The I-piece at its spawn position, moved one column to the left. -/
theorem translate_spec_witness :
    IsAffine spawnedI.transform ∧
      ((spawnedI.translate (-1) 0).transform = matMul spawnedI.transform (matTranslate (-1) 0) ∧
        (spawnedI.translate (-1) 0).blocks = spawnedI.blocks ∧
        (spawnedI.translate (-1) 0).colorIndex = spawnedI.colorIndex ∧
        (spawnedI.translate (-1) 0).getWorldPositions.length =
          spawnedI.getWorldPositions.length ∧
        (spawnedI.translate (-1) 0).getWorldPositions =
          spawnedI.getWorldPositions.map (fun v => { x := v.x + -1, y := v.y + 0 }) ∧
        IsAffine (spawnedI.translate (-1) 0).transform) :=
  ⟨isAffine_spawnedI, translate_spec spawnedI (-1) 0 isAffine_spawnedI⟩

/-! ## Four quarter turns -/

theorem rotate90_transform (p : Piece) (h : IsAffine p.transform) :
    p.rotate90.transform =
      { m00 := p.transform.m01, m01 := -p.transform.m00, m02 := 0,
        m10 := p.transform.m11, m11 := -p.transform.m10, m12 := 0,
        m20 := p.transform.m20, m21 := p.transform.m21, m22 := 1 } := by
  obtain ⟨h02, h12, h22⟩ := h
  simp only [Piece.rotate90, Piece.rotate, applyMat3, matMul, matTranslate, matRotate,
    matIdentity, h02, h12, h22, Mat3.mk.injEq]
  refine ⟨?_, ?_, ?_, ?_, ?_, ?_, ?_, ?_, ?_⟩ <;> ring

theorem isAffine_rotate90 (p : Piece) (h : IsAffine p.transform) :
    IsAffine p.rotate90.transform := by
  rw [rotate90_transform p h]
  exact ⟨rfl, rfl, rfl⟩

theorem rotate90_four_transform (p : Piece) (h : IsAffine p.transform) :
    p.rotate90.rotate90.rotate90.rotate90.transform = p.transform := by
  have h1 := isAffine_rotate90 p h
  have h2 := isAffine_rotate90 _ h1
  have h3 := isAffine_rotate90 _ h2
  rw [rotate90_transform _ h3, rotate90_transform _ h2, rotate90_transform _ h1,
    rotate90_transform _ h]
  obtain ⟨h02, h12, h22⟩ := h
  cases hm : p.transform with
  | mk m00 m01 m02 m10 m11 m12 m20 m21 m22 =>
    rw [hm] at h02 h12 h22
    simp only at h02 h12 h22
    simp only [neg_neg, Mat3.mk.injEq, true_and, and_true]
    exact ⟨h02.symm, h12.symm, h22.symm⟩

theorem rotate90_blocks (p : Piece) : p.rotate90.blocks = p.blocks := rfl

theorem rotate90_colorIndex (p : Piece) : p.rotate90.colorIndex = p.colorIndex := rfl

theorem rotate90_four (p : Piece) (h : IsAffine p.transform) :
    p.rotate90.rotate90.rotate90.rotate90 = p := by
  have ht := rotate90_four_transform p h
  cases hq : p.rotate90.rotate90.rotate90.rotate90 with
  | mk blocks colorIndex transform =>
    have hb : p.rotate90.rotate90.rotate90.rotate90.blocks = p.blocks := rfl
    have hc : p.rotate90.rotate90.rotate90.rotate90.colorIndex = p.colorIndex := rfl
    rw [hq] at ht hb hc
    simp only at ht hb hc
    rw [ht, hb, hc]

theorem pieceO_worldPositions :
    pieceO.getWorldPositions =
      [{ x := 0, y := 0 }, { x := 1, y := 0 }, { x := 0, y := 1 }, { x := 1, y := 1 }] := by
  simp [pieceO, mkTemplate, Piece.getWorldPositions, Block.getWorldPos, applyMat3, matIdentity]

theorem isAffine_pieceO : IsAffine pieceO.transform := isAffine_identity

theorem pieceO_rotate90_worldPositions :
    pieceO.rotate90.getWorldPositions =
      [{ x := 0, y := 0 }, { x := 0, y := -1 }, { x := 1, y := 0 }, { x := 1, y := -1 }] := by
  simp only [Piece.getWorldPositions, Block.getWorldPos, rotate90_blocks,
    rotate90_transform _ isAffine_pieceO]
  simp [pieceO, mkTemplate, applyMat3, matIdentity]

theorem pieceO_rotate90_two_worldPositions :
    pieceO.rotate90.rotate90.getWorldPositions =
      [{ x := 0, y := 0 }, { x := -1, y := 0 }, { x := 0, y := -1 }, { x := -1, y := -1 }] := by
  simp only [Piece.getWorldPositions, Block.getWorldPos, rotate90_blocks,
    rotate90_transform _ (isAffine_rotate90 _ isAffine_pieceO),
    rotate90_transform _ isAffine_pieceO]
  simp [pieceO, mkTemplate, applyMat3, matIdentity]

theorem pieceO_rotate90_three_worldPositions :
    pieceO.rotate90.rotate90.rotate90.getWorldPositions =
      [{ x := 0, y := 0 }, { x := 0, y := 1 }, { x := -1, y := 0 }, { x := -1, y := 1 }] := by
  simp only [Piece.getWorldPositions, Block.getWorldPos, rotate90_blocks,
    rotate90_transform _ (isAffine_rotate90 _ (isAffine_rotate90 _ isAffine_pieceO)),
    rotate90_transform _ (isAffine_rotate90 _ isAffine_pieceO),
    rotate90_transform _ isAffine_pieceO]
  simp [pieceO, mkTemplate, applyMat3, matIdentity]

/-- C25. With `cos 90 = 0` and `sin 90 = 1`, four successive `rotate(90)` calls
on a piece whose transform has third column `(0, 0, 1)` give back the original
transform, hence the original piece and world positions. Fewer do not in
general: the O-piece of the catalog occupies the cell `(1, 1)`, which it does
not occupy after one, two or three quarter turns. -/
theorem rotate90_four_spec (p : Piece) (h : IsAffine p.transform) :
    p.rotate90.rotate90.rotate90.rotate90.transform = p.transform ∧
      p.rotate90.rotate90.rotate90.rotate90 = p ∧
      p.rotate90.rotate90.rotate90.rotate90.getWorldPositions = p.getWorldPositions ∧
      (createRandomPiece 1 = pieceO ∧ IsAffine pieceO.transform ∧
        ({ x := 1, y := 1 } : Vec2) ∈ pieceO.getWorldPositions ∧
        ({ x := 1, y := 1 } : Vec2) ∉ pieceO.rotate90.getWorldPositions ∧
        ({ x := 1, y := 1 } : Vec2) ∉ pieceO.rotate90.rotate90.getWorldPositions ∧
        ({ x := 1, y := 1 } : Vec2) ∉ pieceO.rotate90.rotate90.rotate90.getWorldPositions) := by
  refine ⟨rotate90_four_transform p h, rotate90_four p h, ?_, rfl, isAffine_pieceO, ?_, ?_, ?_,
    ?_⟩
  · rw [rotate90_four p h]
  · rw [pieceO_worldPositions]
    simp
  · rw [pieceO_rotate90_worldPositions]
    simp only [List.mem_cons, Vec2.mk.injEq, List.mem_singleton, List.not_mem_nil, or_false]
    norm_num
  · rw [pieceO_rotate90_two_worldPositions]
    simp only [List.mem_cons, Vec2.mk.injEq, List.mem_singleton, List.not_mem_nil, or_false]
    norm_num
  · rw [pieceO_rotate90_three_worldPositions]
    simp only [List.mem_cons, Vec2.mk.injEq, List.mem_singleton, List.not_mem_nil, or_false]
    norm_num

/-- The I-piece at its spawn position. -/
theorem rotate90_four_spec_witness :
    IsAffine spawnedI.transform ∧
      (spawnedI.rotate90.rotate90.rotate90.rotate90.transform = spawnedI.transform ∧
        spawnedI.rotate90.rotate90.rotate90.rotate90 = spawnedI ∧
        spawnedI.rotate90.rotate90.rotate90.rotate90.getWorldPositions =
          spawnedI.getWorldPositions ∧
        (createRandomPiece 1 = pieceO ∧ IsAffine pieceO.transform ∧
          ({ x := 1, y := 1 } : Vec2) ∈ pieceO.getWorldPositions ∧
          ({ x := 1, y := 1 } : Vec2) ∉ pieceO.rotate90.getWorldPositions ∧
          ({ x := 1, y := 1 } : Vec2) ∉ pieceO.rotate90.rotate90.getWorldPositions ∧
          ({ x := 1, y := 1 } : Vec2) ∉ pieceO.rotate90.rotate90.rotate90.getWorldPositions)) :=
  ⟨isAffine_spawnedI, rotate90_four_spec spawnedI isAffine_spawnedI⟩

/-! ## Clearing twice -/

theorem isInt_eq_of_abs_sub_lt_half {a r : ℚ} (ha : IsInt a) (hr : IsInt r)
    (h : |a - r| < 1 / 2) : a = r := by
  obtain ⟨m, rfl⟩ := ha
  obtain ⟨n, rfl⟩ := hr
  have h1 : |((m - n : ℤ) : ℚ)| < 1 := by
    push_cast
    linarith
  have h2 : |m - n| < 1 := by exact_mod_cast h1
  have h3 := Int.abs_lt_one_iff.mp h2
  have : m = n := by omega
  rw [this]

theorem isInt_shiftBlock_y (fl : List ℚ) (k : LockedBlock) (hk : IsInt k.position.y) :
    IsInt (shiftBlock fl k).position.y := by
  show IsInt (k.position.y + shiftOf fl k)
  rw [shiftOf_eq_countP]
  exact hk.add (IsInt.natCast _)

theorem roundf_of_isInt {y : ℚ} (h : IsInt y) : roundf y = y := by
  obtain ⟨n, rfl⟩ := h
  exact roundf_intCast n

/-- Two surviving blocks land in the same row only if they were in the same
row. -/
theorem shiftBlock_same_row (fl : List ℚ) (hnd : fl.Nodup) (hint : ∀ r ∈ fl, IsInt r)
    (a c : LockedBlock) (ha : IsInt a.position.y) (hc : IsInt c.position.y)
    (hafree : inFullLine fl a = false) (hcfree : inFullLine fl c = false)
    (h : inRow (shiftBlock fl c).position.y (shiftBlock fl a) = true) :
    inRow c.position.y a = true := by
  simp only [inRow, decide_eq_true_eq] at h ⊢
  have heq := isInt_eq_of_abs_sub_lt_half (isInt_shiftBlock_y fl a ha)
    (isInt_shiftBlock_y fl c hc) h
  have heq2 : a.position.y + shiftOf fl a = c.position.y + shiftOf fl c := heq
  rcases lt_trichotomy a.position.y c.position.y with hlt | hsame | hgt
  · have := shiftOf_lt_of_lt fl hnd hint a c ha hc hcfree hlt
    linarith
  · rw [hsame]
    simp
  · have := shiftOf_lt_of_lt fl hnd hint c a hc ha hafree hgt
    linarith

theorem shiftedSurvivors_no_cleared_row (locked : List LockedBlock)
    (hint : ∀ block ∈ locked, IsInt block.position.y) (r : ℚ) :
    ¬ IsClearedRow (shiftedSurvivors (fullLinesOf locked) locked) r := by
  rintro ⟨⟨moved, hmoved, hr⟩, hcount⟩
  rw [shiftedSurvivors_eq] at hmoved hcount
  rw [List.mem_map] at hmoved
  obtain ⟨k, hk, rfl⟩ := hmoved
  rw [List.mem_filter] at hk
  have hkfree : inFullLine (fullLinesOf locked) k = false := by simpa using hk.2
  have hkint := hint k hk.1
  have hnd := fullLinesOf_nodup locked
  have hflint : ∀ z ∈ fullLinesOf locked, IsInt z := fullLinesOf_isInt locked
  rw [roundf_of_isInt (isInt_shiftBlock_y _ k hkint)] at hr
  subst hr
  rw [List.countP_map] at hcount
  have hmono : List.countP (inRow (shiftBlock (fullLinesOf locked) k).position.y ∘
        shiftBlock (fullLinesOf locked))
      (locked.filter (fun block => !inFullLine (fullLinesOf locked) block)) ≤
      List.countP (inRow k.position.y)
        (locked.filter (fun block => !inFullLine (fullLinesOf locked) block)) := by
    apply List.countP_mono_left
    intro a ha hrow
    rw [List.mem_filter] at ha
    exact shiftBlock_same_row _ hnd hflint a k (hint a ha.1) hkint (by simpa using ha.2) hkfree
      hrow
  have hsub : List.countP (inRow k.position.y)
      (locked.filter (fun block => !inFullLine (fullLinesOf locked) block)) ≤
      List.countP (inRow k.position.y) locked :=
    List.Sublist.countP_le _ (List.filter_sublist locked)
  have hfull : IsClearedRow locked k.position.y := by
    refine ⟨⟨k, hk.1, roundf_of_isInt hkint⟩, ?_⟩
    have : (10 : ℤ) ≤ ((List.countP (inRow k.position.y) locked : ℕ) : ℤ) := by
      simp only [BOARD_W] at hcount
      omega
    simpa [BOARD_W] using this
  have hmem := (mem_fullLinesOf_iff locked k.position.y).mpr hfull
  have := (inFullLine_eq_false_iff _ k).mp hkfree _ hmem
  simp at this

theorem clearLines_twice (b : GameBoard)
    (h : ∀ block ∈ b.lockedBlocks, IsInt block.position.y) :
    b.clearLines.2.clearLines = (0, b.clearLines.2) := by
  apply clearLines_of_nil
  by_cases hnil : fullLinesOf b.lockedBlocks = []
  · rw [clearLines_of_nil b hnil]
    exact hnil
  · rw [clearLines_of_ne_nil b hnil, fullLinesOf_eq_nil_iff]
    exact shiftedSurvivors_no_cleared_row b.lockedBlocks h

/-- C26. On a board whose locked blocks have integer `y`, a second
`clearLines` call right after the first returns `0` and leaves the whole board
(locked blocks, score, high score, total lines) as the first call left it:
after the first call no row has `BOARD_W` or more blocks, and two surviving
blocks from different rows are still in different rows, in the same vertical
order. -/
theorem clearLines_idempotent (b : GameBoard)
    (h : ∀ block ∈ b.lockedBlocks, IsInt block.position.y) :
    b.clearLines.2.clearLines.1 = 0 ∧
      b.clearLines.2.clearLines.2 = b.clearLines.2 ∧
      (∀ r, ¬ IsClearedRow b.clearLines.2.lockedBlocks r) ∧
      (∀ a ∈ b.lockedBlocks, ∀ c ∈ b.lockedBlocks,
        inFullLine (fullLinesOf b.lockedBlocks) a = false →
        inFullLine (fullLinesOf b.lockedBlocks) c = false →
        a.position.y < c.position.y →
          (shiftBlock (fullLinesOf b.lockedBlocks) a).position.y <
            (shiftBlock (fullLinesOf b.lockedBlocks) c).position.y) := by
  have htwice := clearLines_twice b h
  refine ⟨?_, ?_, ?_, ?_⟩
  · rw [htwice]
  · rw [htwice]
  · by_cases hnil : fullLinesOf b.lockedBlocks = []
    · rw [clearLines_of_nil b hnil]
      exact (fullLinesOf_eq_nil_iff _).mp hnil
    · rw [clearLines_of_ne_nil b hnil]
      exact shiftedSurvivors_no_cleared_row b.lockedBlocks h
  · intro a ha c hc _ hcfree hlt
    exact shiftOf_lt_of_lt _ (fullLinesOf_nodup _) (fullLinesOf_isInt _) a c (h a ha) (h c hc)
      hcfree hlt

theorem isInt_y_sampleRows :
    ∀ block ∈ sampleRows.lockedBlocks, IsInt block.position.y := by
  intro block hblock
  have hmem : block ∈ rowOf 19 10 1 ++ [lockedAt 3 18 2] := hblock
  rcases List.mem_append.mp hmem with hrow | hone
  · obtain ⟨i, _, rfl⟩ := (mem_rowOf 19 10 1 block).mp hrow
    exact ⟨19, by norm_num [lockedAt]⟩
  · rw [List.mem_singleton] at hone
    rw [hone]
    exact ⟨18, by norm_num [lockedAt]⟩

/-- A full row at height `19` under one block at height `18`. -/
theorem clearLines_idempotent_witness :
    (∀ block ∈ sampleRows.lockedBlocks, IsInt block.position.y) ∧
      (sampleRows.clearLines.2.clearLines.1 = 0 ∧
        sampleRows.clearLines.2.clearLines.2 = sampleRows.clearLines.2 ∧
        (∀ r, ¬ IsClearedRow sampleRows.clearLines.2.lockedBlocks r) ∧
        (∀ a ∈ sampleRows.lockedBlocks,
          ∀ c ∈ sampleRows.lockedBlocks,
          inFullLine (fullLinesOf sampleRows.lockedBlocks) a = false →
          inFullLine (fullLinesOf sampleRows.lockedBlocks) c = false →
          a.position.y < c.position.y →
            (shiftBlock (fullLinesOf sampleRows.lockedBlocks) a).position.y <
              (shiftBlock (fullLinesOf sampleRows.lockedBlocks) c).position.y)) :=
  ⟨isInt_y_sampleRows, clearLines_idempotent _ isInt_y_sampleRows⟩

/-! ## Down-steps -/

theorem matMul_translate_translate (m : Mat3) (a b : ℚ) :
    matMul (matMul m (matTranslate 0 a)) (matTranslate 0 b) = matMul m (matTranslate 0 (a + b)) := by
  rw [matMul_assoc]
  congr 1
  simp [matMul, matTranslate, matIdentity]

theorem down_zero (p : Piece) : p.down 0 = p := by
  unfold Piece.down
  rw [Nat.cast_zero]
  exact translate_zero p

theorem down_one (p : Piece) : p.down 1 = p.translate 0 1 := by
  unfold Piece.down
  rw [Nat.cast_one]

theorem down_succ (p : Piece) (n : ℕ) : (p.down n).translate 0 1 = p.down (n + 1) := by
  unfold Piece.down Piece.translate
  simp only
  rw [matMul_translate_translate]
  push_cast
  rfl

theorem translate_down (p : Piece) (n : ℕ) : (p.translate 0 1).down n = p.down (n + 1) := by
  unfold Piece.down Piece.translate
  simp only
  rw [matMul_translate_translate]
  push_cast
  rw [add_comm]

theorem down_worldPositions (p : Piece) (n : ℕ) (h : IsAffine p.transform) :
    (p.down n).getWorldPositions =
      p.getWorldPositions.map (fun v => { x := v.x + 0, y := v.y + (n : ℚ) }) :=
  translate_worldPositions p 0 (n : ℚ) h.1 h.2.1 h.2.2

/-! ## The drop loop and its count of down-steps -/

theorem dropLoop_some_dropsExactly (board : GameBoard) (fuel : ℕ) :
    ∀ (p landed : Piece), dropLoop board fuel p = some landed →
      ∃ k : ℕ, k < fuel ∧ landed = p.down k ∧ DropsExactly board p k := by
  induction fuel with
  | zero =>
    intro p landed h
    cases h
  | succ f ih =>
    intro p landed h
    cases hcan : board.canPlace (p.translate 0 1) with
    | false =>
      rw [dropLoop_succ_of_blocked board f p hcan, Option.some.injEq] at h
      refine ⟨0, Nat.succ_pos f, ?_, ?_, ?_⟩
      · rw [down_zero, h]
      · intro i h1 h0
        omega
      · rw [down_one]
        exact hcan
    | true =>
      rw [dropLoop_succ_of_legal board f p hcan] at h
      obtain ⟨k, hk, hl, hlegal, hstop⟩ := ih (p.translate 0 1) landed h
      refine ⟨k + 1, Nat.succ_lt_succ hk, ?_, ?_, ?_⟩
      · rw [hl, translate_down]
      · intro i h1 hik
        rcases Nat.lt_or_ge i 2 with hlt | hge
        · have hi : i = 1 := by omega
          rw [hi, down_one]
          exact hcan
        · obtain ⟨j, rfl⟩ : ∃ j, i = j + 1 := ⟨i - 1, by omega⟩
          rw [← translate_down]
          exact hlegal j (by omega) (by omega)
      · rw [← translate_down]
        exact hstop

theorem dropLoop_of_dropsExactly (board : GameBoard) (k : ℕ) :
    ∀ (p : Piece) (fuel : ℕ), DropsExactly board p k → k < fuel →
      dropLoop board fuel p = some (p.down k) := by
  induction k with
  | zero =>
    intro p fuel h hfuel
    obtain ⟨f, rfl⟩ : ∃ f, fuel = f + 1 := ⟨fuel - 1, by omega⟩
    have hstop := h.2
    rw [down_one] at hstop
    rw [dropLoop_succ_of_blocked board f p hstop, down_zero]
  | succ n ih =>
    intro p fuel h hfuel
    obtain ⟨f, rfl⟩ : ∃ f, fuel = f + 1 := ⟨fuel - 1, by omega⟩
    have hfirst := h.1 1 (le_refl 1) (by omega)
    rw [down_one] at hfirst
    rw [dropLoop_succ_of_legal board f p hfirst]
    have hnext : DropsExactly board (p.translate 0 1) n := by
      constructor
      · intro i h1 hin
        rw [translate_down]
        exact h.1 (i + 1) (by omega) (by omega)
      · rw [translate_down]
        exact h.2
    rw [ih (p.translate 0 1) f hnext (by omega), translate_down]

theorem dropsExactly_unique (board : GameBoard) (p : Piece) (k1 k2 : ℕ)
    (h1 : DropsExactly board p k1) (h2 : DropsExactly board p k2) : k1 = k2 := by
  rcases Nat.lt_trichotomy k1 k2 with hlt | heq | hgt
  · have := h2.1 (k1 + 1) (by omega) (by omega)
    rw [h1.2] at this
    cases this
  · exact heq
  · have := h1.1 (k2 + 1) (by omega) (by omega)
    rw [h2.2] at this
    cases this

theorem canPlace_eq_false_of_floor (board : GameBoard) (p : Piece)
    (h : ∃ pos ∈ p.getWorldPositions, (BOARD_H : ℚ) ≤ pos.y) : board.canPlace p = false := by
  obtain ⟨pos, hpos, hy⟩ := h
  rw [← Bool.not_eq_true]
  intro hcan
  have := canPlace_lt_height hcan pos hpos
  simp only [BOARD_H, Int.cast_ofNat] at hy
  linarith

theorem exists_dropsExactly (board : GameBoard) (p : Piece) (haff : IsAffine p.transform)
    (hne : p.blocks ≠ []) : ∃ k : ℕ, DropsExactly board p k := by
  obtain ⟨block, hblock⟩ := List.exists_mem_of_ne_nil _ hne
  have hpos : block.getWorldPos p.transform ∈ p.getWorldPositions :=
    List.mem_map.mpr ⟨block, hblock, rfl⟩
  obtain ⟨n, hn⟩ := exists_nat_ge ((BOARD_H : ℚ) - (block.getWorldPos p.transform).y)
  have hex : ∃ m : ℕ, board.canPlace (p.down (m + 1)) = false := by
    refine ⟨n, canPlace_eq_false_of_floor board _ ?_⟩
    rw [down_worldPositions p (n + 1) haff]
    refine ⟨_, List.mem_map.mpr ⟨_, hpos, rfl⟩, ?_⟩
    show (BOARD_H : ℚ) ≤ (block.getWorldPos p.transform).y + ((n + 1 : ℕ) : ℚ)
    push_cast
    linarith
  refine ⟨Nat.find hex, ?_, Nat.find_spec hex⟩
  intro i h1 hik
  obtain ⟨j, rfl⟩ : ∃ j, i = j + 1 := ⟨i - 1, by omega⟩
  have hmin := Nat.find_min hex (show j < Nat.find hex by omega)
  simpa using hmin

/-! ## Repeated soft drops -/

theorem iterate_softDrop_down (g : Game) (r1 r2 : ℕ) (h : g.board.gameOver = false) (k : ℕ)
    (hlegal : ∀ i : ℕ, 1 ≤ i → i ≤ k → g.board.canPlace (g.currentPiece.down i) = true) :
    ∀ j : ℕ, j ≤ k →
      (fun s : Game => s.softDrop r1 r2)^[j] g = { g with currentPiece := g.currentPiece.down j } := by
  intro j
  induction j with
  | zero =>
    intro _
    rw [Function.iterate_zero, id_eq, down_zero]
  | succ n ih =>
    intro hn
    rw [Function.iterate_succ_apply', ih (by omega)]
    have hcan : ({ g with currentPiece := g.currentPiece.down n } : Game).board.canPlace
        (({ g with currentPiece := g.currentPiece.down n } : Game).currentPiece.translate 0 1) =
          true := by
      show g.board.canPlace ((g.currentPiece.down n).translate 0 1) = true
      rw [down_succ]
      exact hlegal (n + 1) (by omega) hn
    rw [softDrop_of_legal (Game.mk g.board (g.currentPiece.down n) g.nextPiece) r1 r2 h hcan]
    show Game.mk g.board ((g.currentPiece.down n).translate 0 1) g.nextPiece = _
    rw [down_succ]

theorem iterate_softDrop_lock (g : Game) (r1 r2 : ℕ) (h : g.board.gameOver = false) (k : ℕ)
    (hk : DropsExactly g.board g.currentPiece k) :
    (fun s : Game => s.softDrop r1 r2)^[k + 1] g =
      ({ g with currentPiece := g.currentPiece.down k } : Game).lockAndSpawn r1 r2 := by
  rw [Function.iterate_succ_apply', iterate_softDrop_down g r1 r2 h k hk.1 k (le_refl k)]
  have hcan : ({ g with currentPiece := g.currentPiece.down k } : Game).board.canPlace
      (({ g with currentPiece := g.currentPiece.down k } : Game).currentPiece.translate 0 1) =
        false := by
    show g.board.canPlace ((g.currentPiece.down k).translate 0 1) = false
    rw [down_succ]
    exact hk.2
  rw [softDrop_of_blocked (Game.mk g.board (g.currentPiece.down k) g.nextPiece) r1 r2 h hcan]

theorem hardDrop_of_dropsExactly (g : Game) (r1 r2 : ℕ) (h : g.board.gameOver = false) (k : ℕ)
    (hk : DropsExactly g.board g.currentPiece k) (fuel : ℕ) (hfuel : k < fuel) :
    g.hardDrop fuel r1 r2 = some ((fun s : Game => s.softDrop r1 r2)^[k + 1] g) := by
  rw [hardDrop_of_running g fuel r1 r2 h,
    dropLoop_of_dropsExactly g.board k g.currentPiece fuel hk hfuel,
    iterate_softDrop_lock g r1 r2 h k hk]
  rfl

/-- C22. With the game-over flag clear, `hardDrop` returns exactly what
repeated `softDrop` calls give up to and including the first call that locks.
If the loop of `hardDrop` ends within its bound, it has taken `k` down-steps,
where the translations by `1, ..., k` rows are legal and the one by `k + 1`
rows is not; the first `k` `softDrop` calls move the piece by one row each, the
next one locks, and the state after these `k + 1` calls is the result of
`hardDrop`: the piece `k` rows lower is locked, then `clearLines` and
`spawnPiece` run once with the same draws. Conversely such a `k` makes
`hardDrop` return that state for every larger bound, and a `k` exists whenever
the piece has a block and its transform has third column `(0, 0, 1)`. -/
theorem hardDrop_refines_softDrop (g : Game) (r1 r2 : ℕ) (h : g.board.gameOver = false) :
    (∀ (fuel : ℕ) (g2 : Game), g.hardDrop fuel r1 r2 = some g2 →
      ∃ k : ℕ, k < fuel ∧ DropsExactly g.board g.currentPiece k ∧
        (∀ j : ℕ, j ≤ k →
          (fun s : Game => s.softDrop r1 r2)^[j] g =
            { g with currentPiece := g.currentPiece.down j }) ∧
        g2 = (fun s : Game => s.softDrop r1 r2)^[k + 1] g ∧
        g2 = ({ g with currentPiece := g.currentPiece.down k } : Game).lockAndSpawn r1 r2) ∧
      (∀ k : ℕ, DropsExactly g.board g.currentPiece k → ∀ fuel : ℕ, k < fuel →
        g.hardDrop fuel r1 r2 = some ((fun s : Game => s.softDrop r1 r2)^[k + 1] g)) ∧
      (IsAffine g.currentPiece.transform → g.currentPiece.blocks ≠ [] →
        ∃ k : ℕ, DropsExactly g.board g.currentPiece k ∧
          g.hardDrop (k + 1) r1 r2 = some ((fun s : Game => s.softDrop r1 r2)^[k + 1] g)) ∧
      (∀ n : ℕ, g.currentPiece.down n = g.currentPiece.translate 0 (n : ℚ) ∧
        (g.currentPiece.down n).translate 0 1 = g.currentPiece.down (n + 1)) := by
  refine ⟨?_, ?_, ?_, fun n => ⟨rfl, down_succ _ n⟩⟩
  · intro fuel g2 hrun
    rw [hardDrop_of_running g fuel r1 r2 h, Option.map_eq_some'] at hrun
    obtain ⟨landed, hdrop, rfl⟩ := hrun
    obtain ⟨k, hk, hl, hexact⟩ := dropLoop_some_dropsExactly g.board fuel g.currentPiece landed hdrop
    refine ⟨k, hk, hexact, iterate_softDrop_down g r1 r2 h k hexact.1, ?_, ?_⟩
    · rw [iterate_softDrop_lock g r1 r2 h k hexact, hl]
    · rw [hl]
  · intro k hk fuel hfuel
    exact hardDrop_of_dropsExactly g r1 r2 h k hk fuel hfuel
  · intro haff hne
    obtain ⟨k, hk⟩ := exists_dropsExactly g.board g.currentPiece haff hne
    exact ⟨k, hk, hardDrop_of_dropsExactly g r1 r2 h k hk (k + 1) (Nat.lt_succ_self k)⟩

/-- The sample game with the flag clear. -/
theorem hardDrop_refines_softDrop_witness :
    (sampleGame false).board.gameOver = false ∧
      ((∀ (fuel : ℕ) (g2 : Game), (sampleGame false).hardDrop fuel 0 1 = some g2 →
        ∃ k : ℕ, k < fuel ∧ DropsExactly (sampleGame false).board (sampleGame false).currentPiece k ∧
          (∀ j : ℕ, j ≤ k →
            (fun s : Game => s.softDrop 0 1)^[j] (sampleGame false) =
              { sampleGame false with currentPiece := (sampleGame false).currentPiece.down j }) ∧
          g2 = (fun s : Game => s.softDrop 0 1)^[k + 1] (sampleGame false) ∧
          g2 = ({ sampleGame false with currentPiece := (sampleGame false).currentPiece.down k } : Game).lockAndSpawn 0 1) ∧
        (∀ k : ℕ, DropsExactly (sampleGame false).board (sampleGame false).currentPiece k → ∀ fuel : ℕ, k < fuel →
          (sampleGame false).hardDrop fuel 0 1 = some ((fun s : Game => s.softDrop 0 1)^[k + 1] (sampleGame false))) ∧
        (IsAffine (sampleGame false).currentPiece.transform → (sampleGame false).currentPiece.blocks ≠ [] →
          ∃ k : ℕ, DropsExactly (sampleGame false).board (sampleGame false).currentPiece k ∧
            (sampleGame false).hardDrop (k + 1) 0 1 = some ((fun s : Game => s.softDrop 0 1)^[k + 1] (sampleGame false))) ∧
        (∀ n : ℕ, (sampleGame false).currentPiece.down n = (sampleGame false).currentPiece.translate 0 (n : ℚ) ∧
          ((sampleGame false).currentPiece.down n).translate 0 1 = (sampleGame false).currentPiece.down (n + 1))) :=
  ⟨rfl, hardDrop_refines_softDrop (sampleGame false) 0 1 rfl⟩

/-! ## Catalog shapes in reachable states -/

theorem blocks_length_of_mem_templates {t : Piece} (ht : t ∈ templates) : t.blocks.length = 4 := by
  simp only [templates, List.mem_cons, List.mem_singleton, List.not_mem_nil, or_false] at ht
  rcases ht with rfl | rfl | rfl | rfl | rfl | rfl | rfl <;> rfl

theorem blocks_ne_nil_of_mem_templates {t : Piece} (ht : t ∈ templates) : t.blocks ≠ [] := by
  intro h
  have := blocks_length_of_mem_templates ht
  rw [h] at this
  cases this

theorem spawnPiece_shapeInv (g : Game) (r1 r2 : ℕ) (hn : g.nextPiece ∈ templates) :
    ShapeInv (g.spawnPiece r1 r2) := by
  have hcur := spawnPiece_currentPiece_of_ne_nil g r1 r2 (blocks_ne_nil_of_mem_templates hn)
  refine ⟨⟨g.nextPiece, hn, ?_⟩, ?_, ?_⟩
  · rw [hcur]
    rfl
  · rw [spawnPiece_nextPiece]
    exact createRandomPiece_mem r2
  · rw [hcur]
    intro pos hpos
    have := (spawnPlacement_bounds hn pos hpos).2.2.2
    simp only [BOARD_H, Int.cast_ofNat]
    linarith

theorem shapeInv_of_legal (g : Game) (q : Piece) (h : ShapeInv g)
    (hb : q.blocks = g.currentPiece.blocks) (hcan : g.board.canPlace q = true) :
    ShapeInv { g with currentPiece := q } := by
  obtain ⟨⟨t, ht, hbt⟩, hn, _⟩ := h
  refine ⟨⟨t, ht, hb.trans hbt⟩, hn, ?_⟩
  intro pos hpos
  have := canPlace_lt_height hcan pos hpos
  simpa [BOARD_H] using this

theorem tryMove_shapeInv (g : Game) (dx dy : ℚ) (h : ShapeInv g) :
    ShapeInv (g.tryMove dx dy).2 := by
  cases hcan : g.board.canPlace (g.currentPiece.translate dx dy) with
  | true =>
    rw [tryMove_of_legal g dx dy hcan]
    exact shapeInv_of_legal g _ h rfl hcan
  | false =>
    rw [tryMove_of_illegal g dx dy hcan]
    exact h

theorem tryRotate_shapeInv (g : Game) (h : ShapeInv g) : ShapeInv g.tryRotate.2 := by
  cases hcan : g.board.canPlace g.currentPiece.rotate90 with
  | true =>
    rw [tryRotate_of_legal g hcan]
    exact shapeInv_of_legal g _ h rfl hcan
  | false =>
    cases hkick : kickLoop g.board g.currentPiece.rotate90 [-1, 1, -2, 2] with
    | none =>
      rw [tryRotate_of_stuck g hcan hkick]
      exact h
    | some q =>
      rw [tryRotate_of_kick g q hcan hkick]
      have hb := kickLoop_blocks g.board g.currentPiece.rotate90 _ q hkick
      have hq : g.board.canPlace q = true := by
        rw [kickLoop_eq_find] at hkick
        have := List.find?_some hkick
        simpa using this
      exact shapeInv_of_legal g q h hb hq

theorem lockAndSpawn_shapeInv (g : Game) (r1 r2 : ℕ) (hn : g.nextPiece ∈ templates) :
    ShapeInv (g.lockAndSpawn r1 r2) := by
  unfold Game.lockAndSpawn
  exact spawnPiece_shapeInv _ r1 r2 hn

theorem softDrop_shapeInv (g : Game) (r1 r2 : ℕ) (h : ShapeInv g) :
    ShapeInv (g.softDrop r1 r2) := by
  cases hover : g.board.gameOver with
  | true =>
    rw [softDrop_of_gameOver g r1 r2 hover]
    exact h
  | false =>
    cases hcan : g.board.canPlace (g.currentPiece.translate 0 1) with
    | true =>
      rw [softDrop_of_legal g r1 r2 hover hcan]
      exact shapeInv_of_legal g _ h rfl hcan
    | false =>
      rw [softDrop_of_blocked g r1 r2 hover hcan]
      exact lockAndSpawn_shapeInv g r1 r2 h.2.1

theorem run_shapeInv (g g2 : Game) (fuel : ℕ) (c : Command) (h : ShapeInv g)
    (hrun : g.run fuel c = some g2) : ShapeInv g2 := by
  cases c with
  | moveLeft =>
    simp only [Game.run, Option.some.injEq] at hrun
    rw [← hrun]
    exact tryMove_shapeInv g (-1) 0 h
  | moveRight =>
    simp only [Game.run, Option.some.injEq] at hrun
    rw [← hrun]
    exact tryMove_shapeInv g 1 0 h
  | rotate =>
    simp only [Game.run, Option.some.injEq] at hrun
    rw [← hrun]
    exact tryRotate_shapeInv g h
  | softDrop r1 r2 =>
    simp only [Game.run, Option.some.injEq] at hrun
    rw [← hrun]
    exact softDrop_shapeInv g r1 r2 h
  | tick r1 r2 =>
    simp only [Game.run, Option.some.injEq] at hrun
    rw [← hrun]
    exact softDrop_shapeInv g r1 r2 h
  | hardDrop r1 r2 =>
    simp only [Game.run] at hrun
    cases hover : g.board.gameOver with
    | true =>
      rw [hardDrop_of_gameOver g fuel r1 r2 hover, Option.some.injEq] at hrun
      rw [← hrun]
      exact h
    | false =>
      rw [hardDrop_of_running g fuel r1 r2 hover, Option.map_eq_some'] at hrun
      obtain ⟨landed, _, rfl⟩ := hrun
      exact lockAndSpawn_shapeInv { g with currentPiece := landed } r1 r2 h.2.1
  | reset r0 r1 r2 =>
    simp only [Game.run, Option.some.injEq] at hrun
    rw [← hrun]
    unfold Game.handleKeyR
    exact spawnPiece_shapeInv _ r1 r2 (createRandomPiece_mem r0)

theorem reachable_shapeInv (g : Game) (h : Reachable g) : ShapeInv g := by
  induction h with
  | init r0 r1 r2 =>
    unfold Game.new
    exact spawnPiece_shapeInv _ r1 r2 (createRandomPiece_mem r0)
  | step g g2 fuel c _ hrun ih => exact run_shapeInv g g2 fuel c ih hrun

theorem isAffine_of_isIntAffine {m : Mat3} (h : IsIntAffine m) : IsAffine m :=
  ⟨h.1, h.2.1, h.2.2.1⟩

theorem dropsExactly_bound (board : GameBoard) (p : Piece) (k : ℕ) (haff : IsAffine p.transform)
    (hk : DropsExactly board p k) (hfloor : ∀ pos ∈ p.getWorldPositions, pos.y < (BOARD_H : ℚ)) :
    ∀ pos ∈ p.getWorldPositions, (k : ℚ) < (BOARD_H : ℚ) - pos.y := by
  intro pos hpos
  rcases Nat.eq_zero_or_pos k with h0 | hpos_k
  · rw [h0, Nat.cast_zero]
    have := hfloor pos hpos
    linarith
  · have hcan := hk.1 k hpos_k (le_refl k)
    have hlt := canPlace_lt_height hcan { x := pos.x + 0, y := pos.y + (k : ℚ) } (by
      rw [down_worldPositions p k haff]
      exact List.mem_map.mpr ⟨pos, hpos, rfl⟩)
    have hlt2 : pos.y + (k : ℚ) < 20 := hlt
    simp only [BOARD_H, Int.cast_ofNat]
    linarith

/-- C23. In every state reachable from a new game the current piece has four
blocks; a down-step raises the `y` of every block by `1`, and `canPlace`
rejects every piece with a block at `y >= BOARD_H`; so the drop loop of
`hardDrop` ends: there is a number `k` of down-steps (the translations by
`1, ..., k` rows are legal, the next is not) after which, for every bound above
`k`, the loop returns the piece `k` rows lower and `hardDrop` returns a state;
and `k` is less than `BOARD_H` minus the `y` of each block, in particular of
the one with the smallest `y`. -/
theorem hardDrop_bounded (g : Game) (h : Reachable g) :
    g.currentPiece.blocks.length = 4 ∧
      (g.currentPiece.translate 0 1).getWorldPositions =
        g.currentPiece.getWorldPositions.map (fun v => { x := v.x + 0, y := v.y + 1 }) ∧
      (∀ p : Piece, (∃ pos ∈ p.getWorldPositions, (BOARD_H : ℚ) ≤ pos.y) →
        g.board.canPlace p = false) ∧
      ∃ k : ℕ, DropsExactly g.board g.currentPiece k ∧
        (∀ fuel : ℕ, k < fuel →
          dropLoop g.board fuel g.currentPiece = some (g.currentPiece.down k)) ∧
        (∀ fuel r1 r2 : ℕ, k < fuel → ∃ g2, g.hardDrop fuel r1 r2 = some g2 ∧ Reachable g2) ∧
        (∀ pos ∈ g.currentPiece.getWorldPositions, (k : ℚ) < (BOARD_H : ℚ) - pos.y) ∧
        (∀ pos ∈ g.currentPiece.getWorldPositions,
          (∀ q ∈ g.currentPiece.getWorldPositions, pos.y ≤ q.y) →
            (k : ℚ) < (BOARD_H : ℚ) - pos.y) := by
  have hinv := reachable_inv g h
  have hshape := reachable_shapeInv g h
  have haff : IsAffine g.currentPiece.transform := isAffine_of_isIntAffine hinv.2.1.2
  have hne := reachable_blocks_ne_nil g h
  obtain ⟨k, hk⟩ := exists_dropsExactly g.board g.currentPiece haff hne
  have hbound := dropsExactly_bound g.board g.currentPiece k haff hk hshape.2.2
  refine ⟨?_, translate_worldPositions _ 0 1 haff.1 haff.2.1 haff.2.2,
    fun p hp => canPlace_eq_false_of_floor g.board p hp, k, hk,
    fun fuel hfuel => dropLoop_of_dropsExactly g.board k g.currentPiece fuel hk hfuel, ?_,
    hbound, fun pos hpos _ => hbound pos hpos⟩
  · obtain ⟨t, ht, hbt⟩ := hshape.1
    rw [hbt]
    exact blocks_length_of_mem_templates ht
  · intro fuel r1 r2 hfuel
    cases hover : g.board.gameOver with
    | true =>
      exact ⟨g, hardDrop_of_gameOver g fuel r1 r2 hover, h⟩
    | false =>
      have hrun := hardDrop_of_dropsExactly g r1 r2 hover k hk fuel hfuel
      exact ⟨_, hrun, Reachable.step g _ fuel (Command.hardDrop r1 r2) h hrun⟩

/-- A new game. -/
theorem hardDrop_bounded_witness :
    Reachable (Game.new 0 1 2) ∧
      ((Game.new 0 1 2).currentPiece.blocks.length = 4 ∧
        ((Game.new 0 1 2).currentPiece.translate 0 1).getWorldPositions =
          (Game.new 0 1 2).currentPiece.getWorldPositions.map (fun v => { x := v.x + 0, y := v.y + 1 }) ∧
        (∀ p : Piece, (∃ pos ∈ p.getWorldPositions, (BOARD_H : ℚ) ≤ pos.y) →
          (Game.new 0 1 2).board.canPlace p = false) ∧
        ∃ k : ℕ, DropsExactly (Game.new 0 1 2).board (Game.new 0 1 2).currentPiece k ∧
          (∀ fuel : ℕ, k < fuel →
            dropLoop (Game.new 0 1 2).board fuel (Game.new 0 1 2).currentPiece = some ((Game.new 0 1 2).currentPiece.down k)) ∧
          (∀ fuel r1 r2 : ℕ, k < fuel → ∃ g2, (Game.new 0 1 2).hardDrop fuel r1 r2 = some g2 ∧ Reachable g2) ∧
          (∀ pos ∈ (Game.new 0 1 2).currentPiece.getWorldPositions, (k : ℚ) < (BOARD_H : ℚ) - pos.y) ∧
          (∀ pos ∈ (Game.new 0 1 2).currentPiece.getWorldPositions,
            (∀ q ∈ (Game.new 0 1 2).currentPiece.getWorldPositions, pos.y ≤ q.y) →
              (k : ℚ) < (BOARD_H : ℚ) - pos.y)) :=
  ⟨Reachable.init 0 1 2, hardDrop_bounded (Game.new 0 1 2) (Reachable.init 0 1 2)⟩

/-! ## The row count and the high score of `clearLines` -/

theorem receivable_score_le (b : GameBoard) (h : Receivable b) :
    0 ≤ b.score ∧ b.score ≤ b.highScore := by
  induction h with
  | new => exact ⟨le_refl _, le_refl _⟩
  | reset b _ ih => exact ⟨le_refl _, le_trans ih.1 ih.2⟩
  | lockPiece b piece _ ih => exact ih
  | clearLines b _ ih =>
    have hs := clearLines_scoreStep b
    refine ⟨le_trans ih.1 hs.1, ?_⟩
    rw [hs.2.2 ih.2]
    exact le_max_right _ _
  | setGameOver b value _ ih => exact ih

theorem clearLines_fst_eq_card (b : GameBoard) :
    b.clearLines.1 =
      (((b.lockedBlocks.map (fun k => roundf k.position.y)).toFinset.filter
        (fun r => BOARD_W ≤ (b.lockedBlocks.countP (inRow r) : ℤ))).card : ℤ) := by
  rw [clearLines_fst, ← List.toFinset_card_of_nodup (fullLinesOf_nodup b.lockedBlocks)]
  congr 2
  ext r
  rw [List.mem_toFinset, mem_fullLinesOf_iff, Finset.mem_filter, List.mem_toFinset,
    List.mem_map]
  rfl

theorem clearLines_linesClearedTotal (b : GameBoard) :
    b.clearLines.2.linesClearedTotal = b.linesClearedTotal + b.clearLines.1 := by
  by_cases hnil : fullLinesOf b.lockedBlocks = []
  · rw [clearLines_of_nil b hnil]
    simp
  · rw [clearLines_of_ne_nil b hnil]

theorem clearLines_highScore_of_le (b : GameBoard) (h : b.score ≤ b.highScore) :
    b.clearLines.2.highScore = max b.clearLines.2.score b.highScore := by
  rw [(clearLines_scoreStep b).2.2 h, max_comm]

theorem overfullPiece_worldPositions :
    overfullPiece.getWorldPositions =
      (List.range 11).map (fun (i : ℕ) => ({ x := (i : ℚ) / 2, y := 19 } : Vec2)) := by
  simp [overfullPiece, Piece.getWorldPositions, Block.getWorldPos, applyMat3, matIdentity]

theorem lockPiece_overfullPiece :
    (GameBoard.new.lockPiece overfullPiece).lockedBlocks =
      (List.range 11).map (fun (i : ℕ) => lockedAt ((i : ℚ) / 2) 19 1) := by
  rw [lockPiece_lockedBlocks, overfullPiece_worldPositions]
  have hall : ∀ pos ∈ (List.range 11).map (fun (i : ℕ) => ({ x := (i : ℚ) / 2, y := 19 } : Vec2)),
      lockable pos = true := by
    intro pos hpos
    obtain ⟨i, hi, rfl⟩ := List.mem_map.mp hpos
    have hi2 : (i : ℚ) < 11 := by exact_mod_cast List.mem_range.mp hi
    have hi0 : (0 : ℚ) ≤ (i : ℚ) := Nat.cast_nonneg i
    simp only [lockable, BOARD_H, BOARD_W, decide_eq_true_eq]
    norm_num
    constructor <;> linarith
  rw [List.filter_eq_self.mpr hall, List.map_map]
  rfl

theorem canPlace_overfullPiece : GameBoard.new.canPlace overfullPiece = true := by
  rw [canPlace_iff_overlaps, overfullPiece_worldPositions]
  intro pos hpos
  obtain ⟨i, hi, rfl⟩ := List.mem_map.mp hpos
  have hi2 : (i : ℚ) < 11 := by exact_mod_cast List.mem_range.mp hi
  have hi0 : (0 : ℚ) ≤ (i : ℚ) := Nat.cast_nonneg i
  refine ⟨?_, ?_, ?_, ?_⟩
  · show -(1 / 100 : ℚ) ≤ (i : ℚ) / 2
    linarith
  · show (i : ℚ) / 2 < 10
    linarith
  · show (19 : ℚ) < 20
    norm_num
  · intro _ l hl
    exact absurd hl (List.not_mem_nil l)

theorem countP_inRow_of_height (r y : ℚ) (locked : List LockedBlock)
    (h : ∀ k ∈ locked, k.position.y = y) :
    locked.countP (inRow r) = if |y - r| < 1 / 2 then locked.length else 0 := by
  induction locked with
  | nil => simp
  | cons k rest ih =>
    have hk : k.position.y = y := h k (List.mem_cons_self _ _)
    have ih2 := ih (fun k2 hk2 => h k2 (List.mem_cons_of_mem _ hk2))
    by_cases hr : |y - r| < 1 / 2
    · have hin : inRow r k = true := by
        unfold inRow
        rw [hk]
        exact decide_eq_true hr
      rw [if_pos hr] at ih2 ⊢
      rw [List.countP_cons_of_pos _ _ hin, ih2, List.length_cons]
    · have hin : ¬ (inRow r k = true) := by
        unfold inRow
        rw [hk]
        simpa using hr
      rw [if_neg hr] at ih2 ⊢
      rw [List.countP_cons_of_neg _ _ hin, ih2]

theorem overfull_height (k : LockedBlock)
    (hk : k ∈ (GameBoard.new.lockPiece overfullPiece).lockedBlocks) : k.position.y = 19 := by
  rw [lockPiece_overfullPiece] at hk
  obtain ⟨i, _, rfl⟩ := List.mem_map.mp hk
  rfl

theorem overfull_length : (GameBoard.new.lockPiece overfullPiece).lockedBlocks.length = 11 := by
  rw [lockPiece_overfullPiece]
  simp

theorem isClearedRow_overfull (r : ℚ) :
    IsClearedRow (GameBoard.new.lockPiece overfullPiece).lockedBlocks r ↔ r = 19 := by
  unfold IsClearedRow
  rw [countP_inRow_of_height r 19 _ overfull_height, overfull_length]
  constructor
  · rintro ⟨⟨block, hb, hr⟩, _⟩
    rw [← hr, overfull_height block hb]
    exact roundf_ofNat 19
  · rintro rfl
    refine ⟨⟨lockedAt 0 19 1, ?_, roundf_ofNat 19⟩, ?_⟩
    · rw [lockPiece_overfullPiece]
      exact List.mem_map.mpr ⟨0, by simp, by simp [lockedAt]⟩
    · norm_num [BOARD_W]

theorem fullLinesOf_overfull :
    fullLinesOf (GameBoard.new.lockPiece overfullPiece).lockedBlocks = [19] :=
  eq_singleton_of_nodup_of_mem_iff _ _ (fullLinesOf_nodup _)
    (fun y => (mem_fullLinesOf_iff _ y).trans (isClearedRow_overfull y))

/-- C7, as stated, fails. Lock, on a new board, the legally placed piece of
eleven blocks at height `19` (half a cell apart, `x = 0, 0.5, ..., 5`):
`clearLines` then returns `1`, although no row holds exactly `BOARD_W`
blocks. -/
theorem clearLines_count_differs :
    Receivable (GameBoard.new.lockPiece overfullPiece) ∧
      GameBoard.new.canPlace overfullPiece = true ∧
      (GameBoard.new.lockPiece overfullPiece).clearLines.1 = 1 ∧
      ((((GameBoard.new.lockPiece overfullPiece).lockedBlocks.map
          (fun k => roundf k.position.y)).toFinset.filter
        (fun r => (((GameBoard.new.lockPiece overfullPiece).lockedBlocks.countP (inRow r) : ℕ) : ℤ)
          = BOARD_W)).card = 0) := by
  refine ⟨Receivable.lockPiece _ _ Receivable.new, canPlace_overfullPiece, ?_, ?_⟩
  · rw [clearLines_fst, fullLinesOf_overfull]
    rfl
  · rw [Finset.card_eq_zero, Finset.filter_eq_empty_iff]
    intro r _
    rw [countP_inRow_of_height r 19 _ overfull_height, overfull_length]
    split_ifs <;> norm_num [BOARD_W]

/-- C7, amended. On every board a caller can hold (built from the constructor
by `reset`, `lockPiece`, `clearLines` and `setGameOver`), `clearLines` returns
the number `n` of distinct rows (rounded `y` of some locked block) with at
least `BOARD_W` locked blocks within `0.5`; it adds `n` to the total of cleared
lines and sets the high score to the maximum of the new score and the old high
score. -/
theorem clearLines_count (b : GameBoard) (h : Receivable b) :
    b.clearLines.1 =
        (((b.lockedBlocks.map (fun k => roundf k.position.y)).toFinset.filter
          (fun r => BOARD_W ≤ (b.lockedBlocks.countP (inRow r) : ℤ))).card : ℤ) ∧
      b.clearLines.2.linesClearedTotal = b.linesClearedTotal + b.clearLines.1 ∧
      b.clearLines.2.highScore = max b.clearLines.2.score b.highScore :=
  ⟨clearLines_fst_eq_card b, clearLines_linesClearedTotal b,
    clearLines_highScore_of_le b (receivable_score_le b h).2⟩

/-- The amended C7 on the board with eleven blocks at height `19`: one row is
counted, the total of cleared lines becomes `0 + 1`, and the high score becomes
the new score. -/
theorem clearLines_count_witness :
    Receivable (GameBoard.new.lockPiece overfullPiece) ∧
      ((GameBoard.new.lockPiece overfullPiece).clearLines.1 =
          ((((GameBoard.new.lockPiece overfullPiece).lockedBlocks.map
              (fun k => roundf k.position.y)).toFinset.filter
            (fun r => BOARD_W ≤
              ((GameBoard.new.lockPiece overfullPiece).lockedBlocks.countP (inRow r) : ℤ))).card
            : ℤ) ∧
        (GameBoard.new.lockPiece overfullPiece).clearLines.2.linesClearedTotal =
          (GameBoard.new.lockPiece overfullPiece).linesClearedTotal +
            (GameBoard.new.lockPiece overfullPiece).clearLines.1 ∧
        (GameBoard.new.lockPiece overfullPiece).clearLines.2.highScore =
          max (GameBoard.new.lockPiece overfullPiece).clearLines.2.score
            (GameBoard.new.lockPiece overfullPiece).highScore) :=
  ⟨Receivable.lockPiece _ _ Receivable.new,
    clearLines_count _ (Receivable.lockPiece _ _ Receivable.new)⟩

/-! ## Line clearing off the integer lattice -/

theorem roundf_offLattice : roundf (35 / 2) = 18 ∧ roundf (37 / 2) = 19 := by
  unfold roundf
  constructor
  · rw [if_pos (by norm_num)]
    have h : (35 / 2 : ℚ) + 1 / 2 = ((18 : ℤ) : ℚ) := by norm_num
    rw [h, Int.floor_intCast]
    norm_num
  · rw [if_pos (by norm_num)]
    have h : (37 / 2 : ℚ) + 1 / 2 = ((19 : ℤ) : ℚ) := by norm_num
    rw [h, Int.floor_intCast]
    norm_num

theorem countP_inRow_offLattice (r : ℚ) :
    offLatticeBlocks.countP (inRow r) =
      (if |(35 / 2 : ℚ) - r| < 1 / 2 then 1 else 0) +
        (if |(37 / 2 : ℚ) - r| < 1 / 2 then 1 else 0) +
        (if |(18 : ℚ) - r| < 1 / 2 then 10 else 0) := by
  unfold offLatticeBlocks
  rw [List.countP_append, countP_inRow_rowOf, List.countP_cons, List.countP_cons,
    List.countP_nil]
  simp only [inRow, lockedAt, decide_eq_true_eq, zero_add]
  ring

theorem isClearedRow_offLattice (r : ℚ) : IsClearedRow offLatticeBlocks r ↔ r = 18 := by
  unfold IsClearedRow
  rw [countP_inRow_offLattice]
  constructor
  · rintro ⟨⟨block, hb, hr⟩, hcount⟩
    unfold offLatticeBlocks at hb
    rw [List.mem_append, List.mem_cons, List.mem_cons, List.mem_nil_iff, or_false] at hb
    rcases hb with (rfl | rfl) | hb
    · rw [← hr]
      exact roundf_offLattice.1
    · exfalso
      have h19 : r = 19 := by
        rw [← hr]
        exact roundf_offLattice.2
      subst h19
      norm_num [BOARD_W, abs_lt] at hcount
    · obtain ⟨i, _, rfl⟩ := (mem_rowOf 18 10 3 block).mp hb
      rw [← hr]
      exact roundf_ofNat 18
  · rintro rfl
    refine ⟨⟨lockedAt 0 (35 / 2) 1, ?_, roundf_offLattice.1⟩, ?_⟩
    · unfold offLatticeBlocks
      exact List.mem_append_left _ (List.mem_cons_self _ _)
    · norm_num [BOARD_W, abs_lt]

theorem fullLinesOf_offLattice : fullLinesOf offLatticeBlocks = [18] :=
  eq_singleton_of_nodup_of_mem_iff _ _ (fullLinesOf_nodup _)
    (fun y => (mem_fullLinesOf_iff _ y).trans (isClearedRow_offLattice y))

theorem separated_offLattice : Separated offLatticeBlocks := by
  simp [Separated, offLatticeBlocks, rowOf, List.range_succ, lockedAt, overlaps, Vec2.distSq,
    COLLISION_EPSILON]
  norm_num

theorem inFullLine_offLattice :
    inFullLine [18] (lockedAt 0 (35 / 2) 1) = false ∧
      inFullLine [18] (lockedAt 0 (37 / 2) 2) = false ∧
      ∀ block ∈ rowOf 18 10 3, inFullLine [18] block = true := by
  refine ⟨?_, ?_, ?_⟩
  · rw [inFullLine_eq_false_iff]
    intro y hy
    rw [List.mem_singleton.mp hy]
    show ¬ |(35 / 2 : ℚ) - 18| < 1 / 2
    norm_num [abs_lt]
  · rw [inFullLine_eq_false_iff]
    intro y hy
    rw [List.mem_singleton.mp hy]
    show ¬ |(37 / 2 : ℚ) - 18| < 1 / 2
    norm_num [abs_lt]
  · intro block hb
    obtain ⟨i, _, rfl⟩ := (mem_rowOf 18 10 3 block).mp hb
    rw [inFullLine_iff]
    refine ⟨18, List.mem_singleton.mpr rfl, ?_⟩
    show |(18 : ℚ) - 18| < 1 / 2
    norm_num

theorem shiftOf_offLattice :
    shiftOf [18] (lockedAt 0 (35 / 2) 1) = 1 ∧ shiftOf [18] (lockedAt 0 (37 / 2) 2) = 0 := by
  constructor
  · rw [shiftOf_eq_countP]
    have h : decide ((18 : ℚ) > (lockedAt 0 (35 / 2) 1).position.y) = true := by
      show decide ((18 : ℚ) > 35 / 2) = true
      exact decide_eq_true (by norm_num)
    rw [List.countP_cons_of_pos
      (fun y : ℚ => decide (y > (lockedAt 0 (35 / 2) 1).position.y)) _ h, List.countP_nil]
    norm_num
  · rw [shiftOf_eq_countP]
    have h : ¬ (decide ((18 : ℚ) > (lockedAt 0 (37 / 2) 2).position.y) = true) := by
      show ¬ (decide ((18 : ℚ) > 37 / 2) = true)
      rw [decide_eq_true_eq]
      norm_num
    rw [List.countP_cons_of_neg
      (fun y : ℚ => decide (y > (lockedAt 0 (37 / 2) 2).position.y)) _ h, List.countP_nil]
    norm_num

theorem shiftedSurvivors_offLattice :
    shiftedSurvivors [18] offLatticeBlocks = [lockedAt 0 (37 / 2) 1, lockedAt 0 (37 / 2) 2] := by
  obtain ⟨ha, hb, hrow⟩ := inFullLine_offLattice
  have hfrow : (rowOf 18 10 3).filter (fun block => !inFullLine [18] block) = [] := by
    rw [List.filter_eq_nil_iff]
    intro block hblock
    rw [hrow block hblock]
    simp
  rw [shiftedSurvivors_eq]
  unfold offLatticeBlocks
  rw [List.filter_append, hfrow, List.append_nil,
    List.filter_cons_of_pos (by rw [ha]; rfl), List.filter_cons_of_pos (by rw [hb]; rfl),
    List.filter_nil, List.map_cons, List.map_cons, List.map_nil]
  unfold shiftBlock
  rw [shiftOf_offLattice.1, shiftOf_offLattice.2]
  simp only [lockedAt]
  norm_num

/-- Off the integer lattice the row shift of `clearLines` does not keep locked
blocks apart. On `offLatticeBlocks` no two blocks are closer than
`COLLISION_EPSILON`; `clearLines` clears the row at height `18`, moves the
block at `y = 17.5` down to `y = 18.5` and leaves the block at `y = 18.5` where
it is, so that two locked blocks share one position. -/
theorem clearLines_merges_off_lattice :
    Separated offLatticeBlocks ∧
      (boardOf offLatticeBlocks).clearLines.1 = 1 ∧
      (boardOf offLatticeBlocks).clearLines.2.lockedBlocks =
        [lockedAt 0 (37 / 2) 1, lockedAt 0 (37 / 2) 2] ∧
      ¬ Separated (boardOf offLatticeBlocks).clearLines.2.lockedBlocks := by
  have hne : fullLinesOf (boardOf offLatticeBlocks).lockedBlocks ≠ [] := by
    show fullLinesOf offLatticeBlocks ≠ []
    rw [fullLinesOf_offLattice]
    exact List.cons_ne_nil _ _
  have hlocked : (boardOf offLatticeBlocks).clearLines.2.lockedBlocks =
      [lockedAt 0 (37 / 2) 1, lockedAt 0 (37 / 2) 2] := by
    rw [clearLines_of_ne_nil _ hne]
    show shiftedSurvivors (fullLinesOf offLatticeBlocks) offLatticeBlocks = _
    rw [fullLinesOf_offLattice, shiftedSurvivors_offLattice]
  refine ⟨separated_offLattice, ?_, hlocked, ?_⟩
  · rw [clearLines_fst]
    show ((fullLinesOf offLatticeBlocks).length : ℤ) = 1
    rw [fullLinesOf_offLattice]
    rfl
  · rw [hlocked]
    simp [Separated, lockedAt, overlaps, Vec2.distSq, COLLISION_EPSILON]

end GameXepGach
